import Mathlib

/-!
# Miniramp (src/src/Miniramp.cpp) and Teleport (src/Little-Utils/src/Teleport.cpp)

Shallow embedding of `CustomPulseGenerator`, `Miniramp::process` and the
persistence of `Miniramp`, then of the Teleport registry with its producer and
consumer modules.

Modelling conventions.

* C++ `float` values are embedded twice.  In the first embedding they are
  idealised as elements of a linearly ordered field `K` (exact arithmetic, no
  rounding, no NaN or infinities); all definitions are generic in `K`, hence
  executable on `ℚ`, and statements about real powers are stated on `ℝ`.  It
  carries the statements on control flow, persistence and the registry.
* In the second embedding (namespace `F32`) a `float` is the rational number
  it denotes and every arithmetic operation is followed by `F32.round`,
  rounding to binary32 (round to nearest, ties to even, 24 significant bits,
  subnormal range included; overflow, infinities and NaN are not modelled).
  It carries the statements that depend on how rounding accumulates: the
  elapsed time of a pulse, the ramp value, the knob rescale.
* `clamp` and `rescale` are the Rack SDK helpers of `math.hpp`
  (`fmax(fmin(x, b), a)` and `yMin + (x - xMin) / (xMax - xMin) * (yMax - yMin)`).
* `powf` is the C library function; it is a parameter of the duration
  controller.
* `dsp::SchmittTrigger` is Rack SDK code: the boolean it returns on a sample
  (edge detected or not) is an input of the per-channel step.
* The smoothed panel lights are presentation only and are not modelled.
-/

namespace PdArray

/-! ## Rack helpers used by the module -/

/-- Rack `clamp(x, a, b)`: `fmax(fmin(x, b), a)`. -/
def clamp {K : Type} [LinearOrderedField K] (x a b : K) : K :=
  max (min x b) a

/-- Rack `rescale(x, xMin, xMax, yMin, yMax)`. -/
def rescale {K : Type} [LinearOrderedField K] (x xMin xMax yMin yMax : K) : K :=
  yMin + (x - xMin) / (xMax - xMin) * (yMax - yMin)

/-- Modelled from the spec: `signum` of `Util.hpp` (not among the sources), the
sign of its argument as an integer: `(0 < val) - (val < 0)`. -/
def signum {K : Type} [LinearOrderedField K] (val : K) : Int :=
  (if 0 < val then 1 else 0) - (if val < 0 then 1 else 0)

/-- Constant `MIN_EXPONENT = -3.0f`. -/
def MIN_EXPONENT {K : Type} [LinearOrderedField K] : K := -3

/-- Constant `MAX_EXPONENT = 1.0f`. -/
def MAX_EXPONENT {K : Type} [LinearOrderedField K] : K := 1

/-! ## CustomPulseGenerator -/

/-- The struct `CustomPulseGenerator`: elapsed `time`, `triggerDuration` and the
`finished` flag (the output is the inverse of this). -/
structure CustomPulseGenerator (K : Type) where
  time : K
  triggerDuration : K
  finished : Bool
deriving DecidableEq, Repr

namespace CustomPulseGenerator

variable {K : Type} [LinearOrderedField K]

/-- Method `reset()`: `time = 0; triggerDuration = 0; finished = true`.  The
constructor calls it, so this is also the freshly constructed generator. -/
def reset (_g : CustomPulseGenerator K) : CustomPulseGenerator K :=
  { time := 0, triggerDuration := 0, finished := true }

/-- Method `process(deltaTime)`: `time += deltaTime;
if(!finished) finished = time >= triggerDuration; return !finished;`.
Returns the new state and the returned boolean. -/
def process (g : CustomPulseGenerator K) (deltaTime : K) :
    CustomPulseGenerator K × Bool :=
  let time := g.time + deltaTime
  let finished := if !g.finished then decide (time ≥ g.triggerDuration) else g.finished
  ({ time := time, triggerDuration := g.triggerDuration, finished := finished }, !finished)

/-- Method `trigger(triggerDuration)`: `time = 0; finished = false;
this->triggerDuration = triggerDuration`. -/
def trigger (_g : CustomPulseGenerator K) (triggerDuration : K) :
    CustomPulseGenerator K :=
  { time := 0, triggerDuration := triggerDuration, finished := false }

/-- A sequence of `process` calls, one per time step, collecting the returned
booleans in call order. -/
def processAll (g : CustomPulseGenerator K) : List K → CustomPulseGenerator K × List Bool
  | [] => (g, [])
  | dt :: dts =>
    let r := g.process dt
    let rest := processAll r.1 dts
    (rest.1, r.2 :: rest.2)

/-- The ramp voltage `Miniramp::process` computes from an active gate generator:
`clamp(time / triggerDuration * 10.f, 0.f, 10.f)`. -/
def rampValue (g : CustomPulseGenerator K) : K :=
  clamp (g.time / g.triggerDuration * 10) 0 10

end CustomPulseGenerator

/-! ## Miniramp -/

/-- Enumerator `RAMP_FINISHED_0` of `RampFinishedMode`. -/
def RAMP_FINISHED_0 : Int := 0

/-- Enumerator `RAMP_FINISHED_10` of `RampFinishedMode`. -/
def RAMP_FINISHED_10 : Int := 1

/-- Enumerator `NUM_RAMP_FINISHED_MODES` of `RampFinishedMode`. -/
def NUM_RAMP_FINISHED_MODES : Int := 2

/-- Per-channel state of the module that the ramp logic reads and writes:
`gateGen[c]` and `eocGen[c]`. -/
structure Channel (K : Type) where
  gateGen : CustomPulseGenerator K
  eocGen : CustomPulseGenerator K
deriving DecidableEq, Repr

/-- What one pass of the channel loop body produces for channel `c`: the four
output voltages, and (as a record of the calls made) the argument of
`gateGen[c].trigger` and of `eocGen[c].trigger` when the call was made on this
sample, together with the locals `gate_prev` and `gate`. -/
structure ChannelOut (K : Type) where
  ramp : K
  gate : K
  eoc : K
  finish : K
  gateTrigger : Option K
  eocTrigger : Option K
  gate_prev : Bool
  gateActive : Bool
deriving DecidableEq, Repr

variable {K : Type} [LinearOrderedField K]

/-- The body of the channel loop of `Miniramp::process` for one channel.
`triggered` and `resetFired` are the results of `inputTrigger[c].process` and
`resetTrigger[c].process` on this sample. -/
def processChannel (rampFinishedMode : Int) (ramp_duration deltaTime : K)
    (triggered resetFired : Bool) (ch : Channel K) : Channel K × ChannelOut K :=
  -- reset everything / accept the trigger
  let gateGen0 :=
    if resetFired then ch.gateGen.reset
    else if triggered && decide (ramp_duration > 0) then ch.gateGen.trigger ramp_duration
    else ch.gateGen
  let eocGen0 := if resetFired then ch.eocGen.reset else ch.eocGen
  let gateTrigger : Option K :=
    if resetFired then none
    else if triggered && decide (ramp_duration > 0) then some ramp_duration
    else none
  -- update trigger duration even in the middle of a trigger
  let gateGen1 := { gateGen0 with triggerDuration := ramp_duration }
  let gate_prev := !gateGen1.finished
  let gp := gateGen1.process deltaTime
  let gateGen2 := gp.1
  let gate := gp.2
  -- gate was finished, start EOC
  let eocGen1 := if gate_prev && !gate then eocGen0.trigger (1 / 1000) else eocGen0
  let eocTrigger : Option K := if gate_prev && !gate then some (1 / 1000) else none
  let ep := eocGen1.process deltaTime
  let eoc_pulse := ep.2
  let ramp_v : K :=
    if gate then gateGen2.rampValue
    else if rampFinishedMode = RAMP_FINISHED_0 then 0 else 10
  ({ gateGen := gateGen2, eocGen := ep.1 },
   { ramp := ramp_v
     gate := if gate then 10 else 0
     eoc := if eoc_pulse then 10 else 0
     finish := if gate then 0 else 10
     gateTrigger := gateTrigger
     eocTrigger := eocTrigger
     gate_prev := gate_prev
     gateActive := gate })

/-- The fields of `Miniramp` that `process` reads and writes.  The arrays
`gateGen`, `eocGen` are indexed by the channel number. -/
structure Miniramp (K : Type) where
  ramp_base_duration : K
  ramp_duration : K
  cv_scale : K
  rampFinishedMode : Int
  channel : Nat → Channel K

/-- The inputs of one `Miniramp::process` call: `args.sampleTime`, the channel
count of `TRIG_INPUT`, the three parameters, the voltage of
`RAMP_LENGTH_INPUT`, and per channel the results of the two edge detectors. -/
structure ProcessArgs (K : Type) where
  sampleTime : K
  channels : Nat
  knob_value : K
  cv_amt : K
  lin_log_mode : K
  cv_voltage : K
  triggered : Nat → Bool
  resetFired : Nat → Bool

/-- The constructor `Miniramp()`: `ramp_base_duration = 0.5f`,
`ramp_duration = ramp_base_duration`, `cv_scale = 0`, mode `RAMP_FINISHED_0`,
all pulse generators reset. -/
def Miniramp.init : Miniramp K :=
  { ramp_base_duration := 1 / 2
    ramp_duration := 1 / 2
    cv_scale := 0
    rampFinishedMode := RAMP_FINISHED_0
    channel := fun _ =>
      { gateGen := { time := 0, triggerDuration := 0, finished := true }
        eocGen := { time := 0, triggerDuration := 0, finished := true } } }

/-- The duration controller at the head of `Miniramp::process`: returns
`(cv_scale, ramp_base_duration, ramp_duration)`. -/
def duration (powf : K → K → K) (knob_value cv_amt lin_log_mode cv_voltage : K) :
    K × K × K :=
  let p : K × K :=
    if lin_log_mode < 1 / 2 then
      -- linear mode
      (cv_amt, knob_value)
    else
      -- logarithmic mode
      let exponent := rescale knob_value 0 10 MIN_EXPONENT MAX_EXPONENT
      let cv_exponent := rescale |cv_amt| 0 1 MIN_EXPONENT MAX_EXPONENT
      (powf 10 (cv_exponent - 1) * ((signum cv_amt : Int) : K), powf 10 exponent)
  let cv_scale := p.1
  let ramp_base_duration := p.2
  (cv_scale, ramp_base_duration, clamp (ramp_base_duration + cv_voltage * cv_scale) 0 10)

/-- Method `Miniramp::process`: the duration controller followed by the channel
loop over `c < max(channels, 1)`.  Returns the new module state and the
per-channel outputs (`none` for a channel the loop does not visit). -/
def Miniramp.process (powf : K → K → K) (m : Miniramp K) (args : ProcessArgs K) :
    Miniramp K × (Nat → Option (ChannelOut K)) :=
  let d := duration powf args.knob_value args.cv_amt args.lin_log_mode args.cv_voltage
  let step := fun c =>
    processChannel m.rampFinishedMode d.2.2 args.sampleTime
      (args.triggered c) (args.resetFired c) (m.channel c)
  ({ ramp_base_duration := d.2.1
     ramp_duration := d.2.2
     cv_scale := d.1
     rampFinishedMode := m.rampFinishedMode
     channel := fun c => if c < max args.channels 1 then (step c).1 else m.channel c },
   fun c => if c < max args.channels 1 then some (step c).2 else none)

/-- A run of one channel under the loop body with constant mode, duration and
sample time: the channel state before sample `n` (samples are numbered from 0),
where `trig n` and `rst n` are the edge detector results on sample `n`. -/
def runChannel (mode : Int) (d dt : K) (trig rst : Nat → Bool) (ch : Channel K) :
    Nat → Channel K
  | 0 => ch
  | n + 1 =>
    (processChannel mode d dt (trig n) (rst n) (runChannel mode d dt trig rst ch n)).1

/-- The outputs of sample `n` of the run `runChannel`. -/
def outAt (mode : Int) (d dt : K) (trig rst : Nat → Bool) (ch : Channel K)
    (n : Nat) : ChannelOut K :=
  (processChannel mode d dt (trig n) (rst n) (runChannel mode d dt trig rst ch n)).2

/-- A sequence of `Miniramp::process` calls, one per element of `argss`, from
left to right: the module state after the last call. -/
def Miniramp.run (powf : K → K → K) (m : Miniramp K) : List (ProcessArgs K) → Miniramp K
  | [] => m
  | args :: argss => Miniramp.run powf (Miniramp.process powf m args).1 argss

/-! ## Miniramp persistence -/

/-- What `json_object_get(root, "rampFinishedMode")` yields: no such member, an
integer member, or a member of another JSON type. -/
inductive JsonField where
  | absent : JsonField
  | integer (x : Int) : JsonField
  | other : JsonField
deriving DecidableEq, Repr

/-- The conversion `int(...)` of a 64-bit `json_int_t` to a 32-bit `int`
(reduction modulo `2^32` into the signed range). -/
def toInt32 (x : Int) : Int :=
  (x + 2 ^ 31) % 2 ^ 32 - 2 ^ 31

/-- Library function `json_integer_value`: the value of an integer member and 0
for any other JSON value. -/
def json_integer_value : JsonField → Int
  | JsonField.integer x => x
  | _ => 0

/-- Method `Miniramp::dataToJson`: the member `"rampFinishedMode"` is
`json_integer(rampFinishedMode)`. -/
def Miniramp.dataToJson (m : Miniramp K) : JsonField :=
  JsonField.integer m.rampFinishedMode

/-- Method `Miniramp::dataFromJson`: `if(rampFinished_J) { int rfm =
int(json_integer_value(rampFinished_J)); if(rfm < NUM_RAMP_FINISHED_MODES)
rampFinishedMode = static_cast<RampFinishedMode>(rfm); }`. -/
def Miniramp.dataFromJson (m : Miniramp K) (rampFinished_J : JsonField) : Miniramp K :=
  match rampFinished_J with
  | JsonField.absent => m
  | j =>
    let rfm := toInt32 (json_integer_value j)
    if rfm < NUM_RAMP_FINISHED_MODES then { m with rampFinishedMode := rfm } else m

/-! ## Teleport (src/Little-Utils/src/Teleport.cpp)

`Teleport.hpp` (the base struct `Teleport` with its static members) and
`randomString` are not among the sources.  The registry `Teleport::buffer` is a
`std::map<std::string, float>`; it is embedded as the list of its entries in
increasing key order, the keys being compared character by character.  The
successive results of `randomString(LABEL_LENGTH)` are an input of `getLabel`.
-/

/-- The type `std::map<std::string, float>`: the entries in increasing key
order. -/
abbrev Buffer (V : Type) := List (String × V)

namespace Buffer

variable {V : Type}

/-- The keys of the map, in iteration order. -/
def keys (b : Buffer V) : List String :=
  List.map Prod.fst b

/-- The map invariant: keys strictly increasing along the iteration order. -/
def Sorted (b : Buffer V) : Prop :=
  List.Pairwise (fun e f : String × V => e.1 < f.1) b

/-- The test `buffer.find(l) != buffer.end()`. -/
def contains (b : Buffer V) (l : String) : Bool :=
  List.any b (fun e => e.1 == l)

/-- The value `buffer.find(l)->second`, if `l` is found. -/
def find (b : Buffer V) (l : String) : Option V :=
  Option.map Prod.snd (List.find? (fun e => e.1 == l) b)

/-- The call `buffer.erase(l)`. -/
def erase (b : Buffer V) (l : String) : Buffer V :=
  List.filter (fun e => e.1 != l) b

/-- The assignment `buffer[l] = v`: overwrite the entry of `l`, or insert one at
its place in the key order. -/
def assign : Buffer V → String → V → Buffer V
  | [], l, v => [(l, v)]
  | (k, x) :: rest, l, v =>
    if l.toList < k.toList then (l, v) :: (k, x) :: rest
    else if l = k then (k, v) :: rest
    else (k, x) :: assign rest l v

/-- The read `buffer[l]`: the value of `l`, a value-initialised entry being
inserted first when `l` is absent.  Returns the value and the map. -/
def index [Zero V] (b : Buffer V) (l : String) : V × Buffer V :=
  match find b l with
  | some v => (v, b)
  | none => (0, assign b l 0)

end Buffer

/-- Modelled from the spec: the static members of `Teleport` (`Teleport.hpp` is
not among the sources): the registry `buffer` and the most-recently-inserted
key `lastInsertedKey`. -/
structure Teleport (V : Type) where
  buffer : Buffer V
  lastInsertedKey : String
deriving Repr

/-- Modelled from the spec: `Teleport::addToBuffer(label, value)` of
`Teleport.hpp`: "adds an entry; updates the most recent hint to this label". -/
def Teleport.addToBuffer {V : Type} (t : Teleport V) (label : String) (value : V) :
    Teleport V :=
  { buffer := Buffer.assign t.buffer label value, lastInsertedKey := label }

/-- The statics before any module exists: empty registry, empty hint. -/
def Teleport.init {V : Type} : Teleport V :=
  { buffer := [], lastInsertedKey := "" }

/-- The instance state of a `TeleportInModule`: its `label`. -/
structure TeleportInModule where
  label : String
deriving DecidableEq, Repr

/-- The instance state of a `TeleportOutModule`: its `label` and the value of
`outputs[OUTPUT_1]`. -/
structure TeleportOutModule (V : Type) where
  label : String
  output : V
deriving DecidableEq, Repr

/-- The member `"label"` of persisted module data as `fromJson` sees it:
`some s` when `json_is_string(label_json)` holds, the string being `s`, and
`none` when the member is missing or not a string. -/
abbrev LabelJson := Option String

section TeleportDefs

variable {V : Type}

/-- Method `TeleportInModule::getLabel`: `do { l = randomString(LABEL_LENGTH); }
while(buffer.find(l) != buffer.end()); return l;`.  `rnd` lists the successive
results of `randomString`; the result is `none` when the loop has not ended
after all of them.  The statics are returned along with the label. -/
def getLabel (t : Teleport V) : List String → Option (String × Teleport V)
  | [] => none
  | l :: rnd => if Buffer.contains t.buffer l then getLabel t rnd else some (l, t)

/-- The constructor `TeleportInModule()`: `label = getLabel();
addToBuffer(label, 0.f)`. -/
def TeleportInModule.new [Zero V] (t : Teleport V) (rnd : List String) :
    Option (TeleportInModule × Teleport V) :=
  match getLabel t rnd with
  | none => none
  | some (l, t1) => some ({ label := l }, t1.addToBuffer l 0)

/-- The destructor `~TeleportInModule()`: `buffer.erase(label)`. -/
def TeleportInModule.delete (t : Teleport V) (p : TeleportInModule) : Teleport V :=
  { t with buffer := Buffer.erase t.buffer p.label }

/-- Method `TeleportInModule::toJson`: the member `"label"` is the label. -/
def TeleportInModule.toJson (p : TeleportInModule) : LabelJson :=
  some p.label

/-- Method `TeleportInModule::fromJson`. -/
def TeleportInModule.fromJson [Zero V] (t : Teleport V) (p : TeleportInModule)
    (label_json : LabelJson) (rnd : List String) : Option (TeleportInModule × Teleport V) :=
  match label_json with
  | some s =>
    -- remove previous label randomly generated in constructor
    let t1 : Teleport V := { t with buffer := Buffer.erase t.buffer p.label }
    if Buffer.contains t1.buffer s then
      -- label already exists in buffer: generate new label
      match getLabel t1 rnd with
      | none => none
      | some (l, t2) => some ({ label := l }, t2.addToBuffer l 0)
    else some ({ label := s }, t1.addToBuffer s 0)
  | none =>
    -- label couldn't be read from json, generate new one
    match getLabel t rnd with
    | none => none
    | some (l, t1) => some ({ label := l }, t1.addToBuffer l 0)

/-- Method `TeleportInModule::step`: `buffer[label] = inputs[INPUT_1].value`. -/
def TeleportInModule.step (t : Teleport V) (p : TeleportInModule) (input : V) : Teleport V :=
  { t with buffer := Buffer.assign t.buffer p.label input }

/-- The constructor `TeleportOutModule()`.  The output value starts at 0. -/
def TeleportOutModule.new [Zero V] (t : Teleport V) : TeleportOutModule V :=
  { label :=
      if List.length t.buffer > 0 then
        if Buffer.contains t.buffer t.lastInsertedKey then t.lastInsertedKey
        else
          -- pick first input in alphabetical order: buffer.begin()->first
          match t.buffer with
          | e :: _ => e.1
          | [] => ""
      else ""
    output := 0 }

/-- Method `TeleportOutModule::step`: `if(buffer.find(label) == buffer.end())
label = ""; outputs[OUTPUT_1].value = label.empty() ? 0.f : buffer[label];`. -/
def TeleportOutModule.step [Zero V] (t : Teleport V) (c : TeleportOutModule V) :
    Teleport V × TeleportOutModule V :=
  let label := if Buffer.contains t.buffer c.label then c.label else ""
  if label = "" then (t, { label := label, output := 0 })
  else
    let r := Buffer.index t.buffer label
    ({ t with buffer := r.2 }, { label := label, output := r.1 })

/-- Method `TeleportOutModule::toJson`. -/
def TeleportOutModule.toJson (c : TeleportOutModule V) : LabelJson :=
  some c.label

/-- Method `TeleportOutModule::fromJson`: `if(json_is_string(label_json))
label = json_string_value(label_json)`. -/
def TeleportOutModule.fromJson (c : TeleportOutModule V) (label_json : LabelJson) :
    TeleportOutModule V :=
  match label_json with
  | some s => { c with label := s }
  | none => c

/-- The statics together with the live `TeleportInModule` instances:
`producers i` is the state of instance `i` while it is live. -/
structure World (V : Type) where
  statics : Teleport V
  producers : Nat → Option TeleportInModule

/-- No module exists yet. -/
def World.init : World V :=
  { statics := Teleport.init, producers := fun _ => none }

/-- The operations on producers: construction of instance `i`, `fromJson` on it,
its destruction, and its `step` with an input value.  `rnd` lists the results
of `randomString` during the operation. -/
inductive Op (V : Type) where
  | construct (i : Nat) (rnd : List String) : Op V
  | fromJson (i : Nat) (label_json : LabelJson) (rnd : List String) : Op V
  | destroy (i : Nat) : Op V
  | step (i : Nat) (input : V) : Op V

/-- One operation.  The result is `none` when `getLabel` has not returned within
`rnd`, or when the operation does not apply (constructing an instance that is
live, using one that is not). -/
def World.apply [Zero V] (w : World V) : Op V → Option (World V)
  | Op.construct i rnd =>
    match w.producers i with
    | some _ => none
    | none =>
      match TeleportInModule.new w.statics rnd with
      | none => none
      | some (p, t) => some { statics := t, producers := Function.update w.producers i (some p) }
  | Op.fromJson i label_json rnd =>
    match w.producers i with
    | none => none
    | some p =>
      match TeleportInModule.fromJson w.statics p label_json rnd with
      | none => none
      | some (q, t) => some { statics := t, producers := Function.update w.producers i (some q) }
  | Op.destroy i =>
    match w.producers i with
    | none => none
    | some p =>
      some { statics := TeleportInModule.delete w.statics p,
             producers := Function.update w.producers i none }
  | Op.step i input =>
    match w.producers i with
    | none => none
    | some p => some { w with statics := TeleportInModule.step w.statics p input }

/-- A sequence of operations, from left to right. -/
def World.run [Zero V] (w : World V) : List (Op V) → Option (World V)
  | [] => some w
  | op :: ops =>
    match w.apply op with
    | none => none
    | some w1 => World.run w1 ops

/-- The registry invariant: the map is in key order, live producers have
pairwise different labels, and each live producer's label is a key. -/
def World.Inv (w : World V) : Prop :=
  Buffer.Sorted w.statics.buffer ∧
  (∀ i j p q, w.producers i = some p → w.producers j = some q → p.label = q.label → i = j) ∧
  (∀ i p, w.producers i = some p → p.label ∈ Buffer.keys w.statics.buffer)

end TeleportDefs

/-! ## Binary32 rounding

The functions whose behaviour depends on how `float` rounding accumulates are
embedded a second time, below, with every arithmetic operation rounded to
binary32 (round to nearest, ties to even).  A `float` is the rational number it
denotes.  Infinities and NaN are not represented: a result beyond the largest
finite binary32 value stays on the grid of its binade. -/

namespace F32

/-- Number of binary digits of `n`; `fuel` bounds the recursion and `n` itself
is enough fuel. -/
def bitLen : Nat → Nat → Nat
  | 0, _ => 0
  | fuel + 1, n => if n = 0 then 0 else bitLen fuel (n / 2) + 1

/-- The integer `e` with `2 ^ e ≤ |x| < 2 ^ (e + 1)`, for `x ≠ 0`. -/
def elog (x : ℚ) : Int :=
  let e0 : Int := (bitLen x.num.natAbs x.num.natAbs : Int) - (bitLen x.den x.den : Int)
  if |x| < (2 : ℚ) ^ e0 then e0 - 1 else e0

/-- The binary32 exponent of `x`: `elog x`, and -126 for zero and for the
subnormal range. -/
def expo (x : ℚ) : Int :=
  if x = 0 then -126 else max (elog x) (-126)

/-- The spacing of the binary32 values around `x` (24 significant bits). -/
def ulp (x : ℚ) : ℚ :=
  (2 : ℚ) ^ (expo x - 23)

/-- The integer nearest to `q`, the even one of the two when `q` is halfway. -/
def roundHalfEven (q : ℚ) : Int :=
  if q - ⌊q⌋ < 1 / 2 then ⌊q⌋
  else if 1 / 2 < q - ⌊q⌋ then ⌊q⌋ + 1
  else if ⌊q⌋ % 2 = 0 then ⌊q⌋ else ⌊q⌋ + 1

/-- The binary32 value nearest to a non-negative `x`, ties to even. -/
def roundNonneg (x : ℚ) : ℚ :=
  roundHalfEven (x / ulp x) * ulp x

/-- The binary32 value nearest to `x`, ties to even (the rounding of every
`float` operation). -/
def round (x : ℚ) : ℚ :=
  if x < 0 then -roundNonneg (-x) else roundNonneg x

end F32

/-! ## The pulse generator and the channel loop with binary32 rounding -/

namespace F32

/-- Method `CustomPulseGenerator::process(deltaTime)` with the addition
`time += deltaTime` rounded to binary32. -/
def process (g : CustomPulseGenerator ℚ) (deltaTime : ℚ) : CustomPulseGenerator ℚ × Bool :=
  let time := round (g.time + deltaTime)
  let finished := if !g.finished then decide (time ≥ g.triggerDuration) else g.finished
  ({ time := time, triggerDuration := g.triggerDuration, finished := finished }, !finished)

/-- A sequence of `process` calls, one per time step, collecting the returned
booleans in call order. -/
def processAll (g : CustomPulseGenerator ℚ) : List ℚ → CustomPulseGenerator ℚ × List Bool
  | [] => (g, [])
  | dt :: dts =>
    let r := process g dt
    let rest := processAll r.1 dts
    (rest.1, r.2 :: rest.2)

/-- The accumulated time as the code computes it: the value of `time` after
`time += dt` for each `dt` of the list in turn, starting from `t`. -/
def accumulate (t : ℚ) : List ℚ → ℚ
  | [] => t
  | dt :: dts => accumulate (round (t + dt)) dts

/-- The ramp voltage of an active gate generator,
`clamp(time / triggerDuration * 10.f, 0.f, 10.f)`, the division and the
multiplication rounded to binary32. -/
def rampValue (g : CustomPulseGenerator ℚ) : ℚ :=
  clamp (round (round (g.time / g.triggerDuration) * 10)) 0 10

/-- The literal `1e-3f`. -/
def eocDuration : ℚ :=
  round (1 / 1000)

/-- The body of the channel loop of `Miniramp::process` for one channel, with
the pulse generators advanced by `F32.process` and the ramp computed by
`F32.rampValue`. -/
def processChannel (rampFinishedMode : Int) (ramp_duration deltaTime : ℚ)
    (triggered resetFired : Bool) (ch : Channel ℚ) : Channel ℚ × ChannelOut ℚ :=
  -- reset everything / accept the trigger
  let gateGen0 :=
    if resetFired then ch.gateGen.reset
    else if triggered && decide (ramp_duration > 0) then ch.gateGen.trigger ramp_duration
    else ch.gateGen
  let eocGen0 := if resetFired then ch.eocGen.reset else ch.eocGen
  let gateTrigger : Option ℚ :=
    if resetFired then none
    else if triggered && decide (ramp_duration > 0) then some ramp_duration
    else none
  -- update trigger duration even in the middle of a trigger
  let gateGen1 := { gateGen0 with triggerDuration := ramp_duration }
  let gate_prev := !gateGen1.finished
  let gp := process gateGen1 deltaTime
  let gateGen2 := gp.1
  let gate := gp.2
  -- gate was finished, start EOC
  let eocGen1 := if gate_prev && !gate then eocGen0.trigger eocDuration else eocGen0
  let eocTrigger : Option ℚ := if gate_prev && !gate then some eocDuration else none
  let ep := process eocGen1 deltaTime
  let eoc_pulse := ep.2
  let ramp_v : ℚ :=
    if gate then rampValue gateGen2
    else if rampFinishedMode = RAMP_FINISHED_0 then 0 else 10
  ({ gateGen := gateGen2, eocGen := ep.1 },
   { ramp := ramp_v
     gate := if gate then 10 else 0
     eoc := if eoc_pulse then 10 else 0
     finish := if gate then 0 else 10
     gateTrigger := gateTrigger
     eocTrigger := eocTrigger
     gate_prev := gate_prev
     gateActive := gate })

/-- A run of one channel under `F32.processChannel` with constant mode,
duration and sample time: the channel state before sample `n`. -/
def runChannel (mode : Int) (d dt : ℚ) (trig rst : Nat → Bool) (ch : Channel ℚ) :
    Nat → Channel ℚ
  | 0 => ch
  | n + 1 =>
    (processChannel mode d dt (trig n) (rst n) (runChannel mode d dt trig rst ch n)).1

/-- The outputs of sample `n` of the run `F32.runChannel`. -/
def outAt (mode : Int) (d dt : ℚ) (trig rst : Nat → Bool) (ch : Channel ℚ)
    (n : Nat) : ChannelOut ℚ :=
  (processChannel mode d dt (trig n) (rst n) (runChannel mode d dt trig rst ch n)).2

/-- Rack `rescale(x, xMin, xMax, yMin, yMax)`,
`yMin + (x - xMin) / (xMax - xMin) * (yMax - yMin)`, each of the six
operations rounded to binary32. -/
def rescale (x xMin xMax yMin yMax : ℚ) : ℚ :=
  round (yMin + round (round (round (x - xMin) / round (xMax - xMin)) * round (yMax - yMin)))

/-- The duration controller at the head of `Miniramp::process` with binary32
rounding: returns `(cv_scale, ramp_base_duration, ramp_duration)`.  `powf` is
the C library function, from binary32 values to binary32 values. -/
def duration (powf : ℚ → ℚ → ℚ) (knob_value cv_amt lin_log_mode cv_voltage : ℚ) :
    ℚ × ℚ × ℚ :=
  let p : ℚ × ℚ :=
    if lin_log_mode < 1 / 2 then
      -- linear mode
      (cv_amt, knob_value)
    else
      -- logarithmic mode
      let exponent := rescale knob_value 0 10 MIN_EXPONENT MAX_EXPONENT
      let cv_exponent := rescale |cv_amt| 0 1 MIN_EXPONENT MAX_EXPONENT
      (round (powf 10 (round (cv_exponent - 1)) * ((signum cv_amt : Int) : ℚ)),
        powf 10 exponent)
  let cv_scale := p.1
  let ramp_base_duration := p.2
  (cv_scale, ramp_base_duration,
    clamp (round (ramp_base_duration + round (cv_voltage * cv_scale))) 0 10)

end F32

/-! ## Properties of the pulse generator -/

section PulseLemmas

variable (g : CustomPulseGenerator K)

theorem processAll_time (dts : List K) :
    (g.processAll dts).1.time = g.time + dts.sum := by
  induction dts generalizing g with
  | nil => simp [CustomPulseGenerator.processAll]
  | cons dt dts ih =>
    simp only [CustomPulseGenerator.processAll, List.sum_cons]
    rw [ih]
    simp [CustomPulseGenerator.process, add_assoc]

theorem processAll_triggerDuration (dts : List K) :
    (g.processAll dts).1.triggerDuration = g.triggerDuration := by
  induction dts generalizing g with
  | nil => simp [CustomPulseGenerator.processAll]
  | cons dt dts ih =>
    simp only [CustomPulseGenerator.processAll]
    rw [ih]
    simp [CustomPulseGenerator.process]

theorem processAll_length (dts : List K) :
    (g.processAll dts).2.length = dts.length := by
  induction dts generalizing g with
  | nil => simp [CustomPulseGenerator.processAll]
  | cons dt dts ih => simp [CustomPulseGenerator.processAll, ih]

/-- While the accumulated time stays below the duration, an unfinished pulse
stays unfinished and every call returns `true`. -/
theorem processAll_active (dts : List K) (hf : g.finished = false)
    (hnn : ∀ dt ∈ dts, 0 ≤ dt) (hlt : g.time + dts.sum < g.triggerDuration) :
    (g.processAll dts).1.finished = false ∧ ∀ b ∈ (g.processAll dts).2, b = true := by
  induction dts generalizing g with
  | nil => simp [CustomPulseGenerator.processAll, hf]
  | cons dt dts ih =>
    have hdt : 0 ≤ dt := hnn dt (List.mem_cons_self _ _)
    have hrest : ∀ x ∈ dts, 0 ≤ x := fun x hx => hnn x (List.mem_cons_of_mem _ hx)
    have hs : 0 ≤ dts.sum := List.sum_nonneg hrest
    rw [List.sum_cons] at hlt
    have hstep : g.time + dt < g.triggerDuration := by linarith
    have hfin : (g.process dt).1.finished = false := by
      simp [CustomPulseGenerator.process, hf, hstep]
    have hret : (g.process dt).2 = true := by
      simp [CustomPulseGenerator.process, hf, hstep]
    have htime : (g.process dt).1.time = g.time + dt := by
      simp [CustomPulseGenerator.process]
    have hdur : (g.process dt).1.triggerDuration = g.triggerDuration := by
      simp [CustomPulseGenerator.process]
    have h := ih (g.process dt).1 hfin hrest (by rw [htime, hdur]; linarith)
    refine ⟨by simpa [CustomPulseGenerator.processAll] using h.1, ?_⟩
    intro b hb
    simp only [CustomPulseGenerator.processAll, List.mem_cons] at hb
    rcases hb with hb | hb
    · rw [hb, hret]
    · exact h.2 b hb

/-- A finished pulse stays finished: every later call returns `false`. -/
theorem processAll_finished (dts : List K) (hf : g.finished = true) (i : Nat)
    (hi : i < dts.length) : (g.processAll dts).2[i]? = some false := by
  induction dts generalizing g i with
  | nil => simp at hi
  | cons dt dts ih =>
    have hfin : (g.process dt).1.finished = true := by
      simp [CustomPulseGenerator.process, hf]
    cases i with
    | zero => simp [CustomPulseGenerator.processAll, CustomPulseGenerator.process, hf]
    | succ i =>
      simp only [CustomPulseGenerator.processAll, List.getElem?_cons_succ]
      exact ih _ hfin i (by simpa using hi)

/-- Once the accumulated time has reached the duration at call `j`, call `j` and
every later call return `false`. -/
theorem processAll_expired (dts : List K) (i j : Nat) (hj : j ≤ i)
    (hi : i < dts.length) (hacc : g.triggerDuration ≤ g.time + (dts.take (j + 1)).sum) :
    (g.processAll dts).2[i]? = some false := by
  induction dts generalizing g i j with
  | nil => simp at hi
  | cons dt dts ih =>
    cases j with
    | zero =>
      simp only [zero_add, List.take_succ_cons, List.take_zero, List.sum_cons,
        List.sum_nil, add_zero] at hacc
      have hfin : (g.process dt).1.finished = true := by
        cases hg : g.finished <;> simp [CustomPulseGenerator.process, hg, hacc]
      cases i with
      | zero =>
        cases hg : g.finished <;>
          simp [CustomPulseGenerator.processAll, CustomPulseGenerator.process, hg, hacc]
      | succ i =>
        simp only [CustomPulseGenerator.processAll, List.getElem?_cons_succ]
        exact processAll_finished _ dts hfin i (by simpa using hi)
    | succ j =>
      cases i with
      | zero => omega
      | succ i =>
        simp only [CustomPulseGenerator.processAll, List.getElem?_cons_succ]
        apply ih (g.process dt).1 i j (by omega) (by simpa using hi)
        simp only [List.take_succ_cons, List.sum_cons] at hacc
        simpa [CustomPulseGenerator.process, add_assoc] using hacc

end PulseLemmas

/-! ## Properties of the channel loop body -/

section ChannelLemmas

variable (mode : Int) (d dt : K)

/-- One sample without trigger or reset edge: the gate generator takes the
current duration and advances. -/
theorem processChannel_quiet_gateGen (ch : Channel K) :
    (processChannel mode d dt false false ch).1.gateGen =
      { time := ch.gateGen.time + dt, triggerDuration := d,
        finished := ch.gateGen.finished || decide (d ≤ ch.gateGen.time + dt) } := by
  cases h : ch.gateGen.finished <;> simp [processChannel, CustomPulseGenerator.process, h]

/-- One sample with an accepted trigger edge and no reset edge. -/
theorem processChannel_trig_gateGen (hd : 0 < d) (ch : Channel K) :
    (processChannel mode d dt true false ch).1.gateGen =
      { time := dt, triggerDuration := d, finished := decide (d ≤ dt) } := by
  simp [processChannel, CustomPulseGenerator.process, CustomPulseGenerator.trigger, hd]

theorem processChannel_quiet_gate_prev (ch : Channel K) :
    (processChannel mode d dt false false ch).2.gate_prev = !ch.gateGen.finished := by
  simp [processChannel]

theorem processChannel_trig_gate_prev (hd : 0 < d) (ch : Channel K) :
    (processChannel mode d dt true false ch).2.gate_prev = true := by
  simp [processChannel, CustomPulseGenerator.trigger, hd]

/-- The local `gate` is the negation of the stored `finished` flag. -/
theorem processChannel_gateActive (t r : Bool) (ch : Channel K) :
    (processChannel mode d dt t r ch).2.gateActive =
      !(processChannel mode d dt t r ch).1.gateGen.finished := by
  simp [processChannel, CustomPulseGenerator.process]

theorem processChannel_gate (t r : Bool) (ch : Channel K) :
    (processChannel mode d dt t r ch).2.gate =
      if (processChannel mode d dt t r ch).2.gateActive then 10 else 0 := by
  simp [processChannel]

theorem processChannel_eocTrigger (t r : Bool) (ch : Channel K) :
    (processChannel mode d dt t r ch).2.eocTrigger =
      if (processChannel mode d dt t r ch).2.gate_prev &&
          !(processChannel mode d dt t r ch).2.gateActive then some (1 / 1000) else none := by
  simp [processChannel]

end ChannelLemmas

section SingleTrigger

variable (mode : Int) (d dt : K) (trig : Nat → Bool) (k : Nat) (ch : Channel K)

theorem runChannel_succ (rst : Nat → Bool) (n : Nat) :
    runChannel mode d dt trig rst ch (n + 1) =
      (processChannel mode d dt (trig n) (rst n) (runChannel mode d dt trig rst ch n)).1 :=
  rfl

/-- Before the trigger sample an idle gate stays idle. -/
theorem runChannel_before (hidle : ch.gateGen.finished = true)
    (hk : ∀ n, trig n = true ↔ n = k) (n : Nat) (hn : n ≤ k) :
    (runChannel mode d dt trig (fun _ => false) ch n).gateGen.finished = true := by
  induction n with
  | zero => simpa [runChannel] using hidle
  | succ n ih =>
    have hne : trig n = false := by
      cases h : trig n with
      | false => rfl
      | true => have := (hk n).1 h; omega
    rw [runChannel_succ, hne, processChannel_quiet_gateGen]
    simp [ih (by omega)]

/-- After the trigger sample `k`, the gate generator has counted `j + 1` sample
times and is finished exactly when that time has reached the duration. -/
theorem runChannel_after (hd : 0 < d) (hdt : 0 ≤ dt)
    (hk : ∀ n, trig n = true ↔ n = k) (j : Nat) :
    (runChannel mode d dt trig (fun _ => false) ch (k + j + 1)).gateGen =
      { time := ((j : K) + 1) * dt, triggerDuration := d,
        finished := decide (d ≤ ((j : K) + 1) * dt) } := by
  induction j with
  | zero =>
    have hkt : trig k = true := (hk k).2 rfl
    rw [add_zero, runChannel_succ, hkt, processChannel_trig_gateGen mode d dt hd]
    simp
  | succ j ih =>
    have hne : trig (k + j + 1) = false := by
      cases h : trig (k + j + 1) with
      | false => rfl
      | true => have := (hk _).1 h; omega
    have hstep : k + (j + 1) + 1 = (k + j + 1) + 1 := by omega
    rw [hstep, runChannel_succ, hne, processChannel_quiet_gateGen, ih]
    have htime : ((j : K) + 1) * dt + dt = (((j + 1 : Nat) : K) + 1) * dt := by
      push_cast; ring
    simp only [htime]
    congr 1
    by_cases h1 : d ≤ ((j : K) + 1) * dt
    · have h2 : d ≤ (((j + 1 : Nat) : K) + 1) * dt := by rw [← htime]; linarith
      rw [decide_eq_true h1, decide_eq_true h2, Bool.true_or]
    · rw [decide_eq_false h1, Bool.false_or]

end SingleTrigger

section SingleTriggerOut

variable (mode : Int) (d dt : K) (trig : Nat → Bool) (k : Nat) (ch : Channel K)

theorem outAt_gateActive (rst : Nat → Bool) (n : Nat) :
    (outAt mode d dt trig rst ch n).gateActive =
      !(runChannel mode d dt trig rst ch (n + 1)).gateGen.finished := by
  rw [runChannel_succ]
  exact processChannel_gateActive mode d dt _ _ _

theorem outAt_gate (rst : Nat → Bool) (n : Nat) :
    (outAt mode d dt trig rst ch n).gate =
      if (outAt mode d dt trig rst ch n).gateActive then 10 else 0 :=
  processChannel_gate mode d dt _ _ _

theorem outAt_eocTrigger (rst : Nat → Bool) (n : Nat) :
    (outAt mode d dt trig rst ch n).eocTrigger =
      if (outAt mode d dt trig rst ch n).gate_prev &&
          !(outAt mode d dt trig rst ch n).gateActive then some (1 / 1000) else none :=
  processChannel_eocTrigger mode d dt _ _ _

theorem trig_false_of_ne (hk : ∀ n, trig n = true ↔ n = k) (n : Nat) (hn : n ≠ k) :
    trig n = false := by
  cases h : trig n with
  | false => rfl
  | true => exact absurd ((hk n).1 h) hn

/-- Before the trigger sample: no previous gate, no gate. -/
theorem outAt_before (hidle : ch.gateGen.finished = true)
    (hk : ∀ n, trig n = true ↔ n = k) (n : Nat) (hn : n < k) :
    (outAt mode d dt trig (fun _ => false) ch n).gate_prev = false ∧
    (outAt mode d dt trig (fun _ => false) ch n).gateActive = false := by
  constructor
  · have h := runChannel_before mode d dt trig k ch hidle hk n (by omega)
    simp only [outAt]
    rw [trig_false_of_ne trig k hk n (by omega), processChannel_quiet_gate_prev, h]
    rfl
  · rw [outAt_gateActive, runChannel_before mode d dt trig k ch hidle hk (n + 1) (by omega)]
    rfl

/-- From the trigger sample on: sample `k + j` sees the gate active before the
advance iff `j * dt < d`, and active after it iff `(j + 1) * dt < d`. -/
theorem outAt_after (hd : 0 < d) (hdt : 0 ≤ dt)
    (hk : ∀ n, trig n = true ↔ n = k) (j : Nat) :
    (outAt mode d dt trig (fun _ => false) ch (k + j)).gate_prev
      = !decide (d ≤ (j : K) * dt) ∧
    (outAt mode d dt trig (fun _ => false) ch (k + j)).gateActive
      = !decide (d ≤ ((j : K) + 1) * dt) := by
  constructor
  · cases j with
    | zero =>
      simp only [outAt, add_zero]
      rw [(hk k).2 rfl, processChannel_trig_gate_prev mode d dt hd]
      simp [not_le.2 hd]
    | succ j =>
      have h := runChannel_after mode d dt trig k ch hd hdt hk j
      have hidx : k + (j + 1) = k + j + 1 := by omega
      simp only [outAt]
      rw [hidx, trig_false_of_ne trig k hk (k + j + 1) (by omega),
        processChannel_quiet_gate_prev, h]
      push_cast
      rfl
  · rw [outAt_gateActive, runChannel_after mode d dt trig k ch hd hdt hk j]

end SingleTriggerOut

section EocLemmas

variable (mode : Int) (d dt : K)

/-- The ramp output is the ramp value of the advanced gate generator while the
gate is active and the idle level otherwise. -/
theorem processChannel_ramp (t r : Bool) (ch : Channel K) :
    (processChannel mode d dt t r ch).2.ramp =
      if (processChannel mode d dt t r ch).2.gateActive then
        (processChannel mode d dt t r ch).1.gateGen.rampValue
      else if mode = RAMP_FINISHED_0 then 0 else 10 := by
  simp [processChannel]

/-- With a sample time of at least 1 ms, a finished end-of-cycle generator is
finished again after the sample and the end-of-cycle output is 0, whether or
not the generator was triggered on the sample. -/
theorem processChannel_eoc_slow (hdt : 1 / 1000 ≤ dt) (t r : Bool) (ch : Channel K)
    (h : ch.eocGen.finished = true) :
    (processChannel mode d dt t r ch).1.eocGen.finished = true ∧
    (processChannel mode d dt t r ch).2.eoc = 0 := by
  have hdt' : (1000 : K)⁻¹ ≤ dt := by simpa using hdt
  cases r <;> cases t <;> by_cases hd : 0 < d <;>
    cases hg : ch.gateGen.finished <;>
    by_cases hle : d ≤ ch.gateGen.time + dt <;>
    by_cases hle2 : d ≤ dt <;>
    simp [processChannel, CustomPulseGenerator.process, CustomPulseGenerator.trigger,
      CustomPulseGenerator.reset, h, hd, hg, hle, hle2, hdt']

theorem runChannel_eoc_slow (hdt : 1 / 1000 ≤ dt) (trig rst : Nat → Bool) (ch : Channel K)
    (h : ch.eocGen.finished = true) (n : Nat) :
    (runChannel mode d dt trig rst ch n).eocGen.finished = true := by
  induction n with
  | zero => exact h
  | succ n ih =>
    rw [runChannel_succ]
    exact (processChannel_eoc_slow mode d dt hdt _ _ _ ih).1

/-- With a sample time of at least 1 ms the end-of-cycle output is 0 on every
sample of every run that starts with the end-of-cycle generator finished. -/
theorem outAt_eoc_slow (hdt : 1 / 1000 ≤ dt) (trig rst : Nat → Bool) (ch : Channel K)
    (h : ch.eocGen.finished = true) (n : Nat) :
    (outAt mode d dt trig rst ch n).eoc = 0 :=
  (processChannel_eoc_slow mode d dt hdt _ _ _
    (runChannel_eoc_slow mode d dt hdt trig rst ch h n)).2

theorem outAt_ramp (trig rst : Nat → Bool) (ch : Channel K) (n : Nat) :
    (outAt mode d dt trig rst ch n).ramp =
      if (outAt mode d dt trig rst ch n).gateActive then
        (runChannel mode d dt trig rst ch (n + 1)).gateGen.rampValue
      else if mode = RAMP_FINISHED_0 then 0 else 10 := by
  rw [runChannel_succ]
  exact processChannel_ramp mode d dt _ _ _

end EocLemmas

/-- Claim C4, refuted as stated.  Duration 2 s, sample time 1 ms, a fresh
channel, the trigger edge on the first sample and no reset: there is no sample
on which the end-of-cycle output is 10, so it is not high for exactly one
sample. -/
theorem C4_eoc_never_high_at_1ms :
    ¬ ∃ n, (outAt RAMP_FINISHED_0 (2 : ℚ) (1 / 1000) (fun n => decide (n = 0))
      (fun _ => false) ⟨⟨0, 0, true⟩, ⟨0, 0, true⟩⟩ n).eoc = 10 := by
  rintro ⟨n, hn⟩
  rw [outAt_eoc_slow RAMP_FINISHED_0 2 (1 / 1000) le_rfl _ _ _ rfl n] at hn
  norm_num at hn

/-- Claim C5.  `trigger(d2)` on an active pulse, whatever its elapsed time and
duration, gives `time = 0`, `finished = false`, `triggerDuration = d2`; and a
sample of the channel loop with a trigger edge, no reset edge and current
duration `d2 > dt ≥ 0` calls `gateGen.trigger(d2)`, leaves the gate generator
at `time = dt`, active, and outputs the ramp value `dt / d2 * 10` and gate 10:
none of these depends on the state before the sample. -/
theorem C5_retrigger_restarts_ramp (mode : Int) (d2 dt : K) (ch : Channel K)
    (_hactive : ch.gateGen.finished = false) (hdt : 0 ≤ dt) (hlt : dt < d2) :
    ch.gateGen.trigger d2 = { time := 0, triggerDuration := d2, finished := false } ∧
    (processChannel mode d2 dt true false ch).2.gateTrigger = some d2 ∧
    (processChannel mode d2 dt true false ch).1.gateGen
      = { time := dt, triggerDuration := d2, finished := false } ∧
    (processChannel mode d2 dt true false ch).2.gate = 10 ∧
    (processChannel mode d2 dt true false ch).2.ramp = dt / d2 * 10 := by
  have hd : 0 < d2 := lt_of_le_of_lt hdt hlt
  have hgen := processChannel_trig_gateGen mode d2 dt hd ch
  rw [decide_eq_false (not_le.2 hlt)] at hgen
  have hact : (processChannel mode d2 dt true false ch).2.gateActive = true := by
    rw [processChannel_gateActive, hgen]; rfl
  refine ⟨rfl, ?_, hgen, ?_, ?_⟩
  · simp [processChannel, hd]
  · rw [processChannel_gate, hact]; rfl
  · rw [processChannel_ramp, hact, hgen]
    simp only [if_true, CustomPulseGenerator.rampValue, clamp]
    have h0 : 0 ≤ dt / d2 * 10 := by positivity
    have h1 : dt / d2 * 10 ≤ 10 := by
      have : dt / d2 ≤ 1 := by rw [div_le_one hd]; exact hlt.le
      linarith
    rw [min_eq_left h1, max_eq_left h0]

/-- Instance of C5: a ramp of duration 8 with 3 s elapsed is retriggered with
duration 2 at sample time 1/2. -/
theorem C5_retrigger_restarts_ramp_witness :
    ((⟨3, 8, false⟩ : CustomPulseGenerator ℚ).trigger 2
      = { time := 0, triggerDuration := 2, finished := false }) ∧
    (processChannel 0 (2 : ℚ) (1 / 2) true false
      ⟨⟨3, 8, false⟩, ⟨0, 0, true⟩⟩).2.gateTrigger = some 2 ∧
    (processChannel 0 (2 : ℚ) (1 / 2) true false ⟨⟨3, 8, false⟩, ⟨0, 0, true⟩⟩).1.gateGen
      = { time := 1 / 2, triggerDuration := 2, finished := false } ∧
    (processChannel 0 (2 : ℚ) (1 / 2) true false ⟨⟨3, 8, false⟩, ⟨0, 0, true⟩⟩).2.gate = 10 ∧
    (processChannel 0 (2 : ℚ) (1 / 2) true false ⟨⟨3, 8, false⟩, ⟨0, 0, true⟩⟩).2.ramp
      = 1 / 2 / 2 * 10 :=
  C5_retrigger_restarts_ramp 0 2 (1 / 2) ⟨⟨3, 8, false⟩, ⟨0, 0, true⟩⟩ rfl
    (by norm_num) (by norm_num)

/-- Claim C6.  On a sample whose reset edge detector fires, for every prior
channel state, every duration and sample time, and whether or not the trigger
edge detector fires too: gate output 0, finish output 10, end-of-cycle output
0, ramp output at the idle level (0 in mode `RAMP_FINISHED_0`, 10 otherwise),
no call of `gateGen.trigger` and none of `eocGen.trigger`; both generators are
left finished. -/
theorem C6_reset_precedence (mode : Int) (d dt : K) (triggered : Bool) (ch : Channel K) :
    (processChannel mode d dt triggered true ch).2.gate = 0 ∧
    (processChannel mode d dt triggered true ch).2.finish = 10 ∧
    (processChannel mode d dt triggered true ch).2.eoc = 0 ∧
    (processChannel mode d dt triggered true ch).2.ramp
      = (if mode = RAMP_FINISHED_0 then 0 else 10) ∧
    (processChannel mode d dt triggered true ch).2.gateTrigger = none ∧
    (processChannel mode d dt triggered true ch).2.eocTrigger = none ∧
    (processChannel mode d dt triggered true ch).1.gateGen.finished = true ∧
    (processChannel mode d dt triggered true ch).1.eocGen.finished = true := by
  simp [processChannel, CustomPulseGenerator.process, CustomPulseGenerator.reset]

section DurationLemmas

theorem clamp_nonneg (x : K) : 0 ≤ clamp x 0 10 := le_max_right _ _

theorem clamp_le_ten (x : K) : clamp x 0 10 ≤ 10 :=
  max_le (min_le_right _ _) (by norm_num)

theorem clamp_mono (x y : K) (h : x ≤ y) : clamp x 0 10 ≤ clamp y 0 10 :=
  max_le_max (min_le_min h le_rfl) le_rfl

/-- The gate generator of a channel always leaves the loop body with the
current duration as its `triggerDuration`. -/
theorem processChannel_triggerDuration (mode : Int) (d dt : K) (t r : Bool) (ch : Channel K) :
    (processChannel mode d dt t r ch).1.gateGen.triggerDuration = d := by
  simp [processChannel, CustomPulseGenerator.process]

/-- The only duration ever passed to `gateGen.trigger` is the current one. -/
theorem processChannel_gateTrigger (mode : Int) (d dt : K) (t r : Bool) (ch : Channel K)
    (x : K) (h : (processChannel mode d dt t r ch).2.gateTrigger = some x) : x = d := by
  cases r <;> cases t <;> by_cases hd : 0 < d <;> simp [processChannel, hd] at h
  exact h.symm

end DurationLemmas

/-- Claim C7.  In linear mode (`LIN_LOG_MODE_PARAM < 0.5`) `Miniramp::process`
sets `cv_scale` to the CV amount, `ramp_base_duration` to the knob value and
`ramp_duration` to `clamp(knob + cv_voltage * cv_amount, 0, 10)`.  In both
modes, for every `powf`, `ramp_duration` lies in `[0, 10]`, every visited
channel's gate generator is left with `triggerDuration = ramp_duration`, and a
call of `gateGen.trigger` on the sample passes `ramp_duration`. -/
theorem C7_duration_linear_and_bounds (powf : K → K → K) (m : Miniramp K)
    (args : ProcessArgs K) :
    (args.lin_log_mode < 1 / 2 →
      (Miniramp.process powf m args).1.cv_scale = args.cv_amt ∧
      (Miniramp.process powf m args).1.ramp_base_duration = args.knob_value ∧
      (Miniramp.process powf m args).1.ramp_duration
        = clamp (args.knob_value + args.cv_voltage * args.cv_amt) 0 10) ∧
    0 ≤ (Miniramp.process powf m args).1.ramp_duration ∧
    (Miniramp.process powf m args).1.ramp_duration ≤ 10 ∧
    (∀ c, c < max args.channels 1 →
      ((Miniramp.process powf m args).1.channel c).gateGen.triggerDuration
        = (Miniramp.process powf m args).1.ramp_duration ∧
      ∀ out x, (Miniramp.process powf m args).2 c = some out → out.gateTrigger = some x →
        x = (Miniramp.process powf m args).1.ramp_duration) := by
  refine ⟨?_, ?_, ?_, ?_⟩
  · intro hlin
    simp only [Miniramp.process, duration, if_pos hlin, and_self]
  · exact clamp_nonneg _
  · exact clamp_le_ten _
  · intro c hc
    constructor
    · simp only [Miniramp.process, if_pos hc]
      exact processChannel_triggerDuration _ _ _ _ _ _
    · intro out x hout hx
      simp only [Miniramp.process, if_pos hc, Option.some.injEq] at hout
      rw [← hout] at hx
      exact processChannel_gateTrigger _ _ _ _ _ _ x hx

/-- Instance of C7: linear mode, knob 9, CV amount 1/2, CV voltage 4 (clamped to
10), fresh module, one channel with a trigger edge. -/
theorem C7_duration_linear_and_bounds_witness :
    (Miniramp.process (fun _ _ => (0 : ℚ)) Miniramp.init
      ⟨1 / 1000, 1, 9, 1 / 2, 0, 4, fun _ => true, fun _ => false⟩).1.cv_scale = 1 / 2 ∧
    (Miniramp.process (fun _ _ => (0 : ℚ)) Miniramp.init
      ⟨1 / 1000, 1, 9, 1 / 2, 0, 4, fun _ => true, fun _ => false⟩).1.ramp_base_duration = 9 ∧
    (Miniramp.process (fun _ _ => (0 : ℚ)) Miniramp.init
      ⟨1 / 1000, 1, 9, 1 / 2, 0, 4, fun _ => true, fun _ => false⟩).1.ramp_duration
      = clamp (9 + 4 * (1 / 2)) 0 10 :=
  (C7_duration_linear_and_bounds (fun _ _ => (0 : ℚ)) Miniramp.init
    ⟨1 / 1000, 1, 9, 1 / 2, 0, 4, fun _ => true, fun _ => false⟩).1 (by norm_num)

/-- Claim C10.  For every module state, every input and every channel `c` the
loop visits, after `Miniramp::process`: the gate output is 10 if the gate
pulse is active after this sample's advance (`finished = false`) and 0
otherwise; the finish output is 10 minus the gate output; and when the gate is
inactive the ramp output is the idle level, 0 in mode `RAMP_FINISHED_0` and 10
in mode `RAMP_FINISHED_10`. -/
theorem C10_outputs_per_sample (powf : K → K → K) (m : Miniramp K) (args : ProcessArgs K)
    (c : Nat) (hc : c < max args.channels 1) :
    ∃ out, (Miniramp.process powf m args).2 c = some out ∧
      out.gateActive = !((Miniramp.process powf m args).1.channel c).gateGen.finished ∧
      out.gate = (if out.gateActive then 10 else 0) ∧
      out.finish = (if out.gateActive then 0 else 10) ∧
      out.gate + out.finish = 10 ∧
      (out.gateActive = false → m.rampFinishedMode = RAMP_FINISHED_0 → out.ramp = 0) ∧
      (out.gateActive = false → m.rampFinishedMode = RAMP_FINISHED_10 → out.ramp = 10) ∧
      (Miniramp.process powf m args).1.rampFinishedMode = m.rampFinishedMode := by
  have hout : (Miniramp.process powf m args).2 c = some (processChannel m.rampFinishedMode
      (duration powf args.knob_value args.cv_amt args.lin_log_mode args.cv_voltage).2.2
      args.sampleTime (args.triggered c) (args.resetFired c) (m.channel c)).2 := by
    simp only [Miniramp.process, if_pos hc]
  refine ⟨_, hout, ?_, ?_, ?_, ?_, ?_, ?_, rfl⟩
  · simp only [Miniramp.process, if_pos hc]
    exact processChannel_gateActive _ _ _ _ _ _
  · exact processChannel_gate _ _ _ _ _ _
  · simp [processChannel]
  · rw [processChannel_gate]
    cases h : (processChannel m.rampFinishedMode
      (duration powf args.knob_value args.cv_amt args.lin_log_mode args.cv_voltage).2.2
      args.sampleTime (args.triggered c) (args.resetFired c) (m.channel c)).2.gateActive <;>
      simp [processChannel] at h ⊢ <;> simp [h]
  · intro hg hm
    rw [processChannel_ramp, hg, hm]
    simp
  · intro hg hm
    rw [processChannel_ramp, hg, hm]
    simp [RAMP_FINISHED_0, RAMP_FINISHED_10]

/-- Instance of C10: fresh module, one channel, linear mode with duration 10, no
edge on channel 0 (the gate stays idle). -/
theorem C10_outputs_per_sample_witness :
    ∃ out, (Miniramp.process (fun _ _ => (0 : ℚ)) Miniramp.init
        ⟨1 / 1000, 1, 9, 1 / 2, 0, 4, fun _ => false, fun _ => false⟩).2 0 = some out ∧
      out.gateActive = !((Miniramp.process (fun _ _ => (0 : ℚ)) Miniramp.init
        ⟨1 / 1000, 1, 9, 1 / 2, 0, 4, fun _ => false, fun _ => false⟩).1.channel 0).gateGen.finished ∧
      out.gate = (if out.gateActive then 10 else 0) ∧
      out.finish = (if out.gateActive then 0 else 10) ∧
      out.gate + out.finish = 10 ∧
      (out.gateActive = false → (Miniramp.init : Miniramp ℚ).rampFinishedMode = RAMP_FINISHED_0 →
        out.ramp = 0) ∧
      (out.gateActive = false → (Miniramp.init : Miniramp ℚ).rampFinishedMode = RAMP_FINISHED_10 →
        out.ramp = 10) ∧
      (Miniramp.process (fun _ _ => (0 : ℚ)) Miniramp.init
        ⟨1 / 1000, 1, 9, 1 / 2, 0, 4, fun _ => false, fun _ => false⟩).1.rampFinishedMode
        = (Miniramp.init : Miniramp ℚ).rampFinishedMode :=
  C10_outputs_per_sample (fun _ _ => (0 : ℚ)) Miniramp.init
    ⟨1 / 1000, 1, 9, 1 / 2, 0, 4, fun _ => false, fun _ => false⟩ 0 (by decide)

section LogModeLemmas

/-- The knob rescaled onto the exponent range: `rescale(k, 0, 10, -3, 1)`. -/
theorem rescale_knob (k : K) :
    rescale k 0 10 MIN_EXPONENT MAX_EXPONENT = -3 + 0.4 * k := by
  simp only [rescale, MIN_EXPONENT, MAX_EXPONENT]
  ring

/-- The CV amount magnitude rescaled onto the exponent range, lowered by one. -/
theorem rescale_cv (a : K) :
    rescale |a| 0 1 MIN_EXPONENT MAX_EXPONENT - 1 = 4 * |a| - 4 := by
  simp only [rescale, MIN_EXPONENT, MAX_EXPONENT]
  ring

/-- Logarithmic mode, for any `powf`: the base duration and the CV scale. -/
theorem duration_log (powf : K → K → K) (k a mode v : K) (h : 1 / 2 ≤ mode) :
    (duration powf k a mode v).1 = powf 10 (4 * |a| - 4) * ((signum a : Int) : K) ∧
    (duration powf k a mode v).2.1 = powf 10 (-3 + 0.4 * k) ∧
    (duration powf k a mode v).2.2 =
      clamp (powf 10 (-3 + 0.4 * k) + v * (powf 10 (4 * |a| - 4) * ((signum a : Int) : K)))
        0 10 := by
  simp only [duration, if_neg (not_lt.2 h), rescale_knob, rescale_cv, and_self]

end LogModeLemmas

/-- Claim C9.  Logarithmic mode, with `powf` the real power function: for
every CV amount `a`, `cv_scale = sign(a) * 10 ^ (4 * |a| - 4)`; `a = 1` gives
1 and `a = -1` gives -1 (so a 10 V control voltage contributes +10 s or -10 s
before clamping); `cv_scale` has the sign of `a`; for non-negative control
voltages the duration is non-decreasing in the voltage when `a > 0` and
non-increasing when `a < 0`; and `a = 0` gives `cv_scale = 0`, the duration
then being the same for every control voltage. -/
theorem C9_log_cv_scale (k mode : ℝ) (h : 1 / 2 ≤ mode) :
    (∀ a v : ℝ, (duration (fun b x : ℝ => b ^ x) k a mode v).1
      = ((signum a : Int) : ℝ) * (10 : ℝ) ^ (4 * |a| - 4)) ∧
    (∀ v : ℝ, (duration (fun b x : ℝ => b ^ x) k 1 mode v).1 = 1) ∧
    (∀ v : ℝ, (duration (fun b x : ℝ => b ^ x) k (-1) mode v).1 = -1) ∧
    (10 * (duration (fun b x : ℝ => b ^ x) k 1 mode 10).1 = 10) ∧
    (10 * (duration (fun b x : ℝ => b ^ x) k (-1) mode 10).1 = -10) ∧
    (∀ a v : ℝ, 0 < a → 0 < (duration (fun b x : ℝ => b ^ x) k a mode v).1) ∧
    (∀ a v : ℝ, a < 0 → (duration (fun b x : ℝ => b ^ x) k a mode v).1 < 0) ∧
    (∀ a v1 v2 : ℝ, 0 < a → 0 ≤ v1 → v1 ≤ v2 →
      (duration (fun b x : ℝ => b ^ x) k a mode v1).2.2
        ≤ (duration (fun b x : ℝ => b ^ x) k a mode v2).2.2) ∧
    (∀ a v1 v2 : ℝ, a < 0 → 0 ≤ v1 → v1 ≤ v2 →
      (duration (fun b x : ℝ => b ^ x) k a mode v2).2.2
        ≤ (duration (fun b x : ℝ => b ^ x) k a mode v1).2.2) ∧
    (∀ v : ℝ, (duration (fun b x : ℝ => b ^ x) k 0 mode v).1 = 0) ∧
    (∀ v : ℝ, (duration (fun b x : ℝ => b ^ x) k 0 mode v).2.2
      = (duration (fun b x : ℝ => b ^ x) k 0 mode 0).2.2) := by
  have hform : ∀ a v : ℝ, (duration (fun b x : ℝ => b ^ x) k a mode v).1
      = ((signum a : Int) : ℝ) * (10 : ℝ) ^ (4 * |a| - 4) := by
    intro a v
    rw [(duration_log (fun b x : ℝ => b ^ x) k a mode v h).1, mul_comm]
  have hdur : ∀ a v : ℝ, (duration (fun b x : ℝ => b ^ x) k a mode v).2.2
      = clamp ((10 : ℝ) ^ (-3 + 0.4 * k)
          + v * (((signum a : Int) : ℝ) * (10 : ℝ) ^ (4 * |a| - 4))) 0 10 := by
    intro a v
    rw [(duration_log (fun b x : ℝ => b ^ x) k a mode v h).2.2, mul_comm _ ((signum a : Int) : ℝ)]
  have hpos : ∀ x : ℝ, 0 < (10 : ℝ) ^ x := fun x => Real.rpow_pos_of_pos (by norm_num) x
  have hsp : ∀ a : ℝ, 0 < a → ((signum a : Int) : ℝ) = 1 := by
    intro a ha
    simp [signum, ha, not_lt.2 ha.le]
  have hsn : ∀ a : ℝ, a < 0 → ((signum a : Int) : ℝ) = -1 := by
    intro a ha
    simp [signum, ha, not_lt.2 ha.le]
  have hs0 : ((signum (0 : ℝ) : Int) : ℝ) = 0 := by simp [signum]
  have hone : ∀ v : ℝ, (duration (fun b x : ℝ => b ^ x) k 1 mode v).1 = 1 := by
    intro v
    rw [hform, hsp 1 (by norm_num)]
    norm_num
  have hmone : ∀ v : ℝ, (duration (fun b x : ℝ => b ^ x) k (-1) mode v).1 = -1 := by
    intro v
    rw [hform, hsn (-1) (by norm_num)]
    norm_num
  refine ⟨hform, hone, hmone, ?_, ?_, ?_, ?_, ?_, ?_, ?_, ?_⟩
  · rw [hone]; norm_num
  · rw [hmone]; norm_num
  · intro a v ha
    rw [hform, hsp a ha, one_mul]
    exact hpos _
  · intro a v ha
    rw [hform, hsn a ha]
    have := hpos (4 * |a| - 4)
    linarith
  · intro a v1 v2 ha _ hv
    rw [hdur, hdur, hsp a ha, one_mul]
    apply clamp_mono
    have := hpos (4 * |a| - 4)
    nlinarith
  · intro a v1 v2 ha _ hv
    rw [hdur, hdur, hsn a ha]
    apply clamp_mono
    have := hpos (4 * |a| - 4)
    nlinarith
  · intro v
    rw [hform, hs0, zero_mul]
  · intro v
    rw [hdur, hdur, hs0]
    simp

/-- Instance of C9 at mode parameter 1 and knob 5: full CV amount gives
`cv_scale = 1`, none gives 0. -/
theorem C9_log_cv_scale_witness :
    (duration (fun b x : ℝ => b ^ x) 5 1 1 10).1 = 1 ∧
    (duration (fun b x : ℝ => b ^ x) 5 0 1 10).1 = 0 :=
  ⟨(C9_log_cv_scale 5 1 (by norm_num)).2.1 10,
   (C9_log_cv_scale 5 1 (by norm_num)).2.2.2.2.2.2.2.2.2.1 10⟩

/-! ## Properties of the registry map -/

section BufferLemmas

variable {V : Type}

theorem Buffer.contains_iff (b : Buffer V) (l : String) :
    Buffer.contains b l = true ↔ l ∈ Buffer.keys b := by
  simp only [Buffer.contains, Buffer.keys, List.any_eq_true, List.mem_map]
  constructor
  · rintro ⟨e, he, h⟩
    exact ⟨e, he, by simpa using h⟩
  · rintro ⟨e, he, h⟩
    exact ⟨e, he, by simpa using h⟩

theorem Buffer.contains_eq_false_iff (b : Buffer V) (l : String) :
    Buffer.contains b l = false ↔ l ∉ Buffer.keys b := by
  rw [← Buffer.contains_iff]
  cases Buffer.contains b l <;> simp

theorem Buffer.mem_keys_erase (b : Buffer V) (l k : String) :
    k ∈ Buffer.keys (Buffer.erase b l) ↔ k ∈ Buffer.keys b ∧ k ≠ l := by
  simp only [Buffer.keys, Buffer.erase, List.mem_map, List.mem_filter]
  constructor
  · rintro ⟨e, ⟨he, hne⟩, rfl⟩
    exact ⟨⟨e, he, rfl⟩, by simpa using hne⟩
  · rintro ⟨⟨e, he, rfl⟩, hne⟩
    exact ⟨e, ⟨he, by simpa using hne⟩, rfl⟩

theorem Buffer.sorted_erase (b : Buffer V) (l : String) (h : Buffer.Sorted b) :
    Buffer.Sorted (Buffer.erase b l) :=
  List.Pairwise.filter _ h

theorem Buffer.mem_keys_assign (b : Buffer V) (l k : String) (v : V) :
    k ∈ Buffer.keys (Buffer.assign b l v) ↔ k = l ∨ k ∈ Buffer.keys b := by
  induction b with
  | nil => simp [Buffer.assign, Buffer.keys]
  | cons e rest ih =>
    obtain ⟨k0, x⟩ := e
    simp only [Buffer.assign]
    split_ifs with h1 h2
    · simp [Buffer.keys]
    · subst h2
      simp [Buffer.keys]
    · simp only [Buffer.keys, List.map_cons, List.mem_cons] at ih ⊢
      rw [ih]
      tauto

/-- Assignment keeps the keys in increasing order. -/
theorem Buffer.sorted_assign (b : Buffer V) (l : String) (v : V) (h : Buffer.Sorted b) :
    Buffer.Sorted (Buffer.assign b l v) := by
  induction b with
  | nil => simp [Buffer.assign, Buffer.Sorted]
  | cons e rest ih =>
    obtain ⟨k0, x⟩ := e
    have hcons := List.pairwise_cons.1 h
    simp only [Buffer.assign]
    split_ifs with h1 h2
    · have hlt : l < k0 := String.lt_iff_toList_lt.2 h1
      refine List.pairwise_cons.2 ⟨?_, h⟩
      intro f hf
      rcases List.mem_cons.1 hf with rfl | hf
      · exact hlt
      · exact lt_trans hlt (hcons.1 f hf)
    · exact List.pairwise_cons.2 ⟨hcons.1, hcons.2⟩
    · have hgt : k0 < l := by
        have hnlt : ¬ l < k0 := fun hlt => h1 (String.lt_iff_toList_lt.1 hlt)
        exact lt_of_le_of_ne (not_lt.1 hnlt) (fun h => h2 h.symm)
      refine List.pairwise_cons.2 ⟨?_, ih hcons.2⟩
      intro f hf
      have hk : f.1 ∈ Buffer.keys (Buffer.assign rest l v) := List.mem_map_of_mem _ hf
      rcases (Buffer.mem_keys_assign rest l f.1 v).1 hk with hfl | hfk
      · rw [hfl]; exact hgt
      · obtain ⟨f0, hf0, hf01⟩ := List.mem_map.1 hfk
        rw [← hf01]
        exact hcons.1 f0 hf0

/-- Assigning to a key that is present changes no key. -/
theorem Buffer.keys_assign_of_mem (b : Buffer V) (l : String) (v : V)
    (h : Buffer.Sorted b) (hl : l ∈ Buffer.keys b) :
    Buffer.keys (Buffer.assign b l v) = Buffer.keys b := by
  induction b with
  | nil => simp [Buffer.keys] at hl
  | cons e rest ih =>
    obtain ⟨k0, x⟩ := e
    have hcons := List.pairwise_cons.1 h
    simp only [Buffer.assign]
    split_ifs with h1 h2
    · exfalso
      have hlt : l < k0 := String.lt_iff_toList_lt.2 h1
      simp only [Buffer.keys, List.map_cons, List.mem_cons] at hl
      rcases hl with hl | hl
      · exact absurd hl (ne_of_lt hlt)
      · obtain ⟨f, hf, hfl⟩ := List.mem_map.1 hl
        have := hcons.1 f hf
        rw [hfl] at this
        exact absurd (lt_trans hlt this) (lt_irrefl _)
    · simp [Buffer.keys]
    · simp only [Buffer.keys, List.map_cons, List.mem_cons] at hl ⊢
      rcases hl with hl | hl
      · exact absurd hl h2
      · have := ih hcons.2 hl
        simp only [Buffer.keys] at this
        rw [this]

theorem Buffer.find_assign_self (b : Buffer V) (l : String) (v : V) :
    Buffer.find (Buffer.assign b l v) l = some v := by
  induction b with
  | nil => simp [Buffer.assign, Buffer.find]
  | cons e rest ih =>
    obtain ⟨k0, x⟩ := e
    simp only [Buffer.assign]
    split_ifs with h1 h2
    · simp [Buffer.find]
    · subst h2
      simp [Buffer.find]
    · have hne : (k0 == l) = false := by simpa using fun h => h2 h.symm
      simp only [Buffer.find, List.find?_cons, hne] at ih ⊢
      exact ih

theorem Buffer.find_assign_of_ne (b : Buffer V) (l k : String) (v : V) (hk : k ≠ l) :
    Buffer.find (Buffer.assign b l v) k = Buffer.find b k := by
  induction b with
  | nil =>
    have hne : (l == k) = false := by simpa using fun h => hk h.symm
    simp [Buffer.assign, Buffer.find, hne]
  | cons e rest ih =>
    obtain ⟨k0, x⟩ := e
    have hne : (l == k) = false := by simpa using fun h => hk h.symm
    simp only [Buffer.assign]
    split_ifs with h1 h2
    · simp [Buffer.find, List.find?_cons, hne]
    · subst h2
      simp [Buffer.find, List.find?_cons, hne]
    · simp only [Buffer.find, List.find?_cons] at ih ⊢
      cases hk0 : (k0 == k) with
      | true => rfl
      | false => exact ih

theorem Buffer.find_isSome_iff (b : Buffer V) (l : String) :
    (Buffer.find b l).isSome = Buffer.contains b l := by
  induction b with
  | nil => simp [Buffer.find, Buffer.contains]
  | cons e rest ih =>
    simp only [Buffer.find, Buffer.contains, List.find?_cons, List.any_cons] at ih ⊢
    cases h : (e.1 == l) with
    | true => simp
    | false => simpa using ih

/-- Reading a key that is present does not change the map. -/
theorem Buffer.index_of_contains [Zero V] (b : Buffer V) (l : String)
    (h : Buffer.contains b l = true) :
    (Buffer.index b l).2 = b ∧ Buffer.find b l = some (Buffer.index b l).1 := by
  have hs : (Buffer.find b l).isSome = true := by rw [Buffer.find_isSome_iff, h]
  obtain ⟨v, hv⟩ := Option.isSome_iff_exists.1 hs
  simp [Buffer.index, hv]

end BufferLemmas

/-! ## Properties of label generation and of the producer operations -/

section RegistryLemmas

variable {V : Type}

/-- What `getLabel` returns: the statics unchanged and the first candidate that
is not a key. -/
theorem getLabel_some (t : Teleport V) (rnd : List String) (l : String) (t1 : Teleport V)
    (h : getLabel t rnd = some (l, t1)) :
    t1 = t ∧ l ∉ Buffer.keys t.buffer ∧
      ∃ pre post, rnd = pre ++ l :: post ∧ ∀ c ∈ pre, c ∈ Buffer.keys t.buffer := by
  induction rnd with
  | nil => simp [getLabel] at h
  | cons c rnd ih =>
    simp only [getLabel] at h
    by_cases hc : Buffer.contains t.buffer c = true
    · rw [if_pos hc] at h
      obtain ⟨h1, h2, pre, post, h3, h4⟩ := ih h
      refine ⟨h1, h2, c :: pre, post, by rw [h3]; rfl, ?_⟩
      intro x hx
      rcases List.mem_cons.1 hx with rfl | hx
      · exact (Buffer.contains_iff _ _).1 hc
      · exact h4 x hx
    · rw [if_neg hc] at h
      simp only [Option.some.injEq, Prod.mk.injEq] at h
      obtain ⟨rfl, rfl⟩ := h
      refine ⟨rfl, ?_, [], rnd, rfl, by simp⟩
      intro hmem
      exact hc ((Buffer.contains_iff _ _).2 hmem)

/-- `getLabel` returns as soon as some candidate is not a key. -/
theorem getLabel_returns (t : Teleport V) (rnd : List String)
    (h : ∃ c ∈ rnd, c ∉ Buffer.keys t.buffer) : ∃ l, getLabel t rnd = some (l, t) := by
  induction rnd with
  | nil => simp at h
  | cons c rnd ih =>
    simp only [getLabel]
    by_cases hc : Buffer.contains t.buffer c = true
    · rw [if_pos hc]
      apply ih
      obtain ⟨x, hx, hxk⟩ := h
      rcases List.mem_cons.1 hx with rfl | hx
      · exact absurd ((Buffer.contains_iff _ _).1 hc) hxk
      · exact ⟨x, hx, hxk⟩
    · rw [if_neg hc]
      exact ⟨c, rfl⟩

end RegistryLemmas

section InvariantLemmas

variable {V : Type}

theorem World.Inv_init : World.Inv (World.init : World V) := by
  refine ⟨?_, ?_, ?_⟩
  · simp [World.init, Teleport.init, Buffer.Sorted]
  · intro i j p q hp
    simp [World.init] at hp
  · intro i p hp
    simp [World.init] at hp

/-- Giving instance `i` a label that is not a key, and entering it in the map,
keeps the invariant, provided the other live instances satisfy it. -/
theorem World.Inv_insert (b1 : Buffer V) (hint : String)
    (prod : Nat → Option TeleportInModule) (i : Nat) (l : String) (v : V)
    (hs : Buffer.Sorted b1)
    (hdist : ∀ j k p q, j ≠ i → k ≠ i → prod j = some p → prod k = some q →
      p.label = q.label → j = k)
    (hkeys : ∀ j p, j ≠ i → prod j = some p → p.label ∈ Buffer.keys b1)
    (hl : l ∉ Buffer.keys b1) :
    World.Inv { statics := { buffer := Buffer.assign b1 l v, lastInsertedKey := hint },
                producers := Function.update prod i (some { label := l }) } := by
  refine ⟨Buffer.sorted_assign b1 l v hs, ?_, ?_⟩
  · intro j k p q hp hq hpq
    simp only at hp hq
    by_cases hj : j = i <;> by_cases hk : k = i
    · rw [hj, hk]
    · exfalso
      rw [hj, Function.update_same] at hp
      rw [Function.update_noteq hk] at hq
      have hpl : p.label = l := by
        have := Option.some.inj hp
        rw [← this]
      exact hl (by rw [← hpl, hpq]; exact hkeys k q hk hq)
    · exfalso
      rw [hk, Function.update_same] at hq
      rw [Function.update_noteq hj] at hp
      have hql : q.label = l := by
        have := Option.some.inj hq
        rw [← this]
      exact hl (by rw [← hql, ← hpq]; exact hkeys j p hj hp)
    · rw [Function.update_noteq hj] at hp
      rw [Function.update_noteq hk] at hq
      exact hdist j k p q hj hk hp hq hpq
  · intro j p hp
    simp only at hp ⊢
    rw [Buffer.mem_keys_assign]
    by_cases hj : j = i
    · rw [hj, Function.update_same] at hp
      left
      have := Option.some.inj hp
      rw [← this]
    · rw [Function.update_noteq hj] at hp
      exact Or.inr (hkeys j p hj hp)

/-- Every operation keeps the registry invariant. -/
theorem World.Inv_apply [Zero V] (w w1 : World V) (op : Op V) (hinv : World.Inv w)
    (h : w.apply op = some w1) : World.Inv w1 := by
  obtain ⟨hs, hdist, hkeys⟩ := hinv
  cases op with
  | construct i rnd =>
    simp only [World.apply] at h
    cases hp : w.producers i with
    | some p => simp [hp] at h
    | none =>
      simp only [hp, TeleportInModule.new] at h
      cases hg : getLabel w.statics rnd with
      | none => simp [hg] at h
      | some r =>
        obtain ⟨l, t1⟩ := r
        obtain ⟨ht1, hl, -⟩ := getLabel_some _ _ _ _ hg
        simp only [hg, Option.some.injEq] at h
        rw [← h, ht1]
        exact World.Inv_insert w.statics.buffer l w.producers i l 0 hs
          (fun j k p q _ _ hp hq hpq => hdist j k p q hp hq hpq)
          (fun j p _ hp => hkeys j p hp) hl
  | fromJson i label_json rnd =>
    simp only [World.apply] at h
    cases hp : w.producers i with
    | none => simp [hp] at h
    | some p =>
      simp only [hp] at h
      have hkeys1 : ∀ j q, j ≠ i → w.producers j = some q →
          q.label ∈ Buffer.keys (Buffer.erase w.statics.buffer p.label) := by
        intro j q hj hq
        rw [Buffer.mem_keys_erase]
        refine ⟨hkeys j q hq, ?_⟩
        intro hlab
        exact hj (hdist j i q p hq hp hlab)
      cases label_json with
      | none =>
        simp only [TeleportInModule.fromJson] at h
        cases hg : getLabel w.statics rnd with
        | none => simp [hg] at h
        | some r =>
          obtain ⟨l, t1⟩ := r
          obtain ⟨ht1, hl, -⟩ := getLabel_some _ _ _ _ hg
          simp only [hg, Option.some.injEq] at h
          rw [← h, ht1]
          exact World.Inv_insert w.statics.buffer l w.producers i l 0 hs
            (fun j k p q _ _ hp hq hpq => hdist j k p q hp hq hpq)
            (fun j p _ hp => hkeys j p hp) hl
      | some s =>
        simp only [TeleportInModule.fromJson] at h
        by_cases hc : Buffer.contains (Buffer.erase w.statics.buffer p.label) s = true
        · rw [if_pos hc] at h
          cases hg : getLabel ({ w.statics with
              buffer := Buffer.erase w.statics.buffer p.label } : Teleport V) rnd with
          | none => simp [hg] at h
          | some r =>
            obtain ⟨l, t1⟩ := r
            obtain ⟨ht1, hl, -⟩ := getLabel_some _ _ _ _ hg
            simp only [hg, Option.some.injEq] at h
            rw [← h, ht1]
            exact World.Inv_insert (Buffer.erase w.statics.buffer p.label) l w.producers i l 0
              (Buffer.sorted_erase _ _ hs)
              (fun j k p q _ _ hp hq hpq => hdist j k p q hp hq hpq) hkeys1 hl
        · rw [if_neg hc] at h
          simp only [Option.some.injEq] at h
          rw [← h]
          have hl : s ∉ Buffer.keys (Buffer.erase w.statics.buffer p.label) := by
            intro hmem
            exact hc ((Buffer.contains_iff _ _).2 hmem)
          exact World.Inv_insert (Buffer.erase w.statics.buffer p.label) s w.producers i s 0
            (Buffer.sorted_erase _ _ hs)
            (fun j k p q _ _ hp hq hpq => hdist j k p q hp hq hpq) hkeys1 hl
  | destroy i =>
    simp only [World.apply] at h
    cases hp : w.producers i with
    | none => simp [hp] at h
    | some p =>
      simp only [hp, Option.some.injEq] at h
      rw [← h]
      refine ⟨Buffer.sorted_erase _ _ hs, ?_, ?_⟩
      · intro j k q r hq hr hqr
        simp only at hq hr
        by_cases hj : j = i
        · rw [hj, Function.update_same] at hq
          simp at hq
        · by_cases hk : k = i
          · rw [hk, Function.update_same] at hr
            simp at hr
          · rw [Function.update_noteq hj] at hq
            rw [Function.update_noteq hk] at hr
            exact hdist j k q r hq hr hqr
      · intro j q hq
        simp only [TeleportInModule.delete] at hq ⊢
        by_cases hj : j = i
        · rw [hj, Function.update_same] at hq
          simp at hq
        · rw [Function.update_noteq hj] at hq
          rw [Buffer.mem_keys_erase]
          exact ⟨hkeys j q hq, fun hlab => hj (hdist j i q p hq hp hlab)⟩
  | step i input =>
    simp only [World.apply] at h
    cases hp : w.producers i with
    | none => simp [hp] at h
    | some p =>
      simp only [hp, Option.some.injEq] at h
      rw [← h]
      refine ⟨Buffer.sorted_assign _ _ _ hs, hdist, ?_⟩
      intro j q hq
      simp only [TeleportInModule.step]
      rw [Buffer.mem_keys_assign]
      exact Or.inr (hkeys j q hq)

/-- Every run keeps the registry invariant. -/
theorem World.Inv_run [Zero V] (ops : List (Op V)) (w w1 : World V) (hinv : World.Inv w)
    (h : w.run ops = some w1) : World.Inv w1 := by
  induction ops generalizing w with
  | nil =>
    simp only [World.run, Option.some.injEq] at h
    rw [← h]
    exact hinv
  | cons op ops ih =>
    simp only [World.run] at h
    cases ha : w.apply op with
    | none => simp [ha] at h
    | some w2 =>
      simp only [ha] at h
      exact ih w2 (World.Inv_apply w w2 op hinv ha) h

end InvariantLemmas

section TeleportClaims

variable {V : Type}

/-- Claim C11, refuted as stated.  A producer restored from persisted data whose
label is the empty string is live with label `""` and its entry is in the
registry; after its `step` with input 5, a consumer whose selected label is
also `""` outputs 0, not 5. -/
theorem C11_empty_label_reads_zero :
    ∃ w : World ℚ,
      World.run World.init [Op.construct 0 ["AAAA"], Op.fromJson 0 (some "") []] = some w ∧
      w.producers 0 = some { label := "" } ∧
      Buffer.keys w.statics.buffer = [""] ∧
      (TeleportOutModule.step (TeleportInModule.step w.statics { label := "" } 5)
        { label := "", output := 0 }).2.output ≠ 5 := by
  refine ⟨_, rfl, ?_, ?_, ?_⟩
  · rfl
  · decide
  · decide

/-- Claim C11, amended.  In every state reached by producer operations, for a
live producer `p` whose label is not the empty string and a consumer `c` whose
selected label is `p`'s label: after `p.step()` with input `v`, `c.step()`
sets `c`'s output to `v` and keeps its label; `p.step()` leaves the key list of
the registry, the value under every other key and the hint unchanged, and
stores `v` under `p`'s label. -/
theorem C11_data_path [Zero V] (ops : List (Op V)) (w : World V)
    (h : World.run World.init ops = some w) (i : Nat) (p : TeleportInModule)
    (hp : w.producers i = some p) (hne : p.label ≠ "") (c : TeleportOutModule V)
    (hc : c.label = p.label) (v : V) :
    (TeleportOutModule.step (TeleportInModule.step w.statics p v) c).2.output = v ∧
    (TeleportOutModule.step (TeleportInModule.step w.statics p v) c).2.label = p.label ∧
    Buffer.keys (TeleportInModule.step w.statics p v).buffer = Buffer.keys w.statics.buffer ∧
    (∀ k, k ≠ p.label →
      Buffer.find (TeleportInModule.step w.statics p v).buffer k
        = Buffer.find w.statics.buffer k) ∧
    Buffer.find (TeleportInModule.step w.statics p v).buffer p.label = some v ∧
    (TeleportInModule.step w.statics p v).lastInsertedKey = w.statics.lastInsertedKey := by
  obtain ⟨hs, -, hkeys⟩ := World.Inv_run ops _ w World.Inv_init h
  have hmem : p.label ∈ Buffer.keys w.statics.buffer := hkeys i p hp
  have hfind := Buffer.find_assign_self w.statics.buffer p.label v
  have hcont : Buffer.contains (Buffer.assign w.statics.buffer p.label v) c.label = true := by
    rw [hc, Buffer.contains_iff, Buffer.mem_keys_assign]
    exact Or.inl rfl
  have hidx := Buffer.index_of_contains _ _ hcont
  have hne2 : c.label ≠ "" := by rw [hc]; exact hne
  refine ⟨?_, ?_, ?_, ?_, hfind, rfl⟩
  · simp only [TeleportOutModule.step, TeleportInModule.step, hcont, if_true, if_neg hne2]
    have h2 := hidx.2
    rw [hc, hfind] at h2
    rw [hc]
    exact (Option.some.inj h2).symm
  · simp only [TeleportOutModule.step, TeleportInModule.step, hcont, if_true, if_neg hne2]
    exact hc
  · exact Buffer.keys_assign_of_mem _ _ _ hs hmem
  · intro k hk
    exact Buffer.find_assign_of_ne _ _ _ _ hk

/-- Instance of C11: producers `AAAA` and `BBBB`, producer 0 steps with input
7 and a consumer bound to `AAAA` reads it. -/
theorem C11_data_path_witness :
    ∃ w : World ℚ,
      World.run World.init [Op.construct 0 ["AAAA"], Op.construct 1 ["BBBB"]] = some w ∧
      w.producers 0 = some { label := "AAAA" } ∧
      (TeleportOutModule.step (TeleportInModule.step w.statics { label := "AAAA" } 7)
        { label := "AAAA", output := 0 }).2.output = 7 :=
  ⟨_, rfl, rfl,
    (C11_data_path ([Op.construct 0 ["AAAA"], Op.construct 1 ["BBBB"]] : List (Op ℚ)) _ rfl 0
      { label := "AAAA" } rfl (by decide) { label := "AAAA", output := 0 } rfl 7).1⟩

end TeleportClaims

section TeleportClaims2

variable {V : Type}

/-- Claim C12.  After every sequence of producer constructions, restorations
(`fromJson` with a string label, live or not, or with malformed data),
destructions and steps in which every `getLabel` call returned, no two live
`TeleportInModule` instances have the same label and every live producer's
label is a key of the registry. -/
theorem C12_registry_uniqueness [Zero V] (ops : List (Op V)) (w : World V)
    (h : World.run World.init ops = some w) :
    (∀ i j p q, w.producers i = some p → w.producers j = some q →
      p.label = q.label → i = j) ∧
    (∀ i p, w.producers i = some p → p.label ∈ Buffer.keys w.statics.buffer) :=
  (World.Inv_run ops _ w World.Inv_init h).2

/-- Instance of C12: two constructions with a collision on the first draw, a
restoration of producer 1 from the live label `AAAA`, a restoration of producer
0 from malformed data, and the destruction of producer 1. -/
theorem C12_registry_uniqueness_witness :
    ∃ w : World ℚ,
      World.run World.init
        [Op.construct 0 ["AAAA"], Op.construct 1 ["AAAA", "BBBB"],
         Op.fromJson 1 (some "AAAA") ["CCCC"], Op.fromJson 0 none ["CCCC", "DDDD"],
         Op.destroy 1] = some w ∧
      (∀ i j p q, w.producers i = some p → w.producers j = some q →
        p.label = q.label → i = j) ∧
      (∀ i p, w.producers i = some p → p.label ∈ Buffer.keys w.statics.buffer) :=
  ⟨_, rfl, C12_registry_uniqueness
    ([Op.construct 0 ["AAAA"], Op.construct 1 ["AAAA", "BBBB"],
      Op.fromJson 1 (some "AAAA") ["CCCC"], Op.fromJson 0 none ["CCCC", "DDDD"],
      Op.destroy 1] : List (Op ℚ)) _ rfl⟩

/-- Claim C13.  For every registry (a map in key order) and every value of the
hint `lastInsertedKey`, a newly constructed `TeleportOutModule` has the hint as
label if the hint is a key; otherwise, if the registry is not empty, its label
is a key and is at most every key; otherwise its label is the empty string.
With producers `AAAA` and `BBBB` constructed in this order a new consumer
binds to `BBBB`; destroying the producer of `BBBB` leaves the hint `BBBB` and
a new consumer then binds to `AAAA`. -/
theorem C13_consumer_default_binding [Zero V] (t : Teleport V)
    (hs : Buffer.Sorted t.buffer) :
    (t.lastInsertedKey ∈ Buffer.keys t.buffer →
      (TeleportOutModule.new t).label = t.lastInsertedKey) ∧
    (t.lastInsertedKey ∉ Buffer.keys t.buffer → t.buffer ≠ [] →
      (TeleportOutModule.new t).label ∈ Buffer.keys t.buffer ∧
      ∀ k ∈ Buffer.keys t.buffer, (TeleportOutModule.new t).label ≤ k) ∧
    (t.lastInsertedKey ∉ Buffer.keys t.buffer → t.buffer = [] →
      (TeleportOutModule.new t).label = "") ∧
    (∃ w2 w3 : World V,
      World.run World.init [Op.construct 0 ["AAAA"], Op.construct 1 ["BBBB"]] = some w2 ∧
      (TeleportOutModule.new w2.statics).label = "BBBB" ∧
      w2.apply (Op.destroy 1) = some w3 ∧
      Buffer.keys w3.statics.buffer = ["AAAA"] ∧
      w3.statics.lastInsertedKey = "BBBB" ∧
      (TeleportOutModule.new w3.statics).label = "AAAA") := by
  refine ⟨?_, ?_, ?_, ?_⟩
  · intro hmem
    have hc := (Buffer.contains_iff _ _).2 hmem
    have hlen : List.length t.buffer > 0 := by
      cases hb : t.buffer with
      | nil => rw [hb] at hmem; simp [Buffer.keys] at hmem
      | cons e rest => simp
    simp only [TeleportOutModule.new, if_pos hlen, hc, if_true]
  · intro hmem hne
    have hc := (Buffer.contains_eq_false_iff _ _).2 hmem
    cases hb : t.buffer with
    | nil => exact absurd hb hne
    | cons e rest =>
      have hlabel : (TeleportOutModule.new t).label = e.1 := by
        simp only [TeleportOutModule.new]
        rw [hc, hb]
        simp
      rw [hlabel]
      refine ⟨by simp [Buffer.keys], ?_⟩
      intro k hk
      rw [hb] at hs
      have hcons := List.pairwise_cons.1 hs
      simp only [Buffer.keys, List.map_cons, List.mem_cons] at hk
      rcases hk with rfl | hk
      · exact le_rfl
      · obtain ⟨f, hf, rfl⟩ := List.mem_map.1 hk
        exact le_of_lt (hcons.1 f hf)
  · intro _ hb
    simp [TeleportOutModule.new, hb]
  · exact ⟨_, _, rfl, rfl, rfl, rfl, rfl, rfl⟩

/-- Instance of C13: registry `AAAA`, `CCCC` with the stale hint `BBBB`. -/
theorem C13_consumer_default_binding_witness :
    (TeleportOutModule.new
      ({ buffer := [("AAAA", 1), ("CCCC", 2)], lastInsertedKey := "BBBB" } : Teleport ℚ)).label
      ∈ Buffer.keys ([("AAAA", 1), ("CCCC", 2)] : Buffer ℚ) ∧
    ∀ k ∈ Buffer.keys ([("AAAA", 1), ("CCCC", 2)] : Buffer ℚ),
      (TeleportOutModule.new
        ({ buffer := [("AAAA", 1), ("CCCC", 2)], lastInsertedKey := "BBBB" } : Teleport ℚ)).label
        ≤ k :=
  (C13_consumer_default_binding
    ({ buffer := [("AAAA", 1), ("CCCC", 2)], lastInsertedKey := "BBBB" } : Teleport ℚ)
    (by simp [Buffer.Sorted, String.lt_iff_toList_lt]; decide)).2.1
    (by decide) (by decide)

end TeleportClaims2

section TeleportClaims3

variable {V : Type}

/-- Claim C14.  `fromJson` on a producer `p` with persisted string label `L`,
where `b1` is the registry after `p`'s own entry has been erased: if `L` is not
a key of `b1`, `fromJson` returns and the producer's label is exactly `L`; in
particular `fromJson(toJson(p))` keeps `p`'s label.  If `L` is a key of `b1`,
then whenever `fromJson` returns the new label differs from `L` and is not a
key of `b1`, and `fromJson` does return when some random candidate is not a key
of `b1`.  In every case the final label is a key of the registry afterwards. -/
theorem C14_producer_round_trip [Zero V] (t : Teleport V) (p : TeleportInModule)
    (L : String) (rnd : List String) :
    (L ∉ Buffer.keys (Buffer.erase t.buffer p.label) →
      ∃ t2, TeleportInModule.fromJson t p (some L) rnd = some ({ label := L }, t2) ∧
        L ∈ Buffer.keys t2.buffer) ∧
    (∃ t2, TeleportInModule.fromJson t p (TeleportInModule.toJson p) rnd = some (p, t2) ∧
      p.label ∈ Buffer.keys t2.buffer) ∧
    (L ∈ Buffer.keys (Buffer.erase t.buffer p.label) →
      ∀ q t2, TeleportInModule.fromJson t p (some L) rnd = some (q, t2) →
        q.label ≠ L ∧ q.label ∉ Buffer.keys (Buffer.erase t.buffer p.label) ∧
        q.label ∈ Buffer.keys t2.buffer) ∧
    (L ∈ Buffer.keys (Buffer.erase t.buffer p.label) →
      (∃ c ∈ rnd, c ∉ Buffer.keys (Buffer.erase t.buffer p.label)) →
      ∃ q t2, TeleportInModule.fromJson t p (some L) rnd = some (q, t2)) := by
  have hfresh : ∀ s : String, s ∉ Buffer.keys (Buffer.erase t.buffer p.label) →
      ∃ t2, TeleportInModule.fromJson t p (some s) rnd = some ({ label := s }, t2) ∧
        s ∈ Buffer.keys t2.buffer := by
    intro s hs
    have hc := (Buffer.contains_eq_false_iff _ _).2 hs
    refine ⟨_, by simp only [TeleportInModule.fromJson, hc]; rfl, ?_⟩
    simp only [Teleport.addToBuffer]
    exact (Buffer.mem_keys_assign _ _ _ _).2 (Or.inl rfl)
  refine ⟨hfresh L, ?_, ?_, ?_⟩
  · have hown : p.label ∉ Buffer.keys (Buffer.erase t.buffer p.label) := by
      intro hmem
      exact ((Buffer.mem_keys_erase _ _ _).1 hmem).2 rfl
    exact hfresh p.label hown
  · intro hL q t2 hq
    have hc := (Buffer.contains_iff _ _).2 hL
    simp only [TeleportInModule.fromJson, hc, if_true] at hq
    cases hg : getLabel ({ t with buffer := Buffer.erase t.buffer p.label } : Teleport V) rnd with
    | none => simp [hg] at hq
    | some r =>
      obtain ⟨l, t1⟩ := r
      obtain ⟨ht1, hl, -⟩ := getLabel_some _ _ _ _ hg
      simp only [hg, Option.some.injEq, Prod.mk.injEq] at hq
      obtain ⟨hq1, hq2⟩ := hq
      rw [← hq1, ← hq2]
      refine ⟨?_, hl, ?_⟩
      · intro hlL
        apply hl
        simp only at hlL ⊢
        rw [hlL]
        exact hL
      · simp only [Teleport.addToBuffer]
        exact (Buffer.mem_keys_assign _ _ _ _).2 (Or.inl rfl)
  · intro hL hex
    have hc := (Buffer.contains_iff _ _).2 hL
    obtain ⟨l, hl⟩ := getLabel_returns
      ({ t with buffer := Buffer.erase t.buffer p.label } : Teleport V) rnd hex
    refine ⟨{ label := l },
      Teleport.addToBuffer ({ t with buffer := Buffer.erase t.buffer p.label } : Teleport V) l 0,
      ?_⟩
    simp only [TeleportInModule.fromJson, hc, if_true, hl]

/-- Instance of C14: the restoring producer has label `AAAA`, the persisted
label `BBBB` is live, the generator yields `BBBB` and then `CCCC`. -/
theorem C14_producer_round_trip_witness :
    (∃ t2, TeleportInModule.fromJson
        ({ buffer := [("AAAA", 1), ("BBBB", 2)], lastInsertedKey := "BBBB" } : Teleport ℚ)
        { label := "AAAA" } (TeleportInModule.toJson { label := "AAAA" }) ["BBBB", "CCCC"]
        = some ({ label := "AAAA" }, t2) ∧ "AAAA" ∈ Buffer.keys t2.buffer) ∧
    (∃ q t2, TeleportInModule.fromJson
        ({ buffer := [("AAAA", 1), ("BBBB", 2)], lastInsertedKey := "BBBB" } : Teleport ℚ)
        { label := "AAAA" } (some "BBBB") ["BBBB", "CCCC"] = some (q, t2)) :=
  ⟨(C14_producer_round_trip
      ({ buffer := [("AAAA", 1), ("BBBB", 2)], lastInsertedKey := "BBBB" } : Teleport ℚ)
      { label := "AAAA" } "BBBB" ["BBBB", "CCCC"]).2.1,
   (C14_producer_round_trip
      ({ buffer := [("AAAA", 1), ("BBBB", 2)], lastInsertedKey := "BBBB" } : Teleport ℚ)
      { label := "AAAA" } "BBBB" ["BBBB", "CCCC"]).2.2.2 (by decide)
      ⟨"CCCC", by decide, by decide⟩⟩

/-- Claim C15, at the failing input.  A producer is constructed with label
`AAAA`, restored from data without a string label (the generator yields
`BBBB`) and destroyed: no producer is live, yet the registry still has the key
`AAAA`; the malformed-data branch of `fromJson` does not erase the
constructor's entry. -/
theorem C15_orphan_entry_after_malformed_restore :
    ∃ w : World ℚ,
      World.run World.init
        [Op.construct 0 ["AAAA"], Op.fromJson 0 none ["BBBB"], Op.destroy 0] = some w ∧
      (∀ i, w.producers i = none) ∧
      Buffer.keys w.statics.buffer = ["AAAA"] := by
  refine ⟨_, rfl, ?_, rfl⟩
  intro i
  by_cases hi : i = 0
  · rw [hi]; rfl
  · simp [World.init, Function.update_noteq hi]

/-- Claim C16.  For every registry and consumer, `TeleportOutModule::step`
leaves the statics (registry keys and values, hint) unchanged; if the
consumer's label is not a key, its label becomes the empty string and its
output 0, also when the label was adopted from persisted data by `fromJson`. -/
theorem C16_missing_entry_on_read [Zero V] (t : Teleport V) (c : TeleportOutModule V) :
    (TeleportOutModule.step t c).1 = t ∧
    (c.label ∉ Buffer.keys t.buffer →
      (TeleportOutModule.step t c).2 = { label := "", output := 0 }) ∧
    (∀ s : String, (TeleportOutModule.fromJson c (some s)).label = s) ∧
    (∀ s : String, s ∉ Buffer.keys t.buffer →
      (TeleportOutModule.step t (TeleportOutModule.fromJson c (some s))).2
        = { label := "", output := 0 }) := by
  have hmiss : ∀ c1 : TeleportOutModule V, c1.label ∉ Buffer.keys t.buffer →
      (TeleportOutModule.step t c1).2 = { label := "", output := 0 } := by
    intro c1 hc1
    have hc := (Buffer.contains_eq_false_iff _ _).2 hc1
    simp [TeleportOutModule.step, hc]
  refine ⟨?_, hmiss c, fun s => rfl, fun s hs => hmiss _ hs⟩
  by_cases hc : Buffer.contains t.buffer c.label = true
  · by_cases he : c.label = ""
    · simp [TeleportOutModule.step, hc, he]
    · simp only [TeleportOutModule.step, hc, if_true, if_neg he]
      rw [(Buffer.index_of_contains _ _ hc).1]
  · simp [TeleportOutModule.step, hc]

/-- Instance of C16: registry with the key `AAAA`, consumer restored with the
label `ZZZZ`. -/
theorem C16_missing_entry_on_read_witness :
    (TeleportOutModule.step
      ({ buffer := [("AAAA", 3)], lastInsertedKey := "AAAA" } : Teleport ℚ)
      { label := "ZZZZ", output := 3 }).2 = { label := "", output := 0 } :=
  (C16_missing_entry_on_read
    ({ buffer := [("AAAA", 3)], lastInsertedKey := "AAAA" } : Teleport ℚ)
    { label := "ZZZZ", output := 3 }).2.1 (by decide)

/-- Claim C18.  If some candidate of the random generator is not a key of the
registry, `getLabel` returns; its result is the first candidate that is not a
key (all candidates drawn before it are keys), and the statics, registry and
hint, are as before. -/
theorem C18_getLabel_first_fresh (t : Teleport V) (rnd : List String)
    (h : ∃ c ∈ rnd, c ∉ Buffer.keys t.buffer) :
    ∃ l pre post, getLabel t rnd = some (l, t) ∧ rnd = pre ++ l :: post ∧
      l ∉ Buffer.keys t.buffer ∧ ∀ c ∈ pre, c ∈ Buffer.keys t.buffer := by
  obtain ⟨l, hl⟩ := getLabel_returns t rnd h
  obtain ⟨-, hnot, pre, post, hsplit, hpre⟩ := getLabel_some t rnd l t hl
  exact ⟨l, pre, post, hl, hsplit, hnot, hpre⟩

/-- Instance of C18: keys `AAAA`, `BBBB`; candidates `BBBB`, `AAAA`, `CCCC`,
`DDDD`. -/
theorem C18_getLabel_first_fresh_witness :
    ∃ l pre post,
      getLabel ({ buffer := [("AAAA", 1), ("BBBB", 2)], lastInsertedKey := "BBBB" } : Teleport ℚ)
        ["BBBB", "AAAA", "CCCC", "DDDD"]
        = some (l, { buffer := [("AAAA", 1), ("BBBB", 2)], lastInsertedKey := "BBBB" }) ∧
      ["BBBB", "AAAA", "CCCC", "DDDD"] = pre ++ l :: post ∧
      l ∉ Buffer.keys ([("AAAA", 1), ("BBBB", 2)] : Buffer ℚ) ∧
      ∀ c ∈ pre, c ∈ Buffer.keys ([("AAAA", 1), ("BBBB", 2)] : Buffer ℚ) :=
  C18_getLabel_first_fresh
    ({ buffer := [("AAAA", 1), ("BBBB", 2)], lastInsertedKey := "BBBB" } : Teleport ℚ)
    ["BBBB", "AAAA", "CCCC", "DDDD"] ⟨"CCCC", by decide, by decide⟩

end TeleportClaims3

section PersistenceAndDuration

/-- What `Miniramp::dataFromJson` does with an integer member: a value below
`NUM_RAMP_FINISHED_MODES` (after conversion to `int`) is adopted, any other
value leaves the mode as it was; and `dataFromJson(dataToJson(m))` keeps the
mode when it is one of the two enumerators. -/
theorem dataFromJson_integer {F : Type} (m : Miniramp F) (x : Int) :
    (toInt32 x < 2 → (m.dataFromJson (JsonField.integer x)).rampFinishedMode = toInt32 x) ∧
    (2 ≤ toInt32 x → (m.dataFromJson (JsonField.integer x)).rampFinishedMode
      = m.rampFinishedMode) ∧
    (m.rampFinishedMode = RAMP_FINISHED_0 ∨ m.rampFinishedMode = RAMP_FINISHED_10 →
      (m.dataFromJson m.dataToJson).rampFinishedMode = m.rampFinishedMode) := by
  refine ⟨?_, ?_, ?_⟩
  · intro h
    simp [Miniramp.dataFromJson, json_integer_value, NUM_RAMP_FINISHED_MODES, h]
  · intro h
    simp [Miniramp.dataFromJson, json_integer_value, NUM_RAMP_FINISHED_MODES, not_lt.2 h]
  · intro h
    rcases h with h | h <;>
      simp [Miniramp.dataFromJson, Miniramp.dataToJson, json_integer_value,
        NUM_RAMP_FINISHED_MODES, RAMP_FINISHED_0, RAMP_FINISHED_10, toInt32, h] at h ⊢

end PersistenceAndDuration

/-- Claim C17, at the failing input.  With the persisted member
`"rampFinishedMode": -1`, `Miniramp::dataFromJson` on a fresh module sets
`rampFinishedMode` to -1, which is neither `RAMP_FINISHED_0` nor
`RAMP_FINISHED_10`: the test `rfm < NUM_RAMP_FINISHED_MODES` lets negative
values through.  The idle ramp output is then 10. -/
theorem C17_negative_mode_adopted :
    ((Miniramp.init : Miniramp ℚ).dataFromJson (JsonField.integer (-1))).rampFinishedMode = -1 ∧
    ((Miniramp.init : Miniramp ℚ).dataFromJson (JsonField.integer (-1))).rampFinishedMode
      ≠ RAMP_FINISHED_0 ∧
    ((Miniramp.init : Miniramp ℚ).dataFromJson (JsonField.integer (-1))).rampFinishedMode
      ≠ RAMP_FINISHED_10 ∧
    (processChannel
      ((Miniramp.init : Miniramp ℚ).dataFromJson (JsonField.integer (-1))).rampFinishedMode
      (1 : ℚ) (1 / 1000) false false ⟨⟨0, 0, true⟩, ⟨0, 0, true⟩⟩).2.ramp = 10 := by
  refine ⟨by decide, by decide, by decide, ?_⟩
  rw [processChannel_ramp]
  have hg : (processChannel
      ((Miniramp.init : Miniramp ℚ).dataFromJson (JsonField.integer (-1))).rampFinishedMode
      (1 : ℚ) (1 / 1000) false false ⟨⟨0, 0, true⟩, ⟨0, 0, true⟩⟩).2.gateActive = false := by
    rw [processChannel_gateActive, processChannel_quiet_gateGen]
    rfl
  rw [hg]
  decide

section QuietEoc

end QuietEoc

section DivisionGuard

/-- The loop body keeps the gate time non-negative when the sample time is
non-negative, and leaves an active gate generator with its time below its
duration. -/
theorem processChannel_guard (mode : Int) (d dt : K) (t r : Bool) (ch : Channel K)
    (htime : 0 ≤ ch.gateGen.time) (hdt : 0 ≤ dt) :
    0 ≤ (processChannel mode d dt t r ch).1.gateGen.time ∧
    ((processChannel mode d dt t r ch).1.gateGen.finished = false →
      (processChannel mode d dt t r ch).1.gateGen.time
        < (processChannel mode d dt t r ch).1.gateGen.triggerDuration) := by
  have hsum : 0 ≤ ch.gateGen.time + dt := add_nonneg htime hdt
  cases r <;> cases t <;> by_cases hd : 0 < d <;> cases hf : ch.gateGen.finished <;>
    simp [processChannel, CustomPulseGenerator.process, CustomPulseGenerator.trigger,
      CustomPulseGenerator.reset, hd, hf, hdt, hsum]

/-- The state of one channel that the guard needs. -/
theorem Miniramp.process_guard (powf : K → K → K) (m : Miniramp K) (args : ProcessArgs K)
    (hdt : 0 ≤ args.sampleTime)
    (hm : ∀ c, 0 ≤ (m.channel c).gateGen.time ∧
      ((m.channel c).gateGen.finished = false →
        (m.channel c).gateGen.time < (m.channel c).gateGen.triggerDuration)) (c : Nat) :
    0 ≤ ((Miniramp.process powf m args).1.channel c).gateGen.time ∧
    (((Miniramp.process powf m args).1.channel c).gateGen.finished = false →
      ((Miniramp.process powf m args).1.channel c).gateGen.time
        < ((Miniramp.process powf m args).1.channel c).gateGen.triggerDuration) := by
  by_cases hc : c < max args.channels 1
  · simp only [Miniramp.process, if_pos hc]
    exact processChannel_guard _ _ _ _ _ _ (hm c).1 hdt
  · simp only [Miniramp.process, if_neg hc]
    exact hm c

theorem Miniramp.run_guard (powf : K → K → K) (argss : List (ProcessArgs K)) (m : Miniramp K)
    (hdt : ∀ a ∈ argss, 0 ≤ a.sampleTime)
    (hm : ∀ c, 0 ≤ (m.channel c).gateGen.time ∧
      ((m.channel c).gateGen.finished = false →
        (m.channel c).gateGen.time < (m.channel c).gateGen.triggerDuration)) (c : Nat) :
    0 ≤ ((Miniramp.run powf m argss).channel c).gateGen.time ∧
    (((Miniramp.run powf m argss).channel c).gateGen.finished = false →
      ((Miniramp.run powf m argss).channel c).gateGen.time
        < ((Miniramp.run powf m argss).channel c).gateGen.triggerDuration) := by
  induction argss generalizing m with
  | nil => exact hm c
  | cons a argss ih =>
    simp only [Miniramp.run]
    apply ih
    · intro b hb
      exact hdt b (List.mem_cons_of_mem _ hb)
    · intro c1
      exact Miniramp.process_guard powf m a (hdt a (List.mem_cons_self _ _)) hm c1

theorem Miniramp.init_guard (c : Nat) :
    0 ≤ ((Miniramp.init : Miniramp K).channel c).gateGen.time ∧
    (((Miniramp.init : Miniramp K).channel c).gateGen.finished = false →
      ((Miniramp.init : Miniramp K).channel c).gateGen.time
        < ((Miniramp.init : Miniramp K).channel c).gateGen.triggerDuration) := by
  simp [Miniramp.init]

end DivisionGuard

/-- Claim C21.  Let a fresh `Miniramp` go through any sequence of `process`
calls with non-negative sample times, and then through one more such call.
If on that call the gate of a channel is active after the advance (the branch
that computes `time / triggerDuration`), then the channel's gate generator has
`finished = false` and `0 ≤ time < triggerDuration`, hence
`triggerDuration > 0`; the ratio `time / triggerDuration * 10` lies in
`[0, 10)` and is the ramp output, the clamp leaving it as it is. -/
theorem C21_division_guard (powf : K → K → K) (argss : List (ProcessArgs K))
    (args : ProcessArgs K) (hdts : ∀ a ∈ argss, 0 ≤ a.sampleTime)
    (hdt : 0 ≤ args.sampleTime) (c : Nat) (out : ChannelOut K)
    (hout : (Miniramp.process powf (Miniramp.run powf Miniramp.init argss) args).2 c = some out)
    (hactive : out.gateActive = true) :
    ((Miniramp.process powf (Miniramp.run powf Miniramp.init argss) args).1.channel c
      ).gateGen.finished = false ∧
    0 ≤ ((Miniramp.process powf (Miniramp.run powf Miniramp.init argss) args).1.channel c
      ).gateGen.time ∧
    ((Miniramp.process powf (Miniramp.run powf Miniramp.init argss) args).1.channel c
      ).gateGen.time
      < ((Miniramp.process powf (Miniramp.run powf Miniramp.init argss) args).1.channel c
        ).gateGen.triggerDuration ∧
    0 < ((Miniramp.process powf (Miniramp.run powf Miniramp.init argss) args).1.channel c
      ).gateGen.triggerDuration ∧
    0 ≤ ((Miniramp.process powf (Miniramp.run powf Miniramp.init argss) args).1.channel c
      ).gateGen.time
      / ((Miniramp.process powf (Miniramp.run powf Miniramp.init argss) args).1.channel c
        ).gateGen.triggerDuration * 10 ∧
    ((Miniramp.process powf (Miniramp.run powf Miniramp.init argss) args).1.channel c
      ).gateGen.time
      / ((Miniramp.process powf (Miniramp.run powf Miniramp.init argss) args).1.channel c
        ).gateGen.triggerDuration * 10 < 10 ∧
    out.ramp
      = ((Miniramp.process powf (Miniramp.run powf Miniramp.init argss) args).1.channel c
        ).gateGen.time
        / ((Miniramp.process powf (Miniramp.run powf Miniramp.init argss) args).1.channel c
          ).gateGen.triggerDuration * 10 := by
  have hreach := Miniramp.run_guard powf argss Miniramp.init hdts Miniramp.init_guard
  have hnew := Miniramp.process_guard powf (Miniramp.run powf Miniramp.init argss) args hdt
    hreach c
  -- the channel is one the loop visits, and `out` is what the loop body returns
  have hc : c < max args.channels 1 := by
    by_contra hc
    simp only [Miniramp.process, if_neg hc] at hout
    cases hout
  have hout2 : (processChannel (Miniramp.run powf Miniramp.init argss).rampFinishedMode
      (duration powf args.knob_value args.cv_amt args.lin_log_mode args.cv_voltage).2.2
      args.sampleTime (args.triggered c) (args.resetFired c)
      ((Miniramp.run powf Miniramp.init argss).channel c)).2 = out := by
    simp only [Miniramp.process, if_pos hc, Option.some.injEq] at hout
    exact hout
  have hch : (Miniramp.process powf (Miniramp.run powf Miniramp.init argss) args).1.channel c
      = (processChannel (Miniramp.run powf Miniramp.init argss).rampFinishedMode
          (duration powf args.knob_value args.cv_amt args.lin_log_mode args.cv_voltage).2.2
          args.sampleTime (args.triggered c) (args.resetFired c)
          ((Miniramp.run powf Miniramp.init argss).channel c)).1 := by
    simp only [Miniramp.process, if_pos hc]
  have hfin : ((Miniramp.process powf (Miniramp.run powf Miniramp.init argss) args).1.channel c
      ).gateGen.finished = false := by
    have h := processChannel_gateActive (Miniramp.run powf Miniramp.init argss).rampFinishedMode
      (duration powf args.knob_value args.cv_amt args.lin_log_mode args.cv_voltage).2.2
      args.sampleTime (args.triggered c) (args.resetFired c)
      ((Miniramp.run powf Miniramp.init argss).channel c)
    rw [hout2, hactive] at h
    rw [hch]
    cases hf : (processChannel (Miniramp.run powf Miniramp.init argss).rampFinishedMode
      (duration powf args.knob_value args.cv_amt args.lin_log_mode args.cv_voltage).2.2
      args.sampleTime (args.triggered c) (args.resetFired c)
      ((Miniramp.run powf Miniramp.init argss).channel c)).1.gateGen.finished with
    | false => rfl
    | true => rw [hf] at h; simp at h
  have h0 := hnew.1
  have hlt := hnew.2 hfin
  have hpos := lt_of_le_of_lt h0 hlt
  have hratio0 : 0 ≤ ((Miniramp.process powf (Miniramp.run powf Miniramp.init argss)
      args).1.channel c).gateGen.time
      / ((Miniramp.process powf (Miniramp.run powf Miniramp.init argss) args).1.channel c
        ).gateGen.triggerDuration * 10 := by positivity
  have hratio1 : ((Miniramp.process powf (Miniramp.run powf Miniramp.init argss)
      args).1.channel c).gateGen.time
      / ((Miniramp.process powf (Miniramp.run powf Miniramp.init argss) args).1.channel c
        ).gateGen.triggerDuration * 10 < 10 := by
    have := (div_lt_one hpos).2 hlt
    linarith
  refine ⟨hfin, h0, hlt, hpos, hratio0, hratio1, ?_⟩
  rw [← hout2, processChannel_ramp, hout2, hactive, if_pos rfl, ← hch]
  simp only [CustomPulseGenerator.rampValue, clamp]
  rw [min_eq_left hratio1.le, max_eq_left hratio0]

/-- Instance of C21: a fresh module in linear mode with knob 2 and sample time
1/2; the first call has a trigger edge on channel 0, the second has none, and
on it the gate is active with time 1 and duration 2: the ramp output is 5. -/
theorem C21_division_guard_witness :
    ∃ out, (Miniramp.process (fun _ _ => (0 : ℚ))
        (Miniramp.run (fun _ _ => (0 : ℚ)) Miniramp.init
          [⟨1 / 2, 1, 2, 0, 0, 0, fun _ => true, fun _ => false⟩])
        ⟨1 / 2, 1, 2, 0, 0, 0, fun _ => false, fun _ => false⟩).2 0 = some out ∧
      out.gateActive = true ∧
      0 < ((Miniramp.process (fun _ _ => (0 : ℚ))
        (Miniramp.run (fun _ _ => (0 : ℚ)) Miniramp.init
          [⟨1 / 2, 1, 2, 0, 0, 0, fun _ => true, fun _ => false⟩])
        ⟨1 / 2, 1, 2, 0, 0, 0, fun _ => false, fun _ => false⟩).1.channel 0
        ).gateGen.triggerDuration ∧
      out.ramp = ((Miniramp.process (fun _ _ => (0 : ℚ))
        (Miniramp.run (fun _ _ => (0 : ℚ)) Miniramp.init
          [⟨1 / 2, 1, 2, 0, 0, 0, fun _ => true, fun _ => false⟩])
        ⟨1 / 2, 1, 2, 0, 0, 0, fun _ => false, fun _ => false⟩).1.channel 0).gateGen.time
        / ((Miniramp.process (fun _ _ => (0 : ℚ))
          (Miniramp.run (fun _ _ => (0 : ℚ)) Miniramp.init
            [⟨1 / 2, 1, 2, 0, 0, 0, fun _ => true, fun _ => false⟩])
          ⟨1 / 2, 1, 2, 0, 0, 0, fun _ => false, fun _ => false⟩).1.channel 0
          ).gateGen.triggerDuration * 10 :=
  have hact : (processChannel (0 : Int)
      (duration (fun _ _ => (0 : ℚ)) 2 0 0 0).2.2 (1 / 2) false false
      ((Miniramp.run (fun _ _ => (0 : ℚ)) Miniramp.init
        [⟨1 / 2, 1, 2, 0, 0, 0, fun _ => true, fun _ => false⟩]).channel 0)).2.gateActive
      = true := by
    norm_num [Miniramp.run, Miniramp.process, Miniramp.init, processChannel, duration, clamp,
      CustomPulseGenerator.process, CustomPulseGenerator.trigger]
  have h := C21_division_guard (fun _ _ => (0 : ℚ))
    [⟨1 / 2, 1, 2, 0, 0, 0, fun _ => true, fun _ => false⟩]
    ⟨1 / 2, 1, 2, 0, 0, 0, fun _ => false, fun _ => false⟩
    (by intro a ha; simp at ha; rw [ha]; norm_num) (by norm_num) 0 _ rfl hact
  ⟨_, rfl, hact, h.2.2.2.1, h.2.2.2.2.2.2⟩

/-! ## Properties of binary32 rounding -/

namespace F32

theorem bitLen_zero (fuel : Nat) : bitLen fuel 0 = 0 := by
  cases fuel <;> simp [bitLen]

theorem bitLen_spec (fuel n : Nat) (hle : n ≤ fuel) (hn : n ≠ 0) :
    2 ^ (bitLen fuel n - 1) ≤ n ∧ n < 2 ^ bitLen fuel n := by
  induction fuel generalizing n with
  | zero => omega
  | succ fuel ih =>
    simp only [bitLen, if_neg hn]
    by_cases h2 : n / 2 = 0
    · have h1 : n = 1 := by omega
      simp [h2, bitLen_zero, h1]
    · have hle2 : n / 2 ≤ fuel := by omega
      obtain ⟨hlo, hhi⟩ := ih (n / 2) hle2 h2
      have hpos : 0 < bitLen fuel (n / 2) := by
        by_contra hz
        have hz0 : bitLen fuel (n / 2) = 0 := by omega
        rw [hz0] at hhi
        omega
      have hsplit : bitLen fuel (n / 2) = (bitLen fuel (n / 2) - 1) + 1 := by omega
      have hp : 2 ^ bitLen fuel (n / 2) = 2 * 2 ^ (bitLen fuel (n / 2) - 1) := by
        conv_lhs => rw [hsplit]
        rw [pow_succ]; ring
      constructor
      · simp only [Nat.add_sub_cancel]
        rw [hp]
        omega
      · rw [pow_succ]
        omega

end F32

namespace F32

theorem bitLen_bounds (n : Nat) (hn : n ≠ 0) :
    2 ^ bitLen n n ≤ 2 * n ∧ n < 2 ^ bitLen n n := by
  obtain ⟨hlo, hhi⟩ := bitLen_spec n n le_rfl hn
  refine ⟨?_, hhi⟩
  have hpos : 0 < bitLen n n := by
    by_contra hz
    have hz0 : bitLen n n = 0 := by omega
    rw [hz0] at hhi
    omega
  have hsplit : bitLen n n = (bitLen n n - 1) + 1 := by omega
  calc 2 ^ bitLen n n = 2 * 2 ^ (bitLen n n - 1) := by
        conv_lhs => rw [hsplit]
        rw [pow_succ]; ring
    _ ≤ 2 * n := by omega

theorem two_zpow_pos (e : Int) : (0 : ℚ) < 2 ^ e := zpow_pos (by norm_num) e

/-- The quantity `elog x` is the floor of the binary logarithm of `|x|`. -/
theorem elog_spec (x : ℚ) (hx : x ≠ 0) :
    (2 : ℚ) ^ elog x ≤ |x| ∧ |x| < (2 : ℚ) ^ (elog x + 1) := by
  have hnum : x.num.natAbs ≠ 0 := by
    simpa using (Rat.num_ne_zero.2 hx)
  have hden : x.den ≠ 0 := x.den_nz
  obtain ⟨hn1, hn2⟩ := bitLen_bounds _ hnum
  obtain ⟨hd1, hd2⟩ := bitLen_bounds _ hden
  set a := bitLen x.num.natAbs x.num.natAbs with ha
  set b := bitLen x.den x.den with hb
  have habs : |x| = (x.num.natAbs : ℚ) / (x.den : ℚ) := by
    conv_lhs => rw [← Rat.num_div_den x]
    rw [abs_div, Nat.cast_natAbs, Int.cast_abs]
    congr 1
    exact abs_of_pos (by exact_mod_cast Nat.pos_of_ne_zero hden)
  have hdpos : (0 : ℚ) < (x.den : ℚ) := by exact_mod_cast Nat.pos_of_ne_zero hden
  have hn1q : (2 : ℚ) ^ a ≤ 2 * (x.num.natAbs : ℚ) := by exact_mod_cast hn1
  have hn2q : (x.num.natAbs : ℚ) < (2 : ℚ) ^ a := by exact_mod_cast hn2
  have hd1q : (2 : ℚ) ^ b ≤ 2 * (x.den : ℚ) := by exact_mod_cast hd1
  have hd2q : (x.den : ℚ) < (2 : ℚ) ^ b := by exact_mod_cast hd2
  have hpa : (0 : ℚ) < (2 : ℚ) ^ a := by positivity
  have hpb : (0 : ℚ) < (2 : ℚ) ^ b := by positivity
  have he0 : (2 : ℚ) ^ ((a : Int) - (b : Int)) = (2 : ℚ) ^ a / (2 : ℚ) ^ b :=
    zpow_natCast_sub_natCast₀ (by norm_num) a b
  have hlow : (2 : ℚ) ^ ((a : Int) - (b : Int) - 1) ≤ |x| := by
    rw [zpow_sub_one₀ (by norm_num), he0, habs, div_mul_eq_mul_div,
      div_le_div_iff₀ hpb hdpos]
    have hnn : (0 : ℚ) ≤ (x.num.natAbs : ℚ) := by positivity
    have h1 : (2 : ℚ) ^ a * 2⁻¹ ≤ (x.num.natAbs : ℚ) := by linarith
    calc (2 : ℚ) ^ a * 2⁻¹ * (x.den : ℚ) ≤ (x.num.natAbs : ℚ) * (x.den : ℚ) :=
          mul_le_mul_of_nonneg_right h1 hdpos.le
      _ ≤ (x.num.natAbs : ℚ) * (2 : ℚ) ^ b := mul_le_mul_of_nonneg_left hd2q.le hnn
  have hhigh : |x| < (2 : ℚ) ^ ((a : Int) - (b : Int) + 1) := by
    rw [zpow_add_one₀ (by norm_num), he0, habs, div_mul_eq_mul_div,
      div_lt_div_iff₀ hdpos hpb]
    calc (x.num.natAbs : ℚ) * (2 : ℚ) ^ b ≤ (x.num.natAbs : ℚ) * (2 * (x.den : ℚ)) :=
          mul_le_mul_of_nonneg_left hd1q (by positivity)
      _ = (x.num.natAbs : ℚ) * 2 * (x.den : ℚ) := by ring
      _ < (2 : ℚ) ^ a * 2 * (x.den : ℚ) :=
          mul_lt_mul_of_pos_right (by linarith) hdpos
  simp only [elog, ← ha, ← hb]
  split_ifs with h
  · exact ⟨hlow, by simpa using h⟩
  · exact ⟨not_lt.1 h, hhigh⟩

end F32

namespace F32

theorem expo_ge (x : ℚ) : -126 ≤ expo x := by
  unfold expo
  split_ifs
  · exact le_rfl
  · exact le_max_right _ _

theorem expo_hi (x : ℚ) : |x| < (2 : ℚ) ^ (expo x + 1) := by
  by_cases hx : x = 0
  · rw [hx, abs_zero]
    exact two_zpow_pos _
  · have h := (elog_spec x hx).2
    simp only [expo, if_neg hx]
    exact lt_of_lt_of_le h (zpow_le_zpow_right₀ (by norm_num) (by
      have := le_max_left (elog x) (-126)
      omega))

theorem expo_lo (x : ℚ) (h : -126 < expo x) : (2 : ℚ) ^ expo x ≤ |x| := by
  by_cases hx : x = 0
  · simp [expo, hx] at h
  · simp only [expo, if_neg hx] at h ⊢
    have hmax : max (elog x) (-126) = elog x := by
      rcases le_total (elog x) (-126) with hle | hle
      · rw [max_eq_right hle] at h
        omega
      · exact max_eq_left hle
    rw [hmax]
    exact (elog_spec x hx).1

theorem expo_mono (x y : ℚ) (h : |x| ≤ |y|) : expo x ≤ expo y := by
  by_contra hlt
  have hlt2 : expo y < expo x := not_le.1 hlt
  have hx : -126 < expo x := lt_of_le_of_lt (expo_ge y) hlt2
  have h1 := expo_lo x hx
  have h2 := expo_hi y
  have h3 : (2 : ℚ) ^ (expo y + 1) ≤ (2 : ℚ) ^ expo x :=
    zpow_le_zpow_right₀ (by norm_num) (by omega)
  linarith

theorem expo_lt_of_abs_lt (x : ℚ) (E : Int) (hE : -126 < E) (h : |x| < (2 : ℚ) ^ E) :
    expo x < E := by
  by_contra hge
  have hge2 : E ≤ expo x := not_lt.1 hge
  have h1 := expo_lo x (lt_of_lt_of_le hE hge2)
  have h3 : (2 : ℚ) ^ E ≤ (2 : ℚ) ^ expo x := zpow_le_zpow_right₀ (by norm_num) hge2
  linarith

theorem expo_neg (x : ℚ) : expo (-x) = expo x := by
  simp [expo, elog, Rat.num_neg_eq_neg_num, Rat.neg_den]

theorem ulp_neg (x : ℚ) : ulp (-x) = ulp x := by
  simp [ulp, expo_neg]

theorem ulp_pos (x : ℚ) : 0 < ulp x := two_zpow_pos _

/-- The rounding to an integer is within one half of its argument. -/
theorem roundHalfEven_near (q : ℚ) : |(roundHalfEven q : ℚ) - q| ≤ 1 / 2 := by
  have h0 : 0 ≤ q - ⌊q⌋ := by linarith [Int.floor_le q]
  have h1 : q - ⌊q⌋ < 1 := by linarith [Int.lt_floor_add_one q]
  unfold roundHalfEven
  split_ifs with ha hb hc
  · rw [abs_le]; constructor <;> linarith
  · rw [abs_le]; push_cast; constructor <;> linarith
  · rw [abs_le]; constructor <;> linarith
  · rw [abs_le]; push_cast; constructor <;> linarith

theorem roundHalfEven_intCast (n : Int) : roundHalfEven (n : ℚ) = n := by
  simp [roundHalfEven]

theorem roundHalfEven_mono (q1 q2 : ℚ) (h : q1 ≤ q2) : roundHalfEven q1 ≤ roundHalfEven q2 := by
  by_contra hlt
  have hlt2 : roundHalfEven q2 + 1 ≤ roundHalfEven q1 := by omega
  have hq : ((roundHalfEven q2 : ℚ)) + 1 ≤ (roundHalfEven q1 : ℚ) := by exact_mod_cast hlt2
  have h1 := abs_le.1 (roundHalfEven_near q1)
  have h2 := abs_le.1 (roundHalfEven_near q2)
  have heq : q1 = q2 := by linarith [h1.1, h1.2, h2.1, h2.2]
  rw [heq] at hlt
  exact hlt le_rfl

end F32

namespace F32

theorem roundNonneg_zero : roundNonneg 0 = 0 := by
  simp [roundNonneg, roundHalfEven]

theorem roundNonneg_nonneg (x : ℚ) (hx : 0 ≤ x) : 0 ≤ roundNonneg x := by
  have hq : (0 : ℚ) ≤ x / ulp x := div_nonneg hx (ulp_pos x).le
  have h := roundHalfEven_mono 0 (x / ulp x) hq
  have h0 : roundHalfEven 0 = 0 := by simpa using roundHalfEven_intCast 0
  rw [h0] at h
  have hz : (0 : ℚ) ≤ (roundHalfEven (x / ulp x) : ℚ) := by exact_mod_cast h
  exact mul_nonneg hz (ulp_pos x).le

/-- The error of one rounding is at most half the spacing. -/
theorem roundNonneg_err (x : ℚ) : |roundNonneg x - x| ≤ ulp x / 2 := by
  have hu := ulp_pos x
  have h := roundHalfEven_near (x / ulp x)
  have hx : x = x / ulp x * ulp x := by field_simp
  have : roundNonneg x - x = ((roundHalfEven (x / ulp x) : ℚ) - x / ulp x) * ulp x := by
    simp only [roundNonneg]
    conv_lhs => rw [hx]
    field_simp
  rw [this, abs_mul, abs_of_pos hu]
  calc |(roundHalfEven (x / ulp x) : ℚ) - x / ulp x| * ulp x ≤ 1 / 2 * ulp x :=
        mul_le_mul_of_nonneg_right h hu.le
    _ = ulp x / 2 := by ring

/-- Rounding with the spacing of exponent `e` maps `[2 ^ e, 2 ^ (e + 1)]` into
itself. -/
theorem roundNonneg_le_top (x : ℚ) (hx : 0 ≤ x) :
    roundNonneg x ≤ (2 : ℚ) ^ (expo x + 1) := by
  have hu := ulp_pos x
  have hhi := expo_hi x
  rw [abs_of_nonneg hx] at hhi
  have hsplit : (2 : ℚ) ^ (expo x + 1) = ((2 ^ 24 : Int) : ℚ) * ulp x := by
    simp only [ulp]
    have : expo x + 1 = 24 + (expo x - 23) := by ring
    rw [this, zpow_add₀ (by norm_num)]
    norm_num
  have hq : x / ulp x ≤ ((2 ^ 24 : Int) : ℚ) := by
    rw [div_le_iff₀ hu, ← hsplit]
    exact hhi.le
  have h := roundHalfEven_mono _ _ hq
  rw [roundHalfEven_intCast] at h
  rw [hsplit]
  simp only [roundNonneg]
  exact mul_le_mul_of_nonneg_right (by exact_mod_cast h) hu.le

theorem roundNonneg_ge_bot (x : ℚ) (hx : 0 ≤ x) (he : -126 < expo x) :
    (2 : ℚ) ^ expo x ≤ roundNonneg x := by
  have hu := ulp_pos x
  have hlo := expo_lo x he
  rw [abs_of_nonneg hx] at hlo
  have hsplit : (2 : ℚ) ^ expo x = ((2 ^ 23 : Int) : ℚ) * ulp x := by
    simp only [ulp]
    have : expo x = 23 + (expo x - 23) := by ring
    conv_lhs => rw [this]
    rw [zpow_add₀ (by norm_num)]
    norm_num
  have hq : ((2 ^ 23 : Int) : ℚ) ≤ x / ulp x := by
    rw [le_div_iff₀ hu, ← hsplit]
    exact hlo
  have h := roundHalfEven_mono _ _ hq
  rw [roundHalfEven_intCast] at h
  rw [hsplit]
  simp only [roundNonneg]
  exact mul_le_mul_of_nonneg_right (by exact_mod_cast h) hu.le

theorem roundNonneg_mono (x y : ℚ) (hx : 0 ≤ x) (hxy : x ≤ y) :
    roundNonneg x ≤ roundNonneg y := by
  have hy : 0 ≤ y := le_trans hx hxy
  have hexp : expo x ≤ expo y := expo_mono x y (by
    rw [abs_of_nonneg hx, abs_of_nonneg hy]; exact hxy)
  rcases eq_or_lt_of_le hexp with heq | hlt
  · have hu : ulp x = ulp y := by simp [ulp, heq]
    simp only [roundNonneg, hu]
    have hq : x / ulp y ≤ y / ulp y := div_le_div_of_nonneg_right hxy (ulp_pos y).le
    exact mul_le_mul_of_nonneg_right (by exact_mod_cast roundHalfEven_mono _ _ hq)
      (ulp_pos y).le
  · have h1 := roundNonneg_le_top x hx
    have h2 := roundNonneg_ge_bot y hy (lt_of_le_of_lt (expo_ge x) hlt)
    have h3 : (2 : ℚ) ^ (expo x + 1) ≤ (2 : ℚ) ^ expo y :=
      zpow_le_zpow_right₀ (by norm_num) (by omega)
    linarith

/-- A non-negative integer multiple `m * 2 ^ p` with at most 24 significant
bits and `p ≥ -149` is a binary32 value: rounding leaves it as it is. -/
theorem roundNonneg_rep (m : Int) (p : Int) (hm0 : 0 ≤ m) (hm : m ≤ 2 ^ 24)
    (hp : -149 ≤ p) : roundNonneg ((m : ℚ) * (2 : ℚ) ^ p) = (m : ℚ) * (2 : ℚ) ^ p := by
  set y : ℚ := (m : ℚ) * (2 : ℚ) ^ p with hy
  have hy0 : 0 ≤ y := mul_nonneg (by exact_mod_cast hm0) (two_zpow_pos p).le
  -- the quotient by the spacing is an integer
  have hint : ∃ n : Int, y / ulp y = (n : ℚ) := by
    rcases eq_or_lt_of_le hm with hm24 | hm24
    · -- the top value of the grid
      have hyv : y = (2 : ℚ) ^ (24 + p) := by
        rw [hy, hm24, zpow_add₀ (by norm_num)]
        norm_num
      have hexp : expo y = 24 + p := by
        apply le_antisymm
        · have hlt : expo y < 24 + p + 1 := by
            apply expo_lt_of_abs_lt _ _ (by omega)
            rw [abs_of_nonneg hy0, hyv]
            exact zpow_lt_zpow_right₀ (by norm_num) (by omega)
          omega
        · by_contra hlt
          have hlt2 : expo y + 1 ≤ 24 + p := by omega
          have h1 := expo_hi y
          rw [abs_of_nonneg hy0] at h1
          have h3 : (2 : ℚ) ^ (expo y + 1) ≤ (2 : ℚ) ^ (24 + p) :=
            zpow_le_zpow_right₀ (by norm_num) hlt2
          linarith [hyv]
      refine ⟨2 ^ 23, ?_⟩
      rw [div_eq_iff (ulp_pos y).ne']
      simp only [ulp, hexp]
      rw [hyv]
      have : 24 + p = 23 + (24 + p - 23) := by ring
      conv_lhs => rw [this]
      rw [zpow_add₀ (by norm_num)]
      norm_num
    · have hlt : expo y < 24 + p := by
        apply expo_lt_of_abs_lt _ _ (by omega)
        rw [abs_of_nonneg hy0, hy, zpow_add₀ (by norm_num)]
        have hmq : (m : ℚ) < (2 : ℚ) ^ (24 : Int) := by
          have : (m : ℚ) < ((2 ^ 24 : Int) : ℚ) := by exact_mod_cast hm24
          norm_num at this ⊢
          exact this
        exact mul_lt_mul_of_pos_right hmq (two_zpow_pos p)
      obtain ⟨k, hk⟩ : ∃ k : Nat, p = (expo y - 23) + (k : Int) :=
        ⟨(p - (expo y - 23)).toNat, by omega⟩
      refine ⟨m * 2 ^ k, ?_⟩
      rw [div_eq_iff (ulp_pos y).ne']
      simp only [ulp]
      rw [hy]
      conv_lhs => rw [hk]
      rw [zpow_add₀ (by norm_num), zpow_natCast]
      push_cast
      ring
  obtain ⟨n, hn⟩ := hint
  simp only [roundNonneg, hn, roundHalfEven_intCast]
  rw [← hn]
  exact div_mul_cancel₀ y (ulp_pos y).ne'

theorem roundNonneg_idem (x : ℚ) (hx : 0 ≤ x) : roundNonneg (roundNonneg x) = roundNonneg x := by
  have hu := ulp_pos x
  have hm0 : 0 ≤ roundHalfEven (x / ulp x) := by
    have h := roundHalfEven_mono 0 (x / ulp x) (div_nonneg hx hu.le)
    have h0 : roundHalfEven 0 = 0 := by simpa using roundHalfEven_intCast 0
    rw [h0] at h
    exact h
  have hm : roundHalfEven (x / ulp x) ≤ 2 ^ 24 := by
    have hhi := expo_hi x
    rw [abs_of_nonneg hx] at hhi
    have hsplit : (2 : ℚ) ^ (expo x + 1) = ((2 ^ 24 : Int) : ℚ) * ulp x := by
      simp only [ulp]
      have : expo x + 1 = 24 + (expo x - 23) := by ring
      rw [this, zpow_add₀ (by norm_num)]
      norm_num
    have hq : x / ulp x ≤ ((2 ^ 24 : Int) : ℚ) := by
      rw [div_le_iff₀ hu, ← hsplit]
      exact hhi.le
    have h := roundHalfEven_mono _ _ hq
    rw [roundHalfEven_intCast] at h
    exact h
  have hrep := roundNonneg_rep (roundHalfEven (x / ulp x)) (expo x - 23) hm0 hm
    (by have := expo_ge x; omega)
  simpa [roundNonneg, ulp] using hrep

end F32

namespace F32

theorem round_of_nonneg (x : ℚ) (hx : 0 ≤ x) : round x = roundNonneg x := by
  simp [round, not_lt.2 hx]

theorem round_zero : round 0 = 0 := by
  rw [round_of_nonneg 0 le_rfl, roundNonneg_zero]

theorem round_neg (x : ℚ) : round (-x) = -round x := by
  rcases lt_trichotomy x 0 with h | h | h
  · have h2 : ¬ -x < 0 := by linarith
    simp [round, h, h2]
  · simp [h, round_zero]
  · have h2 : ¬ x < 0 := by linarith
    have h3 : -x < 0 := by linarith
    simp [round, h2, h3]

theorem round_nonneg (x : ℚ) (hx : 0 ≤ x) : 0 ≤ round x := by
  rw [round_of_nonneg x hx]
  exact roundNonneg_nonneg x hx

/-- Rounding is monotone. -/
theorem round_mono (x y : ℚ) (hxy : x ≤ y) : round x ≤ round y := by
  rcases le_or_lt 0 x with hx | hx
  · rw [round_of_nonneg x hx, round_of_nonneg y (le_trans hx hxy)]
    exact roundNonneg_mono x y hx hxy
  · rcases le_or_lt 0 y with hy | hy
    · have h1 : round x ≤ 0 := by
        have := round_nonneg (-x) (by linarith)
        rw [round_neg] at this
        linarith
      exact le_trans h1 (round_nonneg y hy)
    · have h := roundNonneg_mono (-y) (-x) (by linarith) (by linarith)
      simp only [round, hx, hy, if_true]
      linarith

/-- Rounding leaves a rounded value as it is. -/
theorem round_idem (x : ℚ) : round (round x) = round x := by
  rcases le_or_lt 0 x with hx | hx
  · rw [round_of_nonneg x hx, round_of_nonneg _ (roundNonneg_nonneg x hx)]
    exact roundNonneg_idem x hx
  · have h := roundNonneg_idem (-x) (by linarith)
    have hr : round x = -roundNonneg (-x) := by simp [round, hx]
    rw [hr, round_neg, round_of_nonneg _ (roundNonneg_nonneg (-x) (by linarith)), h]

/-- The error of one rounding is at most half the spacing. -/
theorem round_err (x : ℚ) : |round x - x| ≤ ulp x / 2 := by
  rcases le_or_lt 0 x with hx | hx
  · rw [round_of_nonneg x hx]
    exact roundNonneg_err x
  · have h := roundNonneg_err (-x)
    have hr : round x = -roundNonneg (-x) := by simp [round, hx]
    rw [hr, ← ulp_neg x]
    have : -roundNonneg (-x) - x = -(roundNonneg (-x) - -x) := by ring
    rw [this, abs_neg]
    exact h

/-- The error of rounding a value of magnitude below `2 ^ E`. -/
theorem round_err_of_lt (x : ℚ) (E : Int) (hE : -126 < E) (h : |x| < (2 : ℚ) ^ E) :
    |round x - x| ≤ (2 : ℚ) ^ (E - 25) := by
  have hexp := expo_lt_of_abs_lt x E hE h
  have h1 := round_err x
  have h2 : ulp x / 2 ≤ (2 : ℚ) ^ (E - 25) := by
    have : ulp x / 2 = (2 : ℚ) ^ (expo x - 23 - 1) := by
      rw [zpow_sub_one₀ (by norm_num)]
      simp [ulp, div_eq_mul_inv]
    rw [this]
    exact zpow_le_zpow_right₀ (by norm_num) (by omega)
  exact le_trans h1 h2

theorem round_rep (m : Int) (p : Int) (hm0 : 0 ≤ m) (hm : m ≤ 2 ^ 24) (hp : -149 ≤ p) :
    round ((m : ℚ) * (2 : ℚ) ^ p) = (m : ℚ) * (2 : ℚ) ^ p := by
  rw [round_of_nonneg _ (mul_nonneg (by exact_mod_cast hm0) (two_zpow_pos p).le)]
  exact roundNonneg_rep m p hm0 hm hp

unseal Rat.add Rat.mul Rat.inv Rat.sub in
theorem round_small_values :
    round 1 = 1 ∧ round 10 = 10 ∧ round 2 = 2 ∧ round 4 = 4 ∧ round (-3) = -3 ∧
    round (-1) = -1 := by
  decide

end F32

/-! ## Properties of the pulse generator with binary32 rounding -/

namespace F32

theorem accumulate_append (t : ℚ) (l1 l2 : List ℚ) :
    accumulate t (l1 ++ l2) = accumulate (accumulate t l1) l2 := by
  induction l1 generalizing t with
  | nil => rfl
  | cons dt l1 ih =>
    rw [List.cons_append]
    simp only [accumulate]
    exact ih _

theorem accumulate_replicate_succ (t dt : ℚ) (n : Nat) :
    accumulate t (List.replicate (n + 1) dt)
      = round (accumulate t (List.replicate n dt) + dt) := by
  rw [List.replicate_succ', accumulate_append]
  rfl

theorem round_accumulate (t : ℚ) (dts : List ℚ) (ht : round t = t) :
    round (accumulate t dts) = accumulate t dts := by
  induction dts generalizing t with
  | nil => exact ht
  | cons dt dts ih => exact ih _ (round_idem _)

/-- With non-negative steps the accumulated time does not decrease. -/
theorem le_accumulate (t : ℚ) (dts : List ℚ) (ht : round t = t)
    (hnn : ∀ dt ∈ dts, 0 ≤ dt) : t ≤ accumulate t dts := by
  induction dts generalizing t with
  | nil => exact le_rfl
  | cons dt dts ih =>
    have hdt : 0 ≤ dt := hnn dt (List.mem_cons_self _ _)
    have h1 : t ≤ round (t + dt) := by
      have := round_mono t (t + dt) (by linarith)
      rw [ht] at this
      exact this
    exact le_trans h1
      (ih _ (round_idem _) (fun x hx => hnn x (List.mem_cons_of_mem _ hx)))

theorem processAll_time_f32 (g : CustomPulseGenerator ℚ) (dts : List ℚ) :
    (processAll g dts).1.time = accumulate g.time dts := by
  induction dts generalizing g with
  | nil => rfl
  | cons dt dts ih =>
    simp only [processAll, accumulate]
    rw [ih]
    rfl

theorem processAll_triggerDuration_f32 (g : CustomPulseGenerator ℚ) (dts : List ℚ) :
    (processAll g dts).1.triggerDuration = g.triggerDuration := by
  induction dts generalizing g with
  | nil => rfl
  | cons dt dts ih =>
    simp only [processAll]
    rw [ih]
    rfl

theorem processAll_length_f32 (g : CustomPulseGenerator ℚ) (dts : List ℚ) :
    (processAll g dts).2.length = dts.length := by
  induction dts generalizing g with
  | nil => rfl
  | cons dt dts ih => simp [processAll, ih]

/-- While the accumulated time ends below the duration, an unfinished pulse
stays unfinished and every call returns `true`. -/
theorem processAll_active_f32 (g : CustomPulseGenerator ℚ) (dts : List ℚ)
    (hf : g.finished = false) (ht : round g.time = g.time)
    (hnn : ∀ dt ∈ dts, 0 ≤ dt) (hlt : accumulate g.time dts < g.triggerDuration) :
    (processAll g dts).1.finished = false ∧ ∀ b ∈ (processAll g dts).2, b = true := by
  induction dts generalizing g with
  | nil => simp [processAll, hf]
  | cons dt dts ih =>
    have hrest : ∀ x ∈ dts, 0 ≤ x := fun x hx => hnn x (List.mem_cons_of_mem _ hx)
    simp only [accumulate] at hlt
    have hstep : round (g.time + dt) < g.triggerDuration :=
      lt_of_le_of_lt (le_accumulate _ dts (round_idem _) hrest) hlt
    have hfin : (process g dt).1.finished = false := by
      simp [process, hf, hstep]
    have hret : (process g dt).2 = true := by
      simp [process, hf, hstep]
    have h := ih (process g dt).1 hfin (round_idem _) hrest hlt
    refine ⟨h.1, ?_⟩
    intro b hb
    simp only [processAll, List.mem_cons] at hb
    rcases hb with hb | hb
    · rw [hb, hret]
    · exact h.2 b hb

/-- A finished pulse stays finished: every later call returns `false`. -/
theorem processAll_finished_f32 (g : CustomPulseGenerator ℚ) (dts : List ℚ)
    (hf : g.finished = true) (i : Nat) (hi : i < dts.length) :
    (processAll g dts).2[i]? = some false := by
  induction dts generalizing g i with
  | nil => simp at hi
  | cons dt dts ih =>
    have hfin : (process g dt).1.finished = true := by
      simp [process, hf]
    cases i with
    | zero => simp [processAll, process, hf]
    | succ i =>
      simp only [processAll, List.getElem?_cons_succ]
      exact ih _ hfin i (by simpa using hi)

/-- Once the time has reached the duration at call `j`, call `j` and every
later call return `false`. -/
theorem processAll_expired_f32 (g : CustomPulseGenerator ℚ) (dts : List ℚ) (i j : Nat)
    (hj : j ≤ i) (hi : i < dts.length)
    (hacc : g.triggerDuration ≤ accumulate g.time (dts.take (j + 1))) :
    (processAll g dts).2[i]? = some false := by
  induction dts generalizing g i j with
  | nil => simp at hi
  | cons dt dts ih =>
    cases j with
    | zero =>
      simp only [zero_add, List.take_succ_cons, List.take_zero, accumulate] at hacc
      have hfin : (process g dt).1.finished = true := by
        cases hg : g.finished <;> simp [process, hg, hacc]
      cases i with
      | zero =>
        cases hg : g.finished <;> simp [processAll, process, hg, hacc]
      | succ i =>
        simp only [processAll, List.getElem?_cons_succ]
        exact processAll_finished_f32 _ dts hfin i (by simpa using hi)
    | succ j =>
      cases i with
      | zero => omega
      | succ i =>
        simp only [processAll, List.getElem?_cons_succ]
        apply ih (process g dt).1 i j (by omega) (by simpa using hi)
        simp only [List.take_succ_cons, accumulate] at hacc
        exact hacc

end F32

unseal Rat.add Rat.mul Rat.inv Rat.sub in
/-- Claim C1, refuted as stated.  Duration `0.3f` and three steps of `0.1f`:
the duration is in `(0, 10]`, the steps are non-negative and their sum is
below the duration, yet the code's third addition rounds the time up to
`0.3f`: the third `process` call returns `false` and the time is not the
sum. -/
theorem C1_float_sum_reaches_duration :
    0 < F32.round (3 / 10) ∧ F32.round (3 / 10) ≤ 10 ∧ 0 ≤ F32.round (1 / 10) ∧
    [F32.round (1 / 10), F32.round (1 / 10), F32.round (1 / 10)].sum < F32.round (3 / 10) ∧
    (F32.processAll ((⟨0, 0, true⟩ : CustomPulseGenerator ℚ).trigger (F32.round (3 / 10)))
      [F32.round (1 / 10), F32.round (1 / 10), F32.round (1 / 10)]).2 = [true, true, false] ∧
    (F32.processAll ((⟨0, 0, true⟩ : CustomPulseGenerator ℚ).trigger (F32.round (3 / 10)))
      [F32.round (1 / 10), F32.round (1 / 10), F32.round (1 / 10)]).1.time
      ≠ [F32.round (1 / 10), F32.round (1 / 10), F32.round (1 / 10)].sum := by
  decide

/-- Claim C1, amended.  With binary32 rounding, let `t` be the accumulated time
as the code computes it (`F32.accumulate 0 dts`).  For `0 < d ≤ 10` and
non-negative steps with `t < d`: after `trigger(d)` every `process` call (so the
last one) returns `true`, there is one result per step, `finished` is `false`,
`time = t ≥ 0`, and the ramp value `clamp(time / triggerDuration * 10, 0, 10)`
is the rounded product of the rounded quotient, lies in `[0, 10]` and is
within `2 ^ (-20)` of `t / d * 10`. -/
theorem C1_float_trigger_then_advance_ramp (g : CustomPulseGenerator ℚ) (d : ℚ)
    (dts : List ℚ) (hd : 0 < d) (_hd10 : d ≤ 10) (hnn : ∀ dt ∈ dts, 0 ≤ dt)
    (hsum : F32.accumulate 0 dts < d) :
    (∀ b ∈ (F32.processAll (g.trigger d) dts).2, b = true) ∧
    (F32.processAll (g.trigger d) dts).2.length = dts.length ∧
    (F32.processAll (g.trigger d) dts).1.finished = false ∧
    (F32.processAll (g.trigger d) dts).1.time = F32.accumulate 0 dts ∧
    0 ≤ F32.accumulate 0 dts ∧
    F32.rampValue (F32.processAll (g.trigger d) dts).1
      = F32.round (F32.round (F32.accumulate 0 dts / d) * 10) ∧
    0 ≤ F32.rampValue (F32.processAll (g.trigger d) dts).1 ∧
    F32.rampValue (F32.processAll (g.trigger d) dts).1 ≤ 10 ∧
    |F32.rampValue (F32.processAll (g.trigger d) dts).1 - F32.accumulate 0 dts / d * 10|
      ≤ 1 / 1048576 := by
  have ht0 : 0 ≤ F32.accumulate 0 dts := F32.le_accumulate 0 dts F32.round_zero hnn
  have hact := F32.processAll_active_f32 (g.trigger d) dts rfl F32.round_zero hnn hsum
  have htime : (F32.processAll (g.trigger d) dts).1.time = F32.accumulate 0 dts :=
    F32.processAll_time_f32 _ _
  have hdur : (F32.processAll (g.trigger d) dts).1.triggerDuration = d :=
    F32.processAll_triggerDuration_f32 _ _
  -- the quotient and its rounding
  have hx0 : 0 ≤ F32.accumulate 0 dts / d := div_nonneg ht0 hd.le
  have hx1 : F32.accumulate 0 dts / d < 1 := (div_lt_one hd).2 hsum
  have hr0 : 0 ≤ F32.round (F32.accumulate 0 dts / d) := F32.round_nonneg _ hx0
  have hr1 : F32.round (F32.accumulate 0 dts / d) ≤ 1 := by
    have := F32.round_mono _ _ hx1.le
    rw [F32.round_small_values.1] at this
    exact this
  have hy0 : 0 ≤ F32.round (F32.accumulate 0 dts / d) * 10 := by positivity
  have hy1 : F32.round (F32.accumulate 0 dts / d) * 10 ≤ 10 := by linarith
  have hz0 : 0 ≤ F32.round (F32.round (F32.accumulate 0 dts / d) * 10) :=
    F32.round_nonneg _ hy0
  have hz1 : F32.round (F32.round (F32.accumulate 0 dts / d) * 10) ≤ 10 := by
    have := F32.round_mono _ _ hy1
    rw [F32.round_small_values.2.1] at this
    exact this
  have hramp : F32.rampValue (F32.processAll (g.trigger d) dts).1
      = F32.round (F32.round (F32.accumulate 0 dts / d) * 10) := by
    simp only [F32.rampValue, htime, hdur, clamp]
    rw [min_eq_left hz1, max_eq_left hz0]
  -- the two rounding errors
  have he1 : |F32.round (F32.accumulate 0 dts / d) - F32.accumulate 0 dts / d|
      ≤ (2 : ℚ) ^ ((0 : Int) - 25) :=
    F32.round_err_of_lt _ 0 (by norm_num) (by
      rw [abs_of_nonneg hx0]; simpa using hx1)
  have he2 : |F32.round (F32.round (F32.accumulate 0 dts / d) * 10)
      - F32.round (F32.accumulate 0 dts / d) * 10| ≤ (2 : ℚ) ^ ((4 : Int) - 25) :=
    F32.round_err_of_lt _ 4 (by norm_num) (by
      rw [abs_of_nonneg hy0]
      have : ((2 : ℚ) ^ (4 : Int)) = 16 := by norm_num
      rw [this]
      linarith)
  have hp1 : ((2 : ℚ) ^ ((0 : Int) - 25)) = 1 / 33554432 := by norm_num
  have hp2 : ((2 : ℚ) ^ ((4 : Int) - 25)) = 1 / 2097152 := by norm_num
  rw [hp1] at he1
  rw [hp2] at he2
  refine ⟨hact.2, F32.processAll_length_f32 _ _, hact.1, htime, ht0, hramp, ?_, ?_, ?_⟩
  · rw [hramp]; exact hz0
  · rw [hramp]; exact hz1
  · rw [hramp]
    have h1 := abs_le.1 he1
    have h2 := abs_le.1 he2
    rw [abs_le]
    constructor <;> linarith [h1.1, h1.2, h2.1, h2.2]

unseal Rat.add Rat.mul Rat.inv Rat.sub in
/-- Instance of C1: duration 2, steps 1/2, 0, 1. -/
theorem C1_float_trigger_then_advance_ramp_witness :
    (F32.processAll ((⟨7, 3, true⟩ : CustomPulseGenerator ℚ).trigger 2) [1 / 2, 0, 1]).1.time
      = F32.accumulate 0 [1 / 2, 0, 1] ∧
    (F32.processAll ((⟨7, 3, true⟩ : CustomPulseGenerator ℚ).trigger 2)
      [1 / 2, 0, 1]).1.finished = false :=
  ⟨(C1_float_trigger_then_advance_ramp ⟨7, 3, true⟩ 2 [1 / 2, 0, 1] (by norm_num)
      (by norm_num)
      (by intro dt hdt; simp at hdt; rcases hdt with h | h | h <;> rw [h] <;> norm_num)
      (by decide)).2.2.2.1,
   (C1_float_trigger_then_advance_ramp ⟨7, 3, true⟩ 2 [1 / 2, 0, 1] (by norm_num)
      (by norm_num)
      (by intro dt hdt; simp at hdt; rcases hdt with h | h | h <;> rw [h] <;> norm_num)
      (by decide)).2.2.1⟩

/-- Claim C2.  After `trigger(d)`, once the accumulated time as the code
computes it (the value of `time` after call `j`, each addition rounded to
binary32) has reached `d`, call `j` (the first such call, when `j` is minimal)
and every later call `i ≥ j` return `false`: a finished pulse is never
re-activated by `process`. -/
theorem C2_float_expired_pulse_latches (g : CustomPulseGenerator ℚ) (d : ℚ) (dts : List ℚ)
    (i j : Nat) (_hd : 0 ≤ d) (_hnn : ∀ dt ∈ dts, 0 ≤ dt) (hj : j ≤ i)
    (hi : i < dts.length) (hacc : d ≤ F32.accumulate 0 (dts.take (j + 1))) :
    (F32.processAll (g.trigger d) (dts.take (j + 1))).1.time
      = F32.accumulate 0 (dts.take (j + 1)) ∧
    (F32.processAll (g.trigger d) dts).2[i]? = some false :=
  ⟨F32.processAll_time_f32 _ _, F32.processAll_expired_f32 (g.trigger d) dts i j hj hi hacc⟩

unseal Rat.add Rat.mul Rat.inv Rat.sub in
/-- Instance of C2: duration `0.3f`, three steps of `0.1f`; the rounded time
reaches the duration at the third call, which returns `false`. -/
theorem C2_float_expired_pulse_latches_witness :
    (F32.processAll ((⟨0, 0, true⟩ : CustomPulseGenerator ℚ).trigger (F32.round (3 / 10)))
      [F32.round (1 / 10), F32.round (1 / 10), F32.round (1 / 10)]).2[2]? = some false :=
  (C2_float_expired_pulse_latches ⟨0, 0, true⟩ (F32.round (3 / 10))
    [F32.round (1 / 10), F32.round (1 / 10), F32.round (1 / 10)] 2 2 (by decide)
    (by decide) (by decide) (by decide) (by decide)).2

/-! ## Properties of the channel loop body with binary32 rounding -/

namespace F32

section ChannelStep

variable (mode : Int) (d dt : ℚ)

/-- One sample without trigger or reset edge: the gate generator takes the
current duration and advances. -/
theorem processChannel_quiet_gateGen_f32 (ch : Channel ℚ) :
    (processChannel mode d dt false false ch).1.gateGen =
      { time := round (ch.gateGen.time + dt), triggerDuration := d,
        finished := ch.gateGen.finished || decide (d ≤ round (ch.gateGen.time + dt)) } := by
  cases h : ch.gateGen.finished <;> simp [processChannel, process, h]

/-- One sample with an accepted trigger edge and no reset edge. -/
theorem processChannel_trig_gateGen_f32 (hd : 0 < d) (ch : Channel ℚ) :
    (processChannel mode d dt true false ch).1.gateGen =
      { time := round dt, triggerDuration := d, finished := decide (d ≤ round dt) } := by
  simp [processChannel, process, CustomPulseGenerator.trigger, hd]

/-- The local `gate` is the negation of the stored `finished` flag. -/
theorem processChannel_gateActive_f32 (t r : Bool) (ch : Channel ℚ) :
    (processChannel mode d dt t r ch).2.gateActive =
      !(processChannel mode d dt t r ch).1.gateGen.finished := by
  simp [processChannel, process]

/-- The gate output is 10 while the gate generator is unfinished after the
advance, and 0 otherwise. -/
theorem processChannel_gate_f32 (t r : Bool) (ch : Channel ℚ) :
    (processChannel mode d dt t r ch).2.gate =
      if (processChannel mode d dt t r ch).1.gateGen.finished then 0 else 10 := by
  have h1 : (processChannel mode d dt t r ch).2.gate =
      if (processChannel mode d dt t r ch).2.gateActive then 10 else 0 := by
    simp [processChannel]
  rw [h1, processChannel_gateActive_f32]
  cases (processChannel mode d dt t r ch).1.gateGen.finished <;> rfl

/-- The ramp output while the gate generator is unfinished after the advance. -/
theorem processChannel_ramp_active (t r : Bool) (ch : Channel ℚ)
    (h : (processChannel mode d dt t r ch).1.gateGen.finished = false) :
    (processChannel mode d dt t r ch).2.ramp
      = rampValue (processChannel mode d dt t r ch).1.gateGen := by
  have h1 : (processChannel mode d dt t r ch).2.ramp =
      if (processChannel mode d dt t r ch).2.gateActive then
        rampValue (processChannel mode d dt t r ch).1.gateGen
      else if mode = RAMP_FINISHED_0 then 0 else 10 := by
    simp [processChannel]
  rw [h1, processChannel_gateActive_f32, h]
  rfl

/-- The end-of-cycle generator on a sample without reset edge.  If the gate was
active before the advance (it was unfinished, or a trigger was accepted) and is
finished after it, the generator is triggered with `1e-3f` and then advanced;
otherwise it is only advanced.  The end-of-cycle output is 10 while the advanced
generator is active. -/
theorem processChannel_eocGen (t : Bool) (ch : Channel ℚ) :
    (processChannel mode d dt t false ch).1.eocGen
      = (process
          (if ((t && decide (0 < d)) || !ch.gateGen.finished) &&
              (processChannel mode d dt t false ch).1.gateGen.finished
            then ch.eocGen.trigger eocDuration else ch.eocGen) dt).1 ∧
    (processChannel mode d dt t false ch).2.eoc
      = if (process
          (if ((t && decide (0 < d)) || !ch.gateGen.finished) &&
              (processChannel mode d dt t false ch).1.gateGen.finished
            then ch.eocGen.trigger eocDuration else ch.eocGen) dt).2 then 10 else 0 := by
  cases t <;> by_cases hd : 0 < d <;> cases hf : ch.gateGen.finished <;>
    by_cases hc : d ≤ round (ch.gateGen.time + dt) <;>
    by_cases hc0 : d ≤ round dt <;>
    simp [processChannel, process, CustomPulseGenerator.trigger, hd, hf, hc, hc0]

end ChannelStep

end F32

namespace F32

section SingleTriggerRun

variable (mode : Int) (d dt : ℚ) (trig : Nat → Bool) (k : Nat) (ch : Channel ℚ)

theorem runChannel_succ_f32 (rst : Nat → Bool) (n : Nat) :
    runChannel mode d dt trig rst ch (n + 1) =
      (processChannel mode d dt (trig n) (rst n) (runChannel mode d dt trig rst ch n)).1 :=
  rfl

theorem accumulate_replicate_one (dt : ℚ) : accumulate 0 (List.replicate 1 dt) = round dt := by
  simp [accumulate]

theorem trig_false_of_ne_f32 (hk : ∀ n, trig n = true ↔ n = k) (n : Nat) (hn : n ≠ k) :
    trig n = false := by
  cases h : trig n with
  | false => rfl
  | true => exact absurd ((hk n).1 h) hn

/-- Before the trigger sample an idle gate stays idle. -/
theorem runChannel_before_f32 (hidle : ch.gateGen.finished = true)
    (hk : ∀ n, trig n = true ↔ n = k) (n : Nat) (hn : n ≤ k) :
    (runChannel mode d dt trig (fun _ => false) ch n).gateGen.finished = true := by
  induction n with
  | zero => simpa [runChannel] using hidle
  | succ n ih =>
    rw [runChannel_succ_f32, trig_false_of_ne_f32 trig k hk n (by omega), processChannel_quiet_gateGen_f32]
    simp [ih (by omega)]

/-- While the rounded accumulated time has stayed below the duration, the gate
generator after sample `k + j` holds that time and is unfinished. -/
theorem runChannel_active (hd : 0 < d) (hk : ∀ n, trig n = true ↔ n = k) (j : Nat)
    (h : ∀ i, i ≤ j → accumulate 0 (List.replicate (i + 1) dt) < d) :
    (runChannel mode d dt trig (fun _ => false) ch (k + j + 1)).gateGen =
      { time := accumulate 0 (List.replicate (j + 1) dt), triggerDuration := d,
        finished := false } := by
  induction j with
  | zero =>
    have h0 := h 0 le_rfl
    rw [zero_add, accumulate_replicate_one] at h0
    rw [add_zero, runChannel_succ_f32, (hk k).2 rfl, processChannel_trig_gateGen_f32 mode d dt hd,
      zero_add, accumulate_replicate_one, decide_eq_false (not_le.2 h0)]
  | succ j ih =>
    have hj := ih (fun i hi => h i (by omega))
    have hlt := h (j + 1) le_rfl
    rw [accumulate_replicate_succ] at hlt
    have hstep : k + (j + 1) + 1 = (k + j + 1) + 1 := by omega
    rw [hstep, runChannel_succ_f32, trig_false_of_ne_f32 trig k hk (k + j + 1) (by omega),
      processChannel_quiet_gateGen_f32, hj, accumulate_replicate_succ _ _ (j + 1)]
    simp only [decide_eq_false (not_le.2 hlt), Bool.or_false]

/-- From the first sample at which the rounded accumulated time has reached the
duration, the gate generator is finished. -/
theorem runChannel_done (hd : 0 < d) (hk : ∀ n, trig n = true ↔ n = k) (m : Nat)
    (hlt : ∀ i, i < m → accumulate 0 (List.replicate (i + 1) dt) < d)
    (hge : d ≤ accumulate 0 (List.replicate (m + 1) dt)) (j : Nat) (hmj : m ≤ j) :
    (runChannel mode d dt trig (fun _ => false) ch (k + j + 1)).gateGen =
      { time := accumulate 0 (List.replicate (j + 1) dt), triggerDuration := d,
        finished := true } := by
  induction j, hmj using Nat.le_induction with
  | base =>
    cases m with
    | zero =>
      rw [zero_add, accumulate_replicate_one] at hge
      rw [add_zero, runChannel_succ_f32, (hk k).2 rfl, processChannel_trig_gateGen_f32 mode d dt hd,
        zero_add, accumulate_replicate_one, decide_eq_true hge]
    | succ m =>
      have hact := runChannel_active mode d dt trig k ch hd hk m (fun i hi => hlt i (by omega))
      rw [accumulate_replicate_succ] at hge
      have hstep : k + (m + 1) + 1 = (k + m + 1) + 1 := by omega
      rw [hstep, runChannel_succ_f32, trig_false_of_ne_f32 trig k hk (k + m + 1) (by omega),
        processChannel_quiet_gateGen_f32, hact, accumulate_replicate_succ _ _ (m + 1)]
      simp only [decide_eq_true hge, Bool.or_true]
  | succ j hmj ih =>
    have hstep : k + (j + 1) + 1 = (k + j + 1) + 1 := by omega
    rw [hstep, runChannel_succ_f32, trig_false_of_ne_f32 trig k hk (k + j + 1) (by omega),
      processChannel_quiet_gateGen_f32, ih, accumulate_replicate_succ _ _ (j + 1)]
    simp only [Bool.true_or]

theorem outAt_gate_f32 (rst : Nat → Bool) (n : Nat) :
    (outAt mode d dt trig rst ch n).gate =
      if (runChannel mode d dt trig rst ch (n + 1)).gateGen.finished then 0 else 10 := by
  rw [runChannel_succ_f32]
  exact processChannel_gate_f32 mode d dt _ _ _

theorem outAt_ramp_active (rst : Nat → Bool) (n : Nat)
    (h : (runChannel mode d dt trig rst ch (n + 1)).gateGen.finished = false) :
    (outAt mode d dt trig rst ch n).ramp
      = rampValue (runChannel mode d dt trig rst ch (n + 1)).gateGen := by
  rw [runChannel_succ_f32] at h ⊢
  exact processChannel_ramp_active mode d dt _ _ _ h

/-- The end-of-cycle generator on a sample on which the gate does not end: it
is only advanced. -/
theorem eoc_plain (n : Nat)
    (h : (((trig n && decide (0 < d)) ||
        !(runChannel mode d dt trig (fun _ => false) ch n).gateGen.finished) &&
      (runChannel mode d dt trig (fun _ => false) ch (n + 1)).gateGen.finished) = false) :
    (runChannel mode d dt trig (fun _ => false) ch (n + 1)).eocGen
      = (process (runChannel mode d dt trig (fun _ => false) ch n).eocGen dt).1 ∧
    (outAt mode d dt trig (fun _ => false) ch n).eoc
      = if (process (runChannel mode d dt trig (fun _ => false) ch n).eocGen dt).2
          then 10 else 0 := by
  have h1 := processChannel_eocGen mode d dt (trig n)
    (runChannel mode d dt trig (fun _ => false) ch n)
  rw [runChannel_succ_f32] at h ⊢
  rw [h] at h1
  simpa [outAt] using h1

/-- The end-of-cycle generator on the sample on which the gate ends: it is
triggered with `1e-3f` and advanced. -/
theorem eoc_triggered (n : Nat)
    (h : (((trig n && decide (0 < d)) ||
        !(runChannel mode d dt trig (fun _ => false) ch n).gateGen.finished) &&
      (runChannel mode d dt trig (fun _ => false) ch (n + 1)).gateGen.finished) = true) :
    (runChannel mode d dt trig (fun _ => false) ch (n + 1)).eocGen
      = { time := round dt, triggerDuration := eocDuration,
          finished := decide (eocDuration ≤ round dt) } ∧
    (outAt mode d dt trig (fun _ => false) ch n).eoc
      = if round dt < eocDuration then 10 else 0 := by
  have h1 := processChannel_eocGen mode d dt (trig n)
    (runChannel mode d dt trig (fun _ => false) ch n)
  rw [runChannel_succ_f32] at h ⊢
  rw [h] at h1
  by_cases hc : eocDuration ≤ round dt
  · simpa [outAt, process, CustomPulseGenerator.trigger, hc, not_lt.2 hc] using h1
  · simpa [outAt, process, CustomPulseGenerator.trigger, hc, not_le.1 hc] using h1

end SingleTriggerRun

end F32

namespace F32

theorem process_finished (g : CustomPulseGenerator ℚ) (dt : ℚ) (h : g.finished = true) :
    (process g dt).1.finished = true ∧
    (process g dt).1.triggerDuration = g.triggerDuration ∧ (process g dt).2 = false := by
  simp [process, h]

/-- A bound that one more addition does not exceed bounds every accumulated
time of a constant step. -/
theorem accumulate_replicate_le (dt c : ℚ) (h0 : round dt ≤ c) (hc : round (c + dt) ≤ c)
    (i : Nat) : accumulate 0 (List.replicate (i + 1) dt) ≤ c := by
  induction i with
  | zero => rw [zero_add, accumulate_replicate_one]; exact h0
  | succ i ih =>
    rw [accumulate_replicate_succ]
    exact le_trans (round_mono _ _ (by linarith)) hc

/-- The accumulated time of a constant non-negative step does not decrease. -/
theorem accumulate_replicate_mono (dt : ℚ) (hdt : 0 ≤ dt) (i j : Nat) (hij : i ≤ j) :
    accumulate 0 (List.replicate (i + 1) dt) ≤ accumulate 0 (List.replicate (j + 1) dt) := by
  obtain ⟨e, rfl⟩ := Nat.exists_eq_add_of_le hij
  have hsplit : List.replicate (i + e + 1) dt
      = List.replicate (i + 1) dt ++ List.replicate e dt := by
    rw [← List.replicate_add]
    congr 1
    omega
  rw [hsplit, accumulate_append]
  refine le_accumulate _ _ (round_accumulate 0 _ round_zero) ?_
  intro x hx
  rw [List.eq_of_mem_replicate hx]
  exact hdt

section SingleTriggerEoc

variable (mode : Int) (d dt : ℚ) (trig : Nat → Bool) (k : Nat) (ch : Channel ℚ)

theorem processChannel_gate_prev (t : Bool) (ch : Channel ℚ) :
    (processChannel mode d dt t false ch).2.gate_prev
      = ((t && decide (0 < d)) || !ch.gateGen.finished) := by
  cases t <;> by_cases hd : 0 < d <;> simp [processChannel, CustomPulseGenerator.trigger, hd]

/-- A run in which the gate never ends: an idle end-of-cycle generator stays
idle with its duration untouched, and the end-of-cycle output is 0. -/
theorem runChannel_eoc_idle
    (h : ∀ n, n < k ∨ (runChannel mode d dt trig (fun _ => false) ch (n + 1)).gateGen.finished
      = false)
    (hidle : ch.gateGen.finished = true) (hk : ∀ n, trig n = true ↔ n = k)
    (hf : ch.eocGen.finished = true) (n : Nat) :
    (runChannel mode d dt trig (fun _ => false) ch n).eocGen.finished = true ∧
    (runChannel mode d dt trig (fun _ => false) ch n).eocGen.triggerDuration
      = ch.eocGen.triggerDuration ∧
    (outAt mode d dt trig (fun _ => false) ch n).eoc = 0 := by
  have hplain : ∀ n, (((trig n && decide (0 < d)) ||
        !(runChannel mode d dt trig (fun _ => false) ch n).gateGen.finished) &&
      (runChannel mode d dt trig (fun _ => false) ch (n + 1)).gateGen.finished) = false := by
    intro n
    rcases h n with hn | hn
    · rw [trig_false_of_ne_f32 trig k hk n (by omega),
        runChannel_before_f32 mode d dt trig k ch hidle hk n (by omega)]
      rfl
    · rw [hn, Bool.and_false]
  have hstate : ∀ n, (runChannel mode d dt trig (fun _ => false) ch n).eocGen.finished = true ∧
      (runChannel mode d dt trig (fun _ => false) ch n).eocGen.triggerDuration
        = ch.eocGen.triggerDuration := by
    intro n
    induction n with
    | zero => exact ⟨hf, rfl⟩
    | succ n ih =>
      rw [(eoc_plain mode d dt trig ch n (hplain n)).1]
      have hp := process_finished _ dt ih.1
      exact ⟨hp.1, hp.2.1.trans ih.2⟩
  refine ⟨(hstate n).1, (hstate n).2, ?_⟩
  rw [(eoc_plain mode d dt trig ch n (hplain n)).2, (process_finished _ dt (hstate n).1).2.2]
  rfl

/-- A sample time that is at least `1e-3f` after rounding: an idle end-of-cycle
generator is idle after every sample and the end-of-cycle output is 0 on every
sample, triggered or not. -/
theorem runChannel_eoc_slow_f32 (hdt : eocDuration ≤ round dt) (hf : ch.eocGen.finished = true)
    (n : Nat) :
    (runChannel mode d dt trig (fun _ => false) ch n).eocGen.finished = true ∧
    (outAt mode d dt trig (fun _ => false) ch n).eoc = 0 := by
  have hstep : ∀ (t : Bool) (c : Channel ℚ), c.eocGen.finished = true →
      (processChannel mode d dt t false c).1.eocGen.finished = true ∧
      (processChannel mode d dt t false c).2.eoc = 0 := by
    intro t c hc
    have h1 := processChannel_eocGen mode d dt t c
    rw [h1.1, h1.2]
    split
    · simp [process, CustomPulseGenerator.trigger, hdt]
    · simp [process, hc]
  have hstate : ∀ n, (runChannel mode d dt trig (fun _ => false) ch n).eocGen.finished = true := by
    intro n
    induction n with
    | zero => exact hf
    | succ n ih => rw [runChannel_succ_f32]; exact (hstep _ _ ih).1
  exact ⟨hstate n, (hstep _ _ (hstate n)).2⟩

end SingleTriggerEoc

unseal Rat.add Rat.mul Rat.inv Rat.sub in
/-- The value of the literal `1e-3f`. -/
theorem eocDuration_eq : eocDuration = 8589935 / 8589934592 := by decide

set_option maxRecDepth 100000 in
unseal Rat.add Rat.mul Rat.inv Rat.sub in
/-- Adding `1e-7f` to 2 rounds back to 2. -/
theorem stall_values :
    round (round (1 / 10000000)) ≤ 2 ∧ round (2 + round (1 / 10000000)) ≤ 2 ∧
    0 < round (1 / 10000000) ∧ eocDuration ≠ 0 := by decide

end F32

/-- Claim C3, refuted as stated.  Duration 10 and sample time `1e-7f`, a fresh
channel, the trigger edge on the first sample and no reset: the duration and
the sample time are positive, yet the rounded accumulated time never exceeds 2
(the sum `2 + 1e-7f` rounds to 2), so on every sample the gate output is 10,
the end-of-cycle generator has never been triggered (it is idle and its
duration is still 0, not `1e-3f`) and the end-of-cycle output is 0. -/
theorem C3_float_time_stalls :
    (0 : ℚ) < 10 ∧ 0 < F32.round (1 / 10000000) ∧ F32.eocDuration ≠ 0 ∧
    ∀ n,
      (F32.runChannel 0 10 (F32.round (1 / 10000000)) (fun n => decide (n = 0))
        (fun _ => false) ⟨⟨0, 0, true⟩, ⟨0, 0, true⟩⟩ (n + 1)).gateGen.time ≤ 2 ∧
      (F32.outAt 0 10 (F32.round (1 / 10000000)) (fun n => decide (n = 0))
        (fun _ => false) ⟨⟨0, 0, true⟩, ⟨0, 0, true⟩⟩ n).gate = 10 ∧
      (F32.runChannel 0 10 (F32.round (1 / 10000000)) (fun n => decide (n = 0))
        (fun _ => false) ⟨⟨0, 0, true⟩, ⟨0, 0, true⟩⟩ (n + 1)).eocGen.triggerDuration = 0 ∧
      (F32.runChannel 0 10 (F32.round (1 / 10000000)) (fun n => decide (n = 0))
        (fun _ => false) ⟨⟨0, 0, true⟩, ⟨0, 0, true⟩⟩ (n + 1)).eocGen.finished = true ∧
      (F32.outAt 0 10 (F32.round (1 / 10000000)) (fun n => decide (n = 0))
        (fun _ => false) ⟨⟨0, 0, true⟩, ⟨0, 0, true⟩⟩ n).eoc = 0 := by
  have hk : ∀ n, (fun n => decide (n = 0)) n = true ↔ n = 0 := by intro n; simp
  have hbound : ∀ i, F32.accumulate 0 (List.replicate (i + 1) (F32.round (1 / 10000000))) ≤ 2 :=
    F32.accumulate_replicate_le _ 2 F32.stall_values.1 F32.stall_values.2.1
  have hact : ∀ j, (F32.runChannel 0 10 (F32.round (1 / 10000000)) (fun n => decide (n = 0))
      (fun _ => false) ⟨⟨0, 0, true⟩, ⟨0, 0, true⟩⟩ (j + 1)).gateGen
      = { time := F32.accumulate 0 (List.replicate (j + 1) (F32.round (1 / 10000000))),
          triggerDuration := 10, finished := false } := by
    intro j
    have h := F32.runChannel_active 0 10 (F32.round (1 / 10000000)) (fun n => decide (n = 0)) 0
      ⟨⟨0, 0, true⟩, ⟨0, 0, true⟩⟩ (by norm_num) hk j
      (fun i _ => lt_of_le_of_lt (hbound i) (by norm_num))
    rwa [zero_add] at h
  refine ⟨by norm_num, F32.stall_values.2.2.1, F32.stall_values.2.2.2, fun n => ?_⟩
  have hidle := F32.runChannel_eoc_idle 0 10 (F32.round (1 / 10000000))
    (fun n => decide (n = 0)) 0 ⟨⟨0, 0, true⟩, ⟨0, 0, true⟩⟩
    (fun n => Or.inr (by rw [hact n])) rfl hk rfl
  refine ⟨?_, ?_, (hidle (n + 1)).2.1, (hidle (n + 1)).1, (hidle n).2.2⟩
  · rw [hact n]
    exact hbound n
  · rw [F32.outAt_gate_f32, hact n]
    rfl

/-- Claim C3, amended.  With binary32 rounding, one channel, constant duration
`d > 0` and sample time `dt > 0`, no reset edge, the trigger edge on sample `k`
only, gate idle at the start.  Let `m` be the first index at which the time as
the code accumulates it (`m + 1` rounded additions of `dt`) reaches `d`.  Then
the gate output is 10 on the samples from `k` up to `k + m` (excluded) and 0 on
all others; on sample `k + m` the gate was active before the advance and is
inactive after it, and the end-of-cycle generator is restarted there with the
duration `1e-3f`, whatever `d`, and advanced by `dt`; on every other sample it
is only advanced, never restarted; the end-of-cycle output is 10 exactly while
the advanced generator is active. -/
theorem C3_float_single_eoc_trigger (mode : Int) (d dt : ℚ) (trig : Nat → Bool)
    (k m : Nat) (ch : Channel ℚ) (hd : 0 < d) (_hdt : 0 < dt)
    (hidle : ch.gateGen.finished = true) (hk : ∀ n, trig n = true ↔ n = k)
    (hlt : ∀ i, i < m → F32.accumulate 0 (List.replicate (i + 1) dt) < d)
    (hge : d ≤ F32.accumulate 0 (List.replicate (m + 1) dt)) :
    (∀ n, k ≤ n → n < k + m →
      (F32.outAt mode d dt trig (fun _ => false) ch n).gate = 10) ∧
    (∀ n, n < k ∨ k + m ≤ n →
      (F32.outAt mode d dt trig (fun _ => false) ch n).gate = 0) ∧
    (F32.outAt mode d dt trig (fun _ => false) ch (k + m)).gate_prev = true ∧
    (F32.outAt mode d dt trig (fun _ => false) ch (k + m)).gateActive = false ∧
    (F32.runChannel mode d dt trig (fun _ => false) ch (k + m + 1)).eocGen
      = { time := F32.round dt, triggerDuration := F32.eocDuration,
          finished := decide (F32.eocDuration ≤ F32.round dt) } ∧
    (F32.outAt mode d dt trig (fun _ => false) ch (k + m)).eoc
      = (if F32.round dt < F32.eocDuration then 10 else 0) ∧
    (∀ n, n ≠ k + m →
      (F32.runChannel mode d dt trig (fun _ => false) ch (n + 1)).eocGen
        = (F32.process (F32.runChannel mode d dt trig (fun _ => false) ch n).eocGen dt).1 ∧
      (F32.outAt mode d dt trig (fun _ => false) ch n).eoc
        = if (F32.process (F32.runChannel mode d dt trig (fun _ => false) ch n).eocGen dt).2
            then 10 else 0) ∧
    F32.eocDuration = 8589935 / 8589934592 := by
  -- the `finished` flag of the gate generator before and after each sample
  have hbefore : ∀ n, n ≤ k →
      (F32.runChannel mode d dt trig (fun _ => false) ch n).gateGen.finished = true :=
    F32.runChannel_before_f32 mode d dt trig k ch hidle hk
  have hactive : ∀ j, j < m →
      (F32.runChannel mode d dt trig (fun _ => false) ch (k + j + 1)).gateGen.finished
        = false := by
    intro j hj
    rw [F32.runChannel_active mode d dt trig k ch hd hk j (fun i hi => hlt i (by omega))]
  have hdone : ∀ j, m ≤ j →
      (F32.runChannel mode d dt trig (fun _ => false) ch (k + j + 1)).gateGen.finished
        = true := by
    intro j hj
    rw [F32.runChannel_done mode d dt trig k ch hd hk m hlt hge j hj]
  -- the gate was active before the advance of sample `k + m`
  have hprev : ((trig (k + m) && decide (0 < d)) ||
      !(F32.runChannel mode d dt trig (fun _ => false) ch (k + m)).gateGen.finished) = true := by
    cases m with
    | zero => simp [(hk k).2 rfl, hd]
    | succ m =>
      have h := hactive m (by omega)
      have hidx : k + (m + 1) = k + m + 1 := by omega
      rw [hidx, h]
      simp
  refine ⟨?_, ?_, ?_, ?_, ?_, ?_, ?_, F32.eocDuration_eq⟩
  · intro n hkn hnm
    obtain ⟨j, rfl⟩ := Nat.exists_eq_add_of_le hkn
    rw [F32.outAt_gate_f32, hactive j (by omega)]
    rfl
  · intro n hn
    rw [F32.outAt_gate_f32]
    rcases hn with hn | hn
    · have h := hbefore (n + 1) (by omega)
      rw [h]
      rfl
    · obtain ⟨j, rfl⟩ := Nat.exists_eq_add_of_le hn
      have hidx : k + m + j = k + (m + j) := by omega
      rw [hidx, hdone (m + j) (by omega)]
      rfl
  · simp only [F32.outAt]
    rw [F32.processChannel_gate_prev]
    exact hprev
  · simp only [F32.outAt]
    rw [F32.processChannel_gateActive_f32]
    exact congrArg not (hdone m le_rfl)
  · refine (F32.eoc_triggered mode d dt trig ch (k + m) ?_).1
    rw [hprev, hdone m le_rfl]
    rfl
  · refine (F32.eoc_triggered mode d dt trig ch (k + m) ?_).2
    rw [hprev, hdone m le_rfl]
    rfl
  · intro n hn
    refine F32.eoc_plain mode d dt trig ch n ?_
    rcases Nat.lt_or_ge n k with hnk | hnk
    · rw [F32.trig_false_of_ne_f32 trig k hk n (by omega), hbefore n (by omega)]
      rfl
    · obtain ⟨j, rfl⟩ := Nat.exists_eq_add_of_le hnk
      rcases Nat.lt_or_ge j m with hjm | hjm
      · rw [hactive j hjm, Bool.and_false]
      · have hj0 : j ≠ 0 ∨ m < j := by omega
        have hjm2 : m < j := by omega
        obtain ⟨i, rfl⟩ : ∃ i, j = i + 1 := ⟨j - 1, by omega⟩
        have hidx : k + (i + 1) = k + i + 1 := by omega
        rw [F32.trig_false_of_ne_f32 trig k hk (k + (i + 1)) (by omega), hidx,
          hdone i (by omega)]
        rfl

unseal Rat.add Rat.mul Rat.inv Rat.sub in
/-- Instance of C3: duration 1, sample time 1/4, trigger edge on sample 1, fresh
channel; the accumulated time reaches the duration at the fourth addition. -/
theorem C3_float_single_eoc_trigger_witness :
    (F32.outAt 0 1 (1 / 4) (fun n => decide (n = 1)) (fun _ => false)
      ⟨⟨0, 0, true⟩, ⟨0, 0, true⟩⟩ 3).gate = 10 ∧
    (F32.outAt 0 1 (1 / 4) (fun n => decide (n = 1)) (fun _ => false)
      ⟨⟨0, 0, true⟩, ⟨0, 0, true⟩⟩ 4).gate = 0 ∧
    (F32.runChannel 0 1 (1 / 4) (fun n => decide (n = 1)) (fun _ => false)
      ⟨⟨0, 0, true⟩, ⟨0, 0, true⟩⟩ 5).eocGen
      = { time := F32.round (1 / 4), triggerDuration := F32.eocDuration,
          finished := decide (F32.eocDuration ≤ F32.round (1 / 4)) } := by
  have h := C3_float_single_eoc_trigger 0 1 (1 / 4) (fun n => decide (n = 1)) 1 3
    ⟨⟨0, 0, true⟩, ⟨0, 0, true⟩⟩ (by norm_num) (by norm_num) rfl (by intro n; simp)
    (by decide) (by decide)
  exact ⟨h.1 3 (by omega) (by omega), h.2.1 4 (Or.inr (by omega)), h.2.2.2.2.1⟩

namespace F32

theorem accumulate_chain (t dt u v : ℚ) (a b c : Nat) (hc : a + b = c)
    (h1 : accumulate t (List.replicate a dt) = u)
    (h2 : accumulate u (List.replicate b dt) = v) :
    accumulate t (List.replicate c dt) = v := by
  subst hc
  rw [List.replicate_add, accumulate_append, h1, h2]

/-! The time accumulated from 0 by rounded additions of `0.001f`, in stretches
of a hundred additions up to 1900, then 99 more and one more. -/

theorem scenario_step_100 :
    accumulate (0) (List.replicate 100 (8589935 / 8589934592))
      = 838861 / 8388608 := by
  decide!

theorem scenario_step_200 :
    accumulate (838861 / 8388608) (List.replicate 100 (8589935 / 8589934592))
      = 3355447 / 16777216 := by
  decide!

theorem scenario_step_300 :
    accumulate (3355447 / 16777216) (List.replicate 100 (8589935 / 8589934592))
      = 10066319 / 33554432 := by
  decide!

theorem scenario_step_400 :
    accumulate (10066319 / 33554432) (List.replicate 100 (8589935 / 8589934592))
      = 13421719 / 33554432 := by
  decide!

theorem scenario_step_500 :
    accumulate (13421719 / 33554432) (List.replicate 100 (8589935 / 8589934592))
      = 16777119 / 33554432 := by
  decide!

theorem scenario_step_600 :
    accumulate (16777119 / 33554432) (List.replicate 100 (8589935 / 8589934592))
      = 2516565 / 4194304 := by
  decide!

theorem scenario_step_700 :
    accumulate (2516565 / 4194304) (List.replicate 100 (8589935 / 8589934592))
      = 1467995 / 2097152 := by
  decide!

theorem scenario_step_800 :
    accumulate (1467995 / 2097152) (List.replicate 100 (8589935 / 8589934592))
      = 3355415 / 4194304 := by
  decide!

theorem scenario_step_900 :
    accumulate (3355415 / 4194304) (List.replicate 100 (8589935 / 8589934592))
      = 471855 / 524288 := by
  decide!

theorem scenario_step_1000 :
    accumulate (471855 / 524288) (List.replicate 100 (8589935 / 8589934592))
      = 4194265 / 4194304 := by
  decide!

theorem scenario_step_1100 :
    accumulate (4194265 / 4194304) (List.replicate 100 (8589935 / 8589934592))
      = 4613715 / 4194304 := by
  decide!

theorem scenario_step_1200 :
    accumulate (4613715 / 4194304) (List.replicate 100 (8589935 / 8589934592))
      = 5033165 / 4194304 := by
  decide!

theorem scenario_step_1300 :
    accumulate (5033165 / 4194304) (List.replicate 100 (8589935 / 8589934592))
      = 5452615 / 4194304 := by
  decide!

theorem scenario_step_1400 :
    accumulate (5452615 / 4194304) (List.replicate 100 (8589935 / 8589934592))
      = 5872065 / 4194304 := by
  decide!

theorem scenario_step_1500 :
    accumulate (5872065 / 4194304) (List.replicate 100 (8589935 / 8589934592))
      = 6291515 / 4194304 := by
  decide!

theorem scenario_step_1600 :
    accumulate (6291515 / 4194304) (List.replicate 100 (8589935 / 8589934592))
      = 6710965 / 4194304 := by
  decide!

theorem scenario_step_1700 :
    accumulate (6710965 / 4194304) (List.replicate 100 (8589935 / 8589934592))
      = 7130415 / 4194304 := by
  decide!

theorem scenario_step_1800 :
    accumulate (7130415 / 4194304) (List.replicate 100 (8589935 / 8589934592))
      = 7549865 / 4194304 := by
  decide!

theorem scenario_step_1900 :
    accumulate (7549865 / 4194304) (List.replicate 100 (8589935 / 8589934592))
      = 7969315 / 4194304 := by
  decide!

theorem scenario_step_1999 :
    accumulate (7969315 / 4194304) (List.replicate 99 (8589935 / 8589934592))
      = 16769141 / 8388608 := by
  decide!

theorem scenario_step_2000 :
    accumulate (16769141 / 8388608) (List.replicate 1 (8589935 / 8589934592))
      = 8388765 / 4194304 := by
  decide!

theorem scenario_time_100 :
    accumulate 0 (List.replicate 100 (8589935 / 8589934592)) = 838861 / 8388608 :=
  scenario_step_100

theorem scenario_time_200 :
    accumulate 0 (List.replicate 200 (8589935 / 8589934592)) = 3355447 / 16777216 :=
  accumulate_chain 0 (8589935 / 8589934592) _ _ 100 100 200 rfl scenario_time_100 scenario_step_200

theorem scenario_time_300 :
    accumulate 0 (List.replicate 300 (8589935 / 8589934592)) = 10066319 / 33554432 :=
  accumulate_chain 0 (8589935 / 8589934592) _ _ 200 100 300 rfl scenario_time_200 scenario_step_300

theorem scenario_time_400 :
    accumulate 0 (List.replicate 400 (8589935 / 8589934592)) = 13421719 / 33554432 :=
  accumulate_chain 0 (8589935 / 8589934592) _ _ 300 100 400 rfl scenario_time_300 scenario_step_400

theorem scenario_time_500 :
    accumulate 0 (List.replicate 500 (8589935 / 8589934592)) = 16777119 / 33554432 :=
  accumulate_chain 0 (8589935 / 8589934592) _ _ 400 100 500 rfl scenario_time_400 scenario_step_500

theorem scenario_time_600 :
    accumulate 0 (List.replicate 600 (8589935 / 8589934592)) = 2516565 / 4194304 :=
  accumulate_chain 0 (8589935 / 8589934592) _ _ 500 100 600 rfl scenario_time_500 scenario_step_600

theorem scenario_time_700 :
    accumulate 0 (List.replicate 700 (8589935 / 8589934592)) = 1467995 / 2097152 :=
  accumulate_chain 0 (8589935 / 8589934592) _ _ 600 100 700 rfl scenario_time_600 scenario_step_700

theorem scenario_time_800 :
    accumulate 0 (List.replicate 800 (8589935 / 8589934592)) = 3355415 / 4194304 :=
  accumulate_chain 0 (8589935 / 8589934592) _ _ 700 100 800 rfl scenario_time_700 scenario_step_800

theorem scenario_time_900 :
    accumulate 0 (List.replicate 900 (8589935 / 8589934592)) = 471855 / 524288 :=
  accumulate_chain 0 (8589935 / 8589934592) _ _ 800 100 900 rfl scenario_time_800 scenario_step_900

theorem scenario_time_1000 :
    accumulate 0 (List.replicate 1000 (8589935 / 8589934592)) = 4194265 / 4194304 :=
  accumulate_chain 0 (8589935 / 8589934592) _ _ 900 100 1000 rfl scenario_time_900 scenario_step_1000

theorem scenario_time_1100 :
    accumulate 0 (List.replicate 1100 (8589935 / 8589934592)) = 4613715 / 4194304 :=
  accumulate_chain 0 (8589935 / 8589934592) _ _ 1000 100 1100 rfl scenario_time_1000 scenario_step_1100

theorem scenario_time_1200 :
    accumulate 0 (List.replicate 1200 (8589935 / 8589934592)) = 5033165 / 4194304 :=
  accumulate_chain 0 (8589935 / 8589934592) _ _ 1100 100 1200 rfl scenario_time_1100 scenario_step_1200

theorem scenario_time_1300 :
    accumulate 0 (List.replicate 1300 (8589935 / 8589934592)) = 5452615 / 4194304 :=
  accumulate_chain 0 (8589935 / 8589934592) _ _ 1200 100 1300 rfl scenario_time_1200 scenario_step_1300

theorem scenario_time_1400 :
    accumulate 0 (List.replicate 1400 (8589935 / 8589934592)) = 5872065 / 4194304 :=
  accumulate_chain 0 (8589935 / 8589934592) _ _ 1300 100 1400 rfl scenario_time_1300 scenario_step_1400

theorem scenario_time_1500 :
    accumulate 0 (List.replicate 1500 (8589935 / 8589934592)) = 6291515 / 4194304 :=
  accumulate_chain 0 (8589935 / 8589934592) _ _ 1400 100 1500 rfl scenario_time_1400 scenario_step_1500

theorem scenario_time_1600 :
    accumulate 0 (List.replicate 1600 (8589935 / 8589934592)) = 6710965 / 4194304 :=
  accumulate_chain 0 (8589935 / 8589934592) _ _ 1500 100 1600 rfl scenario_time_1500 scenario_step_1600

theorem scenario_time_1700 :
    accumulate 0 (List.replicate 1700 (8589935 / 8589934592)) = 7130415 / 4194304 :=
  accumulate_chain 0 (8589935 / 8589934592) _ _ 1600 100 1700 rfl scenario_time_1600 scenario_step_1700

theorem scenario_time_1800 :
    accumulate 0 (List.replicate 1800 (8589935 / 8589934592)) = 7549865 / 4194304 :=
  accumulate_chain 0 (8589935 / 8589934592) _ _ 1700 100 1800 rfl scenario_time_1700 scenario_step_1800

theorem scenario_time_1900 :
    accumulate 0 (List.replicate 1900 (8589935 / 8589934592)) = 7969315 / 4194304 :=
  accumulate_chain 0 (8589935 / 8589934592) _ _ 1800 100 1900 rfl scenario_time_1800 scenario_step_1900

theorem scenario_time_1999 :
    accumulate 0 (List.replicate 1999 (8589935 / 8589934592)) = 16769141 / 8388608 :=
  accumulate_chain 0 (8589935 / 8589934592) _ _ 1900 99 1999 rfl scenario_time_1900 scenario_step_1999

theorem scenario_time_2000 :
    accumulate 0 (List.replicate 2000 (8589935 / 8589934592)) = 8388765 / 4194304 :=
  accumulate_chain 0 (8589935 / 8589934592) _ _ 1999 1 2000 rfl scenario_time_1999 scenario_step_2000

end F32

namespace F32

/-- The literal `0.001f` is a binary32 value. -/
theorem round_eocDuration : round eocDuration = eocDuration :=
  round_idem _

unseal Rat.add Rat.mul Rat.inv Rat.sub in
/-- The ramp value at time `4194265 / 4194304` of a ramp of duration 2. -/
theorem scenario_ramp :
    rampValue { time := 4194265 / 4194304, triggerDuration := 2, finished := false }
      = 5242831 / 1048576 := by
  decide

end F32

/-- Claim C4, amended.  With binary32 rounding: duration 2 s, sample time
`0.001f`, a fresh channel, the trigger edge on the first sample (sample 1,
index 0) and no reset.  The ramp output at sample 1000 is
`5242831 / 1048576 = 4.99995327`, not 5; the gate output is 10 at sample 1999
and 0 at sample 2000; on sample 2000 the end-of-cycle generator is restarted
with duration `1e-3f` and, being advanced by `0.001f` on that same sample, is
finished at once: the end-of-cycle output is 0 on every sample. -/
theorem C4_float_scenario_2s_1ms :
    (F32.outAt RAMP_FINISHED_0 2 (F32.round (1 / 1000)) (fun n => decide (n = 0))
      (fun _ => false) ⟨⟨0, 0, true⟩, ⟨0, 0, true⟩⟩ 999).ramp = 5242831 / 1048576 ∧
    (F32.outAt RAMP_FINISHED_0 2 (F32.round (1 / 1000)) (fun n => decide (n = 0))
      (fun _ => false) ⟨⟨0, 0, true⟩, ⟨0, 0, true⟩⟩ 1998).gate = 10 ∧
    (F32.outAt RAMP_FINISHED_0 2 (F32.round (1 / 1000)) (fun n => decide (n = 0))
      (fun _ => false) ⟨⟨0, 0, true⟩, ⟨0, 0, true⟩⟩ 1999).gate = 0 ∧
    (F32.runChannel RAMP_FINISHED_0 2 (F32.round (1 / 1000)) (fun n => decide (n = 0))
      (fun _ => false) ⟨⟨0, 0, true⟩, ⟨0, 0, true⟩⟩ 2000).eocGen
      = { time := F32.eocDuration, triggerDuration := F32.eocDuration, finished := true } ∧
    (∀ n, (F32.outAt RAMP_FINISHED_0 2 (F32.round (1 / 1000)) (fun n => decide (n = 0))
      (fun _ => false) ⟨⟨0, 0, true⟩, ⟨0, 0, true⟩⟩ n).eoc = 0) := by
  have hk : ∀ n, (fun n => decide (n = 0)) n = true ↔ n = 0 := by intro n; simp
  have hdt : F32.round (1 / 1000) = 8589935 / 8589934592 := F32.eocDuration_eq
  have hdt0 : (0 : ℚ) ≤ F32.round (1 / 1000) := by rw [hdt]; norm_num
  have hT999 : F32.accumulate 0 (List.replicate (999 + 1) (F32.round (1 / 1000)))
      = 4194265 / 4194304 := by rw [hdt]; exact F32.scenario_time_1000
  have hT1998 : F32.accumulate 0 (List.replicate (1998 + 1) (F32.round (1 / 1000)))
      = 16769141 / 8388608 := by rw [hdt]; exact F32.scenario_time_1999
  have hT1999 : F32.accumulate 0 (List.replicate (1999 + 1) (F32.round (1 / 1000)))
      = 8388765 / 4194304 := by rw [hdt]; exact F32.scenario_time_2000
  have hlt : ∀ i, i < 1999 →
      F32.accumulate 0 (List.replicate (i + 1) (F32.round (1 / 1000))) < 2 := by
    intro i hi
    have h := F32.accumulate_replicate_mono (F32.round (1 / 1000)) hdt0 i 1998 (by omega)
    rw [hT1998] at h
    exact lt_of_le_of_lt h (by norm_num)
  have hge : (2 : ℚ) ≤ F32.accumulate 0 (List.replicate (1999 + 1) (F32.round (1 / 1000))) := by
    rw [hT1999]; norm_num
  have hact := F32.runChannel_active RAMP_FINISHED_0 2 (F32.round (1 / 1000))
    (fun n => decide (n = 0)) 0 ⟨⟨0, 0, true⟩, ⟨0, 0, true⟩⟩ (by norm_num) hk
  have hdone := F32.runChannel_done RAMP_FINISHED_0 2 (F32.round (1 / 1000))
    (fun n => decide (n = 0)) 0 ⟨⟨0, 0, true⟩, ⟨0, 0, true⟩⟩ (by norm_num) hk 1999 hlt hge
  simp only [zero_add] at hact hdone
  have h999 := hact 999 (fun i hi => hlt i (by omega))
  have h1998 := hact 1998 (fun i hi => hlt i (by omega))
  have h1999 := hdone 1999 le_rfl
  refine ⟨?_, ?_, ?_, ?_, ?_⟩
  · rw [F32.outAt_ramp_active _ _ _ _ _ _ _ (by rw [h999]), h999, hT999]
    exact F32.scenario_ramp
  · rw [F32.outAt_gate_f32, h1998]
    rfl
  · rw [F32.outAt_gate_f32, h1999]
    rfl
  · have h := (F32.eoc_triggered RAMP_FINISHED_0 2 (F32.round (1 / 1000))
      (fun n => decide (n = 0)) ⟨⟨0, 0, true⟩, ⟨0, 0, true⟩⟩ 1999 (by rw [h1998, h1999]; rfl)).1
    rw [h]
    have hr : F32.round (F32.round (1 / 1000)) = F32.eocDuration := F32.round_eocDuration
    rw [hr]
    simp
  · intro n
    exact (F32.runChannel_eoc_slow_f32 RAMP_FINISHED_0 2 (F32.round (1 / 1000))
      (fun n => decide (n = 0)) ⟨⟨0, 0, true⟩, ⟨0, 0, true⟩⟩
      (le_of_eq F32.round_eocDuration.symm) rfl n).2

namespace F32

section RescaleLemmas

end RescaleLemmas

end F32

end PdArray
